import Mathlib

/-!
# A cooperative I/O scheduler built on C++ coroutines

A shallow embedding of `blog/2023/cpp-coro-part-2-await-fizz-buzz.cc`:
the `Awaitable` request object, the `Scheduler` table `m_awaitables`,
`Scheduler::pump_events`, and the `co_await` protocol that connects them;
then the descriptors and the event loop of `main`, and the coroutines `fizz`,
`buzz` and `consume` of the demo (namespace `FizzBuzz`).  The generators of
`blog/2023/cpp-coro-part-1-yield-return-prime-sieve.cc` are embedded in the
namespace `PrimeSieve`.

Conventions of the embedding.

* `int`, `ssize_t` and `errno` values are `Int`; `size_t` is `Nat`.
* A null pointer or null coroutine handle is `Option.none`.
* `Awaitable` objects live in a heap `Ptr → Awaitable`; the table stores
  pointers, as the source does.
* The operating system is an oracle: every descriptor has a list of the
  outcomes its next `read`/`write` calls will have, and `poll` is given by
  its outcome.  When a descriptor has no outcome left the model stops with
  `Stop.no_outcome`.
* `assert` failures and out-of-range array indices stop the run with the
  state reached at that point.
-/

namespace CoroSched

/-! ## Constants -/

/-- The C++ constant `MAX_EXCLUSIVE_FD`. -/
abbrev MAX_EXCLUSIVE_FD : Nat := 32

/-- Linux value of `EINTR` from `<errno.h>`. -/
def EINTR : Int := 4

/-- Linux value of `EAGAIN` from `<errno.h>`. -/
def EAGAIN : Int := 11

/-- Linux value of `POLLIN` from `<poll.h>`. -/
def POLLIN : Int := 1

/-- Linux value of `POLLOUT` from `<poll.h>`. -/
def POLLOUT : Int := 4

/-- I/O operation, the C++ `enum class IOp`. -/
inductive IOp where
  | READ
  | WRITE
  deriving DecidableEq, Repr

/-- The C++ alias `AsyncIOResult`: bytes read or written, then the errno. -/
abbrev AsyncIOResult := Int × Int

/-- A coroutine handle that is not null. -/
abbrev Handle := Nat

/-- The address of an `Awaitable` object. -/
abbrev Ptr := Nat

/-! ## The operating system as an oracle -/

/-- What one `read` or `write` call does: it returns `n ≥ 0` and leaves
`errno` alone, or it returns `-1` and sets `errno`. -/
inductive Outcome where
  | ret (n : Nat)
  | fail (e : Int)
  deriving DecidableEq, Repr

/-- The value the system call returns. -/
def Outcome.value : Outcome → Int
  | .ret n => (n : Int)
  | .fail _ => -1

/-- The value of `errno` after the call, given its value before. -/
def Outcome.errno_after (before : Int) : Outcome → Int
  | .ret _ => before
  | .fail e => e

/-- What `poll(polls, num_p, -1)` does: it returns a negative value and sets
`errno`, or it returns a count and has filled in the `revents` field of every
entry; `revents fd` is what it reports for descriptor `fd`. -/
inductive PollOutcome where
  | fail (errno : Int)
  | ready (revents : Int → Int)

/-! ## Awaitable -/

/-- The C++ class `Awaitable`: its I/O arguments, its result and the
suspended coroutine.  `m_scheduler` is left out (there is one scheduler). -/
structure Awaitable where
  m_fd : Int
  m_ptr : Nat
  m_len : Nat
  m_iop : IOp
  m_result : AsyncIOResult
  m_cohandle : Option Handle
  deriving DecidableEq, Repr

namespace Awaitable

/-- The method `Awaitable::await_ready` run against the outcomes `tr` that the
next system calls on `m_fd` will have.  Each round of the `do ... while` sets
`errno = 0`, makes one call and stores `((n >= 0) ? n : 0, errno)`; the loop
goes round again while the stored errno is `EINTR`.  The result is the
returned boolean, the object afterwards and the outcomes not used; `none`
when the outcomes run out before the loop ends. -/
def await_ready (a : Awaitable) : List Outcome → Option (Bool × Awaitable × List Outcome)
  | [] => none
  | o :: tr =>
    let n : Int := o.value
    let errno : Int := o.errno_after 0
    let a1 : Awaitable := { a with m_result := (if n ≥ 0 then n else 0, errno) }
    if a1.m_result.2 = EINTR then await_ready a1 tr
    else some (decide (a1.m_result.2 ≠ EAGAIN), a1, tr)

/-- The method `Awaitable::await_resume`. -/
def await_resume (a : Awaitable) : AsyncIOResult := a.m_result

end Awaitable

/-- The function `Scheduler::async_io`. -/
def async_io (fd : Int) (ptr : Nat) (len : Nat) (iop : IOp) : Awaitable :=
  { m_fd := fd, m_ptr := ptr, m_len := len, m_iop := iop, m_result := (0, 0),
    m_cohandle := none }

/-- The function `Scheduler::async_read`. -/
def async_read (fd : Int) (ptr : Nat) (len : Nat) : Awaitable :=
  async_io fd ptr len IOp.READ

/-- The function `Scheduler::async_write`. -/
def async_write (fd : Int) (ptr : Nat) (len : Nat) : Awaitable :=
  async_io fd ptr len IOp.WRITE

/-! ## The state of the program -/

/-- Why a run stops before the operation returns.  The first three are
faults of the program; the last two are limits of the model. -/
inductive Stop where
  /-- An `assert` did not hold. -/
  | assertion_failed
  /-- The array `m_awaitables` was indexed outside `[0, MAX_EXCLUSIVE_FD)`. -/
  | out_of_bounds
  /-- The call `resume()` was made on a coroutine that is not suspended. -/
  | bad_resume
  /-- The oracle has no outcome left for a system call. -/
  | no_outcome
  /-- The bound on the number of `co_await`s of one resumption ran out. -/
  | out_of_fuel
  deriving DecidableEq, Repr

/-- What the run has done so far, in order (ghost state). -/
inductive Event where
  /-- The scan of `pump_events` called `retry()` on the request parked at `fd`. -/
  | retry (fd : Int)
  /-- The scan of `pump_events` stored `nullptr` in `m_awaitables[fd]`. -/
  | unpark (fd : Int)
  /-- The last loop of `pump_events` resumed `h`, whose `co_await` evaluated to `r`. -/
  | resume (h : Handle) (r : AsyncIOResult)
  /-- The method `await_suspend` stored the request at `p` in `m_awaitables[fd]`. -/
  | park (fd : Int) (p : Ptr)
  deriving DecidableEq, Repr

/-- What a coroutine body does next: return, or `co_await` the request that
`async_read` or `async_write` built. -/
inductive Action where
  | co_return
  | co_await (a : Awaitable)
  deriving DecidableEq, Repr

/-- A coroutine body as a state machine over its local variables `σ`: given the
locals at a `co_await` and the value that `co_await` evaluated to, the locals
and the action at the next `co_await` or `co_return`. -/
abbrev Body (σ : Type) := σ → AsyncIOResult → σ × Action

/-- The state of a coroutine frame. -/
inductive CoState (σ : Type) where
  /-- Suspended in a `co_await` of the request at `p`, with locals `l`. -/
  | suspended (l : σ) (p : Ptr)
  /-- Executing. -/
  | running
  /-- Returned; `final_suspend` is `suspend_never`, so the frame is gone. -/
  | completed

/-- The state of the program: the scheduler's table, the `Awaitable` objects,
the coroutine frames, the oracle for `read` and `write`, and the log. -/
structure World (σ : Type) where
  /-- The field `Scheduler::m_awaitables`. -/
  m_awaitables : Fin MAX_EXCLUSIVE_FD → Option Ptr
  /-- The `Awaitable` object at each address. -/
  heap : Ptr → Awaitable
  /-- The address the next `Awaitable` is created at. -/
  next_ptr : Ptr
  /-- The coroutine frame of each handle. -/
  frames : Handle → CoState σ
  /-- The outcomes of the next `read`/`write` calls on each descriptor. -/
  env : Int → List Outcome
  /-- The events so far. -/
  log : List Event

/-- The C struct `pollfd`. -/
structure pollfd where
  fd : Int
  events : Int
  revents : Int
  deriving DecidableEq, Repr

/-- The position of `m_awaitables[fd]`, when `fd` is within the array. -/
def index? (fd : Int) : Option (Fin MAX_EXCLUSIVE_FD) :=
  if h : 0 ≤ fd ∧ fd < (MAX_EXCLUSIVE_FD : Int) then
    some ⟨fd.toNat, by
      have h2 := h.2
      have h1 := h.1
      unfold MAX_EXCLUSIVE_FD at h2 ⊢
      omega⟩
  else none

variable {σ : Type}

namespace World

/-- The call `p->await_ready()`: the system calls are on the descriptor
`m_fd` of the object at `p` and use up that descriptor's outcomes. -/
def await_ready (w : World σ) (p : Ptr) : Except (Stop × World σ) (Bool × World σ) :=
  let a := w.heap p
  match a.await_ready (w.env a.m_fd) with
  | none => .error (Stop.no_outcome, w)
  | some (b, a1, tr1) =>
    .ok (b, { w with heap := Function.update w.heap p a1,
                     env := Function.update w.env a.m_fd tr1 })

/-- The call `p->await_suspend(h)`: store the handle, assert that the slot of
`m_fd` is null, store `p` there. -/
def await_suspend (w : World σ) (p : Ptr) (h : Handle) : Except (Stop × World σ) (World σ) :=
  let a := w.heap p
  let w1 : World σ := { w with heap := Function.update w.heap p { a with m_cohandle := some h } }
  match index? a.m_fd with
  | none => .error (Stop.out_of_bounds, w1)
  | some i =>
    match w1.m_awaitables i with
    | some _ => .error (Stop.assertion_failed, w1)
    | none =>
      .ok { w1 with m_awaitables := Function.update w1.m_awaitables i (some p),
                    log := w1.log ++ [Event.park a.m_fd p] }

/-- The call `p->await_resume()`. -/
def await_resume (w : World σ) (p : Ptr) : AsyncIOResult := (w.heap p).await_resume

/-- The call `p->retry()`: `await_ready() ? m_cohandle : nullptr`. -/
def retry (w : World σ) (p : Ptr) : Except (Stop × World σ) (Option Handle × World σ) :=
  match w.await_ready p with
  | .error e => .error e
  | .ok (b, w1) => .ok (if b then (w1.heap p).m_cohandle else none, w1)

end World

/-- How a `co_await` expression ends for the coroutine that evaluates it. -/
inductive Awaited (σ : Type) where
  /-- It did not suspend: the value of the expression and the state. -/
  | done (r : AsyncIOResult) (w : World σ)
  /-- It suspended the coroutine on the request at `p`. -/
  | suspended (p : Ptr) (w : World σ)

/-- The expression `co_await a` evaluated by coroutine `h`, up to the point
where it has a value or the coroutine is suspended: the operand becomes an
object at a new address; when `await_ready()` is true the value is
`await_resume()`, otherwise `await_suspend(h)` runs and the coroutine is
suspended (`await_suspend` returns `void`). -/
def co_await (w : World σ) (h : Handle) (a : Awaitable) : Except (Stop × World σ) (Awaited σ) :=
  let p := w.next_ptr
  let w0 : World σ := { w with heap := Function.update w.heap p a, next_ptr := p + 1 }
  match w0.await_ready p with
  | .error e => .error e
  | .ok (true, w1) => .ok (Awaited.done (w1.await_resume p) w1)
  | .ok (false, w1) =>
    match w1.await_suspend p h with
    | .error e => .error e
    | .ok w2 => .ok (Awaited.suspended p w2)

/-- Coroutine `h` executing from the point where a `co_await` has evaluated to
`r` with locals `l`, until it suspends or returns.  `fuel` bounds the number
of `co_await`s that complete without suspending. -/
def run (body : Body σ) : Nat → World σ → Handle → σ → AsyncIOResult →
    Except (Stop × World σ) (World σ)
  | 0, w, _, _, _ => .error (Stop.out_of_fuel, w)
  | fuel + 1, w, h, l, r =>
    match body l r with
    | (_, Action.co_return) =>
      .ok { w with frames := Function.update w.frames h CoState.completed }
    | (l1, Action.co_await a) =>
      match co_await w h a with
      | .error e => .error e
      | .ok (Awaited.done r1 w1) => run body fuel w1 h l1 r1
      | .ok (Awaited.suspended p w1) =>
        .ok { w1 with frames := Function.update w1.frames h (CoState.suspended l1 p) }

/-- The call `h.resume()` made by `pump_events`: the suspended `co_await`
evaluates to `await_resume()` of its request and the body goes on. -/
def resume (body : Body σ) (fuel : Nat) (w : World σ) (h : Handle) :
    Except (Stop × World σ) (World σ) :=
  match w.frames h with
  | CoState.suspended l p =>
    let r := w.await_resume p
    run body fuel
      { w with frames := Function.update w.frames h CoState.running,
               log := w.log ++ [Event.resume h r] } h l r
  | _ => .error (Stop.bad_resume, w)

/-! ## pump_events -/

/-- One round of the first loop of `pump_events`, for descriptor `fd`:
skip a null slot, otherwise append an entry to `polls`. -/
def collect_step (w : World σ) (polls : List pollfd) (fd : Fin MAX_EXCLUSIVE_FD) : List pollfd :=
  match w.m_awaitables fd with
  | none => polls
  | some p =>
    polls ++ [{ fd := (fd.val : Int),
                events := if (w.heap p).m_iop = IOp.READ then POLLIN else POLLOUT,
                revents := 0 }]

/-- The first loop of `pump_events`: `fd` goes from `0` up to
`MAX_EXCLUSIVE_FD`; the list is `polls[0 .. num_p)`. -/
def collect_polls (w : World σ) : List pollfd :=
  (List.finRange MAX_EXCLUSIVE_FD).foldl (collect_step w) []

/-- The entries after a `poll` that succeeded: `revents` filled in place. -/
def fill_revents (revents : Int → Int) (polls : List pollfd) : List pollfd :=
  polls.map fun e => { e with revents := revents e.fd }

/-- One round of the second loop of `pump_events`, for entry `e`; the state
is the world and `cohandles[0 .. num_c)`. -/
def scan_step (st : World σ × List Handle) (e : pollfd) :
    Except (Stop × World σ) (World σ × List Handle) :=
  if e.revents = 0 then .ok st
  else
    match index? e.fd with
    | none => .error (Stop.out_of_bounds, st.1)
    | some i =>
      match st.1.m_awaitables i with
      | none => .ok st
      | some p =>
        let w0 : World σ := { st.1 with log := st.1.log ++ [Event.retry e.fd] }
        match w0.retry p with
        | .error x => .error x
        | .ok (none, w1) => .ok (w1, st.2)
        | .ok (some cohandle, w1) =>
          .ok ({ w1 with m_awaitables := Function.update w1.m_awaitables i none,
                         log := w1.log ++ [Event.unpark e.fd] },
               st.2 ++ [cohandle])

/-- The second loop of `pump_events`, over `polls[0 .. num_p)`. -/
def scan (st : World σ × List Handle) : List pollfd →
    Except (Stop × World σ) (World σ × List Handle)
  | [] => .ok st
  | e :: polls =>
    match scan_step st e with
    | .error x => .error x
    | .ok st1 => scan st1 polls

/-- The third loop of `pump_events`, over `cohandles[0 .. num_c)`. -/
def resume_all (body : Body σ) (fuel : Nat) (w : World σ) : List Handle →
    Except (Stop × World σ) (World σ)
  | [] => .ok w
  | h :: cohandles =>
    match resume body fuel w h with
    | .error x => .error x
    | .ok w1 => resume_all body fuel w1 cohandles

/-- The function `Scheduler::pump_events`, given what `poll` does. -/
def pump_events (body : Body σ) (fuel : Nat) (w : World σ) (po : PollOutcome) :
    Except (Stop × World σ) (Int × World σ) :=
  let polls := collect_polls w
  match po with
  | PollOutcome.fail errno => .ok (if errno ≠ EINTR then errno else 0, w)
  | PollOutcome.ready revents =>
    match scan (w, []) (fill_revents revents polls) with
    | .error x => .error x
    | .ok (w1, cohandles) =>
      match resume_all body fuel w1 cohandles with
      | .error x => .error x
      | .ok w2 => .ok (0, w2)

/-! ## Example states -/

/-- An example state: nothing is parked; the next call on descriptor 3 would
block, the one after it delivers two bytes, the one after that would block;
every other descriptor has no outcome. -/
def quiet_world : World Nat where
  m_awaitables := fun _ => none
  heap := fun _ => async_io 0 0 0 IOp.READ
  next_ptr := 0
  frames := fun _ => CoState.completed
  env := fun fd => if fd = 3 then [Outcome.fail EAGAIN, Outcome.ret 2, Outcome.fail EAGAIN] else []
  log := []

/-- An example state: coroutine 7 is suspended on a read of descriptor 3,
parked as the request at address 0; the next call on descriptor 3 delivers two
bytes and the one after it would block. -/
def parked_world : World Nat where
  m_awaitables := fun i => if i.val = 3 then some 0 else none
  heap := fun _ => { async_read 3 0 64 with m_result := (0, EAGAIN), m_cohandle := some 7 }
  next_ptr := 1
  frames := fun h => if h = 7 then CoState.suspended 0 0 else CoState.completed
  env := fun fd => if fd = 3 then [Outcome.ret 2, Outcome.fail EAGAIN] else []
  log := [Event.park 3 0]

/-- A coroutine body that reads descriptor 3 for ever. -/
def read_loop : Body Nat := fun l _ => (l + 1, Action.co_await (async_read 3 0 64))

/-- A coroutine body that returns as soon as its `co_await` has a value. -/
def read_once : Body Nat := fun l _ => (l + 1, Action.co_return)

/-! ## Predicates and functions used to state the properties -/

/-- The table is well formed: a request parked in slot `i` is a request on
descriptor `i`, holds a coroutine handle, and lies below `next_ptr`. -/
def WellFormed (w : World σ) : Prop :=
  ∀ (i : Fin MAX_EXCLUSIVE_FD) (p : Ptr), w.m_awaitables i = some p →
    (w.heap p).m_fd = (i.val : Int) ∧ (w.heap p).m_cohandle ≠ none ∧ p < w.next_ptr

/-- State `w1` has, for the descriptors of the entries `es`, the slots, the
outcomes and the parked requests of state `w`. -/
def Agree (w w1 : World σ) (es : List pollfd) : Prop :=
  ∀ e ∈ es, ∀ i, index? e.fd = some i →
    w1.m_awaitables i = w.m_awaitables i ∧ w1.env e.fd = w.env e.fd ∧
      ∀ p, w.m_awaitables i = some p → w1.heap p = w.heap p

/-- The retry that the second loop of `pump_events` makes for entry `e` in
state `w`, when it makes one: the address of the request and what
`await_ready` returns for it. -/
def scan_attempt (w : World σ) (e : pollfd) : Option (Ptr × Bool × Awaitable × List Outcome) :=
  if e.revents = 0 then none
  else
    match index? e.fd with
    | none => none
    | some i =>
      match w.m_awaitables i with
      | none => none
      | some p =>
        match (w.heap p).await_ready (w.env e.fd) with
        | none => none
        | some (b, a1, tr1) => some (p, b, a1, tr1)

/-- The handle that entry `e` adds to `cohandles`, when it adds one. -/
def scan_handle (w : World σ) (e : pollfd) : Option Handle :=
  match scan_attempt w e with
  | some (p, true, _, _) => (w.heap p).m_cohandle
  | _ => none

/-- The events of entry `e` in the second loop. -/
def scan_events (w : World σ) (e : pollfd) : List Event :=
  match scan_attempt w e with
  | some (_, true, _, _) => [Event.retry e.fd, Event.unpark e.fd]
  | some (_, false, _, _) => [Event.retry e.fd]
  | none => []

/-- What the second loop of `pump_events` has done when, run over the entries
`es` from state `w0` with the handles `cs`, it ends in state `w1` with the
handles `cs1`; `w` is the state at the start of the whole loop. -/
structure ScanPost (w w0 w1 : World σ) (cs cs1 : List Handle) (es : List pollfd) : Prop where
  handles : cs1 = cs ++ es.filterMap (scan_handle w)
  log : w1.log = w0.log ++ es.flatMap (scan_events w)
  next_ptr : w1.next_ptr = w0.next_ptr
  frames : w1.frames = w0.frames
  slot_frame : ∀ j : Fin MAX_EXCLUSIVE_FD, (∀ e ∈ es, e.fd ≠ (j.val : Int)) →
    w1.m_awaitables j = w0.m_awaitables j
  env_frame : ∀ fd : Int, (∀ e ∈ es, e.fd ≠ fd) → w1.env fd = w0.env fd
  heap_frame : ∀ q : Ptr, (∀ e ∈ es, ∀ i, index? e.fd = some i → w.m_awaitables i ≠ some q) →
    w1.heap q = w0.heap q
  not_ready : ∀ e ∈ es, e.revents = 0 → ∀ i p, index? e.fd = some i → w.m_awaitables i = some p →
    w1.m_awaitables i = some p ∧ w1.heap p = w.heap p ∧ w1.env e.fd = w.env e.fd
  ready : ∀ e ∈ es, e.revents ≠ 0 → ∀ i p, index? e.fd = some i → w.m_awaitables i = some p →
    ∃ b a1 tr1, (w.heap p).await_ready (w.env e.fd) = some (b, a1, tr1) ∧
      w1.heap p = a1 ∧ w1.env e.fd = tr1 ∧ w1.m_awaitables i = if b then none else some p

/-- The entry that the first loop of `pump_events` makes for slot `i`, when
it makes one. -/
def poll_entry (w : World σ) (i : Fin MAX_EXCLUSIVE_FD) : Option pollfd :=
  match w.m_awaitables i with
  | none => none
  | some p =>
    some { fd := (i.val : Int),
           events := if (w.heap p).m_iop = IOp.READ then POLLIN else POLLOUT,
           revents := 0 }

/-- The handle that the second loop of `pump_events` collects for slot `i`
when `poll` reports `revents`: the handle stored in the request parked there,
when the descriptor is reported ready and the retry completes. -/
def removed_handle (w : World σ) (revents : Int → Int) (i : Fin MAX_EXCLUSIVE_FD) :
    Option Handle :=
  match w.m_awaitables i with
  | none => none
  | some p =>
    if revents (i.val : Int) = 0 then none
    else
      match (w.heap p).await_ready (w.env (i.val : Int)) with
      | some (true, _, _) => (w.heap p).m_cohandle
      | _ => none

/-- The state in which an operation ended, whether it returned or stopped;
`state` reads the state out of what the operation returns. -/
def end_state {α : Type} (state : α → World σ) : Except (Stop × World σ) α → World σ
  | .ok a => state a
  | .error (_, w) => w

/-- The state in which a `co_await` expression left the program. -/
def Awaited.world : Awaited σ → World σ
  | .done _ w => w
  | .suspended _ w => w

/-- The descriptor of a `retry` event. -/
def Event.retried : Event → Option Int
  | .retry fd => some fd
  | _ => none

/-- The handle and the value of a `resume` event. -/
def Event.resumed : Event → Option (Handle × AsyncIOResult)
  | .resume h r => some (h, r)
  | _ => none

/-- Whether the event is a retry or a removal, the events of the scan. -/
def Event.by_scan : Event → Bool
  | .retry _ => true
  | .unpark _ => true
  | _ => false

/-- Whether the event is a `park`, the only event of a running coroutine. -/
def Event.by_task : Event → Bool
  | .park _ _ => true
  | _ => false

/-- The handle stored in the request parked in slot `i`, when there is one. -/
def parked_handle (w : World σ) (i : Fin MAX_EXCLUSIVE_FD) : Option Handle :=
  match w.m_awaitables i with
  | none => none
  | some p => (w.heap p).m_cohandle

/-- An example state: coroutine 9 is suspended on a read of descriptor 3
(the request at address 0) and coroutine 8 on a read of descriptor 5 (the
request at address 1); the next read of descriptor 3 delivers two bytes and
the next read of descriptor 5 one byte. -/
def two_parked_world : World Nat where
  m_awaitables := fun i => if i.val = 3 then some 0 else if i.val = 5 then some 1 else none
  heap := fun p =>
    if p = 0 then { async_read 3 0 64 with m_result := (0, EAGAIN), m_cohandle := some 9 }
    else { async_read 5 0 64 with m_result := (0, EAGAIN), m_cohandle := some 8 }
  next_ptr := 2
  frames := fun h =>
    if h = 9 then CoState.suspended 0 0
    else if h = 8 then CoState.suspended 0 1 else CoState.completed
  env := fun fd => if fd = 3 then [Outcome.ret 2] else if fd = 5 then [Outcome.ret 1] else []
  log := []

/-- The states the program can be in at the boundaries of its operations,
from a state with an empty table: after `await_suspend` on a request that
exists, after a `co_await` expression, after a coroutine ran to its next
suspension, after the scan of `pump_events`, after a `resume()`, and after a
whole `pump_events` call.  Only operations that return count; one that stops
ends the program. -/
inductive Reachable (body : Body σ) : World σ → Prop where
  | init (w : World σ) : (∀ i, w.m_awaitables i = none) → Reachable body w
  | await_suspend (w : World σ) (p : Ptr) (h : Handle) (w1 : World σ) :
      Reachable body w → p < w.next_ptr → w.await_suspend p h = .ok w1 → Reachable body w1
  | co_await (w : World σ) (h : Handle) (a : Awaitable) (aw : Awaited σ) :
      Reachable body w → co_await w h a = .ok aw → Reachable body aw.world
  | run (w : World σ) (fuel : Nat) (h : Handle) (l : σ) (r : AsyncIOResult) (w1 : World σ) :
      Reachable body w → run body fuel w h l r = .ok w1 → Reachable body w1
  | scan (w : World σ) (revents : Int → Int) (w1 : World σ) (cs : List Handle) :
      Reachable body w →
      scan (w, []) (fill_revents revents (collect_polls w)) = .ok (w1, cs) → Reachable body w1
  | resume (w : World σ) (fuel : Nat) (h : Handle) (w1 : World σ) :
      Reachable body w → resume body fuel w h = .ok w1 → Reachable body w1
  | pump_events (w : World σ) (fuel : Nat) (po : PollOutcome) (c : Int) (w1 : World σ) :
      Reachable body w → pump_events body fuel w po = .ok (c, w1) → Reachable body w1

/-- Whether an operation returned, rather than stopped. -/
def returned {α : Type} : Except (Stop × World σ) α → Bool
  | .ok _ => true
  | .error _ => false

/-- Every parked request belongs to a coroutine that is suspended on it: the
request holds the handle of a coroutine whose frame is suspended in the
`co_await` of that request. -/
def Linked (w : World σ) : Prop :=
  ∀ (i : Fin MAX_EXCLUSIVE_FD) (p : Ptr), w.m_awaitables i = some p →
    ∃ h l, (w.heap p).m_cohandle = some h ∧ w.frames h = CoState.suspended l p

/-- No parked request holds the handle `h`. -/
def NotParked (w : World σ) (h : Handle) : Prop :=
  ∀ (i : Fin MAX_EXCLUSIVE_FD) (p : Ptr), w.m_awaitables i = some p →
    (w.heap p).m_cohandle ≠ some h

/-- The states of an execution of the program, from a state with an empty
table: a coroutine that is not suspended starts or goes on running until it
suspends or returns, and `pump_events` is called.  Only operations that
return count. -/
inductive Execution (body : Body σ) : World σ → Prop where
  | init (w : World σ) : (∀ i, w.m_awaitables i = none) → Execution body w
  | spawn (w : World σ) (fuel : Nat) (h : Handle) (l : σ) (r : AsyncIOResult) (w1 : World σ) :
      Execution body w → (∀ l0 p, w.frames h ≠ CoState.suspended l0 p) →
      run body fuel w h l r = .ok w1 → Execution body w1
  | pump (w : World σ) (fuel : Nat) (po : PollOutcome) (c : Int) (w1 : World σ) :
      Execution body w → pump_events body fuel w po = .ok (c, w1) → Execution body w1

/-- The arguments of the call `poll(polls, num_p, -1)` in `pump_events`: the
entries `polls[0 .. num_p)`, the count `num_p` and the timeout. -/
def poll_args (w : World σ) : List pollfd × Nat × Int :=
  (collect_polls w, (collect_polls w).length, -1)

/-- An example state: coroutine 4 is suspended on a write to descriptor 6,
parked as the request at address 0, and coroutine 7 on a read of descriptor 9,
parked as the request at address 1. -/
def write_parked_world : World Nat where
  m_awaitables := fun i => if i.val = 6 then some 0 else if i.val = 9 then some 1 else none
  heap := fun p =>
    if p = 0 then { async_write 6 0 5 with m_result := (0, EAGAIN), m_cohandle := some 4 }
    else { async_read 9 0 64 with m_result := (0, EAGAIN), m_cohandle := some 7 }
  next_ptr := 2
  frames := fun h =>
    if h = 4 then CoState.suspended 0 0
    else if h = 7 then CoState.suspended 0 1 else CoState.completed
  env := fun _ => []
  log := []

/-- An example state: nothing is parked, and descriptor 6 has room: the next
write to it transfers two bytes. -/
def ample_world : World Nat where
  m_awaitables := fun _ => none
  heap := fun _ => async_io 0 0 0 IOp.READ
  next_ptr := 0
  frames := fun _ => CoState.running
  env := fun fd => if fd = 6 then [Outcome.ret 2] else []
  log := []

/-- The event loop of `main`:
`while (!done) { if (int err = scheduler.pump_events()) return err; } return 0;`.
`done` reads the flag out of the state, and `pos` is what the next `poll`
calls will do, one for each `pump_events` call.  The result is the value
returned, the state, and the `poll` outcomes not used; the run stops with
`no_outcome` when the flag is not set and no outcome is left. -/
def event_loop (body : Body σ) (fuel : Nat) (done : World σ → Bool) :
    World σ → List PollOutcome → Except (Stop × World σ) (Int × World σ × List PollOutcome)
  | w, [] => if done w then .ok (0, w, []) else .error (Stop.no_outcome, w)
  | w, po :: pos =>
    if done w then .ok (0, w, po :: pos)
    else
      match pump_events body fuel w po with
      | .error x => .error x
      | .ok (err, w1) => if err ≠ 0 then .ok (err, w1, pos) else event_loop body fuel done w1 pos

/-- The function `pump_events` called once for each of the outcomes `pos` of
`poll`, one call after the other, whatever the calls return. -/
def pump_repeat (body : Body σ) (fuel : Nat) :
    World σ → List PollOutcome → Except (Stop × World σ) (World σ)
  | w, [] => .ok w
  | w, po :: pos =>
    match pump_events body fuel w po with
    | .error x => .error x
    | .ok (_, w1) => pump_repeat body fuel w1 pos

/-! ## The descriptors of `main` -/

/-- The statement `assert(fd < MAX_EXCLUSIVE_FD)` of `main`. -/
def assert_fd (fd : Int) : Except Stop Unit :=
  if fd < (MAX_EXCLUSIVE_FD : Int) then .ok () else .error Stop.assertion_failed

/-- The descriptors that `main` hands to its coroutines. -/
structure Descriptors where
  fizz_pipe_read_end : Int
  fizz_pipe_write_end : Int
  buzz_pipe_read_end : Int
  buzz_pipe_write_end : Int
  timerfd : Int
  deriving DecidableEq, Repr

/-- The descriptors, as a list. -/
def Descriptors.all (d : Descriptors) : List Int :=
  [d.fizz_pipe_read_end, d.fizz_pipe_write_end, d.buzz_pipe_read_end, d.buzz_pipe_write_end,
   d.timerfd]

/-- The first part of `main`, which creates the descriptors and asserts that
each is less than `MAX_EXCLUSIVE_FD`.  A `pipe2` call that succeeds stores two
descriptors, which are not negative, and one that fails is `none`;
`timerfd_create` returns a descriptor or a negative value.  The result is
`none` when `main` returns early because a call failed. -/
def main_descriptors (fizz_pipe_fds buzz_pipe_fds : Option (Nat × Nat)) (timerfd : Int) :
    Except Stop (Option Descriptors) :=
  match fizz_pipe_fds with
  | none => .ok none
  | some (f0, f1) =>
    match assert_fd (f0 : Int) with
    | .error x => .error x
    | .ok _ =>
      match assert_fd (f1 : Int) with
      | .error x => .error x
      | .ok _ =>
        match buzz_pipe_fds with
        | none => .ok none
        | some (b0, b1) =>
          match assert_fd (b0 : Int) with
          | .error x => .error x
          | .ok _ =>
            match assert_fd (b1 : Int) with
            | .error x => .error x
            | .ok _ =>
              if timerfd < 0 then .ok none
              else
                match assert_fd timerfd with
                | .error x => .error x
                | .ok _ =>
                  .ok (some { fizz_pipe_read_end := (f0 : Int), fizz_pipe_write_end := (f1 : Int),
                              buzz_pipe_read_end := (b0 : Int), buzz_pipe_write_end := (b1 : Int),
                              timerfd := timerfd })

/-! ## The generators of the prime sieve

A shallow embedding of `blog/2023/cpp-coro-part-1-yield-return-prime-sieve.cc`.
A `Generator` owns its coroutine, and the class is move-only, so a handle that
is not null is identified with the frame it points to.  The `int` values are
`Int`: the only arithmetic is `x++` with `x < end`, which does not overflow.
-/

namespace PrimeSieve

/-- Where a generator coroutine is suspended: at `initial_suspend`, at a
`co_yield`, or at `final_suspend`, where `done()` is true. -/
inductive Point where
  | initial
  | yield
  | final
  deriving DecidableEq, Repr

/-- The class `Generator`: its `m_cohandle` is null, or it is the handle of a
frame of `source` or of `filter`.  A frame holds the suspension point, the
`m_value` of its promise, and the parameters and locals of the coroutine. -/
inductive Generator where
  /-- The handle is null: the generator has been moved from. -/
  | null
  /-- A frame of `source(end)` with its local `x`. -/
  | source (at_ : Point) (m_value : Int) (end_ : Int) (x : Int)
  /-- A frame of `filter(g, prime)`. -/
  | filter (at_ : Point) (m_value : Int) (g : Generator) (prime : Int)
  deriving DecidableEq, Repr

/-- The call `m_cohandle.done()`, for a handle that is not null. -/
def Generator.done : Generator → Bool
  | .null => false
  | .source at_ _ _ _ => decide (at_ = Point.final)
  | .filter at_ _ _ _ => decide (at_ = Point.final)

/-- The call `source(end)`: the coroutine is created suspended at
`initial_suspend`; `m_value` is not initialised, and is 0 here. -/
def source (end_ : Int) : Generator := Generator.source Point.initial 0 end_ 2

/-- The call `filter(g, prime)`, the parameter `g` having been moved in. -/
def filter (g : Generator) (prime : Int) : Generator :=
  Generator.filter Point.initial 0 g prime

/-- The method `release_handle`: the handle it returns, as a generator, and
the object afterwards, whose handle is null. -/
def Generator.release_handle (g : Generator) : Generator × Generator := (g, Generator.null)

/-- The move assignment `this = std::move(other)` of two different objects:
the coroutine of `this` is destroyed and `this` takes the handle of `other`.
The result is `this` and `other` afterwards. -/
def Generator.move_assign (_this other : Generator) : Generator × Generator :=
  other.release_handle

mutual

/-- The method `Generator::next`, with a bound on the depth of calls and
rounds of loops: the value returned, the generator afterwards, and whether
`m_cohandle.resume()` was called; `none` when the bound is too small. -/
def Generator.next : Nat → Generator → Option (Option Int × Generator × Bool)
  | 0, _ => none
  | fuel + 1, g =>
    match g with
    | .null => some (none, g, false)
    | _ =>
      if g.done then some (none, g, false)
      else
        match Generator.resume fuel g with
        | none => none
        | some g1 =>
          if g1.done then some (none, g1, true)
          else
            match g1 with
            | .null => some (none, g1, true)
            | .source _ m_value _ _ => some (some m_value, g1, true)
            | .filter _ m_value _ _ => some (some m_value, g1, true)

/-- The call `m_cohandle.resume()` on a coroutine that is not done: it runs
to its next `co_yield` or to its end. -/
def Generator.resume : Nat → Generator → Option Generator
  | 0, _ => none
  | fuel + 1, g =>
    match g with
    | .null => some g
    | .source at_ m_value end_ x =>
      -- `for (int x = 2; x < end; x++) co_yield x;`
      let x1 := if at_ = Point.initial then 2 else x + 1
      if x1 < end_ then some (.source Point.yield x1 end_ x1)
      else some (.source Point.final m_value end_ x1)
    | .filter _ m_value g0 prime => Generator.filter_loop fuel m_value g0 prime

/-- The loop `while (optional_x = g.next()) { if ((x % prime) != 0) co_yield x; }`
of `filter`, from its head. -/
def Generator.filter_loop : Nat → Int → Generator → Int → Option Generator
  | 0, _, _, _ => none
  | fuel + 1, m_value, g0, prime =>
    match Generator.next fuel g0 with
    | none => none
    | some (none, g1, _) => some (.filter Point.final m_value g1 prime)
    | some (some x, g1, _) =>
      if x.tmod prime ≠ 0 then some (.filter Point.yield x g1 prime)
      else Generator.filter_loop fuel m_value g1 prime

end

/-- The loop of `main`, from a generator `g` and the numbers printed so far:
`while (optional_prime = g.next()) { print prime; g = filter(std::move(g), prime); }`.
The result is the numbers printed; `none` when the bound is too small. -/
def main_loop : Nat → Generator → List Int → Option (List Int)
  | 0, _, _ => none
  | fuel + 1, g, out =>
    match g.next fuel with
    | none => none
    | some (none, _, _) => some out
    | some (some prime, g1, _) =>
      let moved := g1.release_handle
      let g2 := (moved.2.move_assign (filter moved.1 prime)).1
      main_loop fuel g2 (out ++ [prime])

/-- The function `main` with `end` in place of 40: the numbers it prints. -/
def main (fuel : Nat) (end_ : Int) : Option (List Int) := main_loop fuel (source end_) []

/-- The integers `a, a + 1, ..., b - 1`, in this order. -/
def ints (a b : Int) : List Int :=
  List.map (fun (k : Nat) => a + (k : Int)) (List.range (b - a).toNat)

/-- The values that a generator will yield from now on. -/
def Generator.values : Generator → List Int
  | .null => []
  | .source at_ _ end_ x =>
    match at_ with
    | Point.initial => ints 2 end_
    | Point.yield => ints (x + 1) end_
    | Point.final => []
  | .filter at_ _ g prime =>
    match at_ with
    | Point.final => []
    | _ => g.values.filter fun x => decide (x.tmod prime ≠ 0)

/-- The number of `filter` frames around the innermost generator. -/
def Generator.depth : Generator → Nat
  | .filter _ _ g _ => g.depth + 1
  | _ => 0

/-- The suspension point of the coroutine behind the handle of a generator,
if the handle is not null. -/
def Generator.point : Generator → Option Point
  | .null => none
  | .source at_ _ _ _ => some at_
  | .filter at_ _ _ _ => some at_

/-- The field `m_value` of the promise of the coroutine behind the handle of a
generator, if the handle is not null: the last value passed to `co_yield`. -/
def Generator.m_value : Generator → Option Int
  | .null => none
  | .source _ m_value _ _ => some m_value
  | .filter _ m_value _ _ => some m_value

/-- The values that successive calls of `next` return, up to the first
`nullopt`. -/
def Generator.drain : Nat → Generator → Option (List Int)
  | 0, _ => none
  | fuel + 1, g =>
    match g.next fuel with
    | none => none
    | some (none, _, _) => some []
    | some (some x, g1, _) => (Generator.drain fuel g1).map fun xs => x :: xs

/-- The integers from 2 below `end_` that have no prime factor below `k`. -/
def candidates (end_ : Int) (k : Nat) : List Int :=
  (ints 2 end_).filter fun x => decide (k ≤ Nat.minFac x.toNat)

end PrimeSieve

/-! ## The periodic demo

The coroutines `fizz`, `buzz` and `consume` of `main`.  The scheduler model
above has no memory for the bytes that are read and written, so `consume` is a
`Body` over a record that holds its local variables and what its pointers and
`write` calls reach: the variable `done` of `main` and the bytes written to
standard output.  A completed `read` has stored its bytes in `buf` or in
`num_timer_events` before the body goes on.
-/

namespace FizzBuzz

/-- The `async_write` calls of one round of the loop of `fizz`: the string
literal and the length. -/
def fizz_writes : List (List Char × Nat) :=
  [(['T', 'i', 'c', 'k', '1'], 5), (['T', 'i', 'c', 'k', '2'], 5), (['F', 'i', 'z', 'z'], 4)]

/-- The `async_write` calls of one round of the loop of `buzz`. -/
def buzz_writes : List (List Char × Nat) :=
  [(['T', 'o', 'c', 'k', '1'], 5), (['T', 'o', 'c', 'k', '2'], 5), (['T', 'o', 'c', 'k', '3'], 5),
   (['T', 'o', 'c', 'k', '4'], 5), (['B', 'u', 'z', 'z'], 4)]

/-- The bytes of write number `k`, counted from 0, of a coroutine that repeats
the writes `ws` for ever. -/
def packet (ws : List (List Char × Nat)) (k : Nat) : List Char :=
  match ws.get? (k % ws.length) with
  | some (text, len) => text.take len
  | none => []

/-- Where `consume` is: before its first statement, or suspended in one of its
three `co_await` expressions. -/
inductive Label where
  | start
  | timer
  | fizz
  | buzz
  deriving DecidableEq, Repr

/-- The local variables of `consume`, the variable `done` of `main` that its
parameter `done` points to, and the bytes written to `stdout_fd` so far. -/
structure Consume where
  at_ : Label
  iteration : Int
  num_timer_events : Nat
  buf : List Char
  fizzy_buzzy : Bool
  stdout : List Char
  done : Bool
  deriving DecidableEq, Repr

/-- The number of values of `uint64_t`. -/
def UINT64 : Nat := 18446744073709551616

/-- The bytes that `snprintf(buf, sizeof(buf), "%d", n)` produces, without the
final NUL. -/
def decimal (n : Int) : List Char :=
  if n < 0 then '-' :: Nat.toDigits 10 n.natAbs else Nat.toDigits 10 n.toNat

/-- The test `while (num_timer_events--)` of `consume` and what follows, up to
the next `co_await`: the read of the `fizz` pipe when the count was not 0, the
read of the timer otherwise. -/
def consume_loop (d : Descriptors) (l : Consume) : Consume × Action :=
  if l.num_timer_events ≠ 0 then
    ({ l with num_timer_events := l.num_timer_events - 1, fizzy_buzzy := false,
              at_ := Label.fizz },
     Action.co_await (async_read d.fizz_pipe_read_end 1 64))
  else
    ({ l with num_timer_events := UINT64 - 1, at_ := Label.timer },
     Action.co_await (async_read d.timerfd 0 8))

/-- The coroutine `consume`, from one `co_await` to the next or to
`co_return`.  The address of `num_timer_events` is 0, that of `buf` is 1. -/
def consume (d : Descriptors) : Body Consume := fun l r =>
  match l.at_ with
  | Label.start =>
    ({ l with iteration := 1, at_ := Label.timer }, Action.co_await (async_read d.timerfd 0 8))
  | Label.timer => consume_loop d l
  | Label.fizz =>
    let l1 : Consume :=
      if r.1 = 4 then { l with fizzy_buzzy := true, stdout := l.stdout ++ l.buf.take 4 } else l
    ({ l1 with at_ := Label.buzz }, Action.co_await (async_read d.buzz_pipe_read_end 1 64))
  | Label.buzz =>
    let l1 : Consume :=
      if r.1 = 4 then { l with fizzy_buzzy := true, stdout := l.stdout ++ l.buf.take 4 } else l
    let l2 : Consume :=
      if l1.fizzy_buzzy then l1
      else if (decimal l1.iteration).length < 64 then
        { l1 with buf := decimal l1.iteration, stdout := l1.stdout ++ decimal l1.iteration }
      else { l1 with buf := (decimal l1.iteration).take 63 }
    let l3 : Consume := { l2 with stdout := l2.stdout ++ ['\n'] }
    let l4 : Consume := { l3 with iteration := l3.iteration + 1 }
    if l3.iteration = 20 then ({ l4 with done := true }, Action.co_return)
    else consume_loop d l4

/-- The state of the demo as the consumer sees it: the record of `consume`,
whether `consume` has returned, and the number of reads that it has completed
on the timer and on each pipe. -/
structure Demo where
  consumer : Consume
  completed : Bool
  timer_reads : Nat
  fizz_reads : Nat
  buzz_reads : Nat
  deriving DecidableEq, Repr

/-- The call `consume(&scheduler, &done, ...)` of `main`, up to the first
`co_await`, with `done` false and nothing written yet. -/
def start (d : Descriptors) : Demo :=
  { consumer :=
      (consume d { at_ := Label.start, iteration := 0, num_timer_events := 0, buf := [],
                   fizzy_buzzy := false, stdout := [], done := false } (0, 0)).1,
    completed := false, timer_reads := 0, fizz_reads := 0, buzz_reads := 0 }

/-- The record and what the body does next, as a state of the demo. -/
def Demo.next (s : Demo) (x : Consume × Action) : Demo :=
  { s with consumer := x.1, completed := decide (x.2 = Action.co_return) }

/-- One read of the consumer completes, under the assumptions on the pipes and
the timer, and the consumer runs on to its next `co_await` or to its end.
Read number `k` of the timer stores the count `ticks k`, and read number `k`
of a pipe stores packet number `k` of the producer of the pipe and has the length
of the packet as its result. -/
def deliver (d : Descriptors) (ticks : Nat → Nat) (s : Demo) : Demo :=
  if s.completed then s
  else
    match s.consumer.at_ with
    | Label.start => s
    | Label.timer =>
      { s with timer_reads := s.timer_reads + 1 }.next
        (consume d { s.consumer with num_timer_events := ticks s.timer_reads } (8, 0))
    | Label.fizz =>
      { s with fizz_reads := s.fizz_reads + 1 }.next
        (consume d { s.consumer with buf := packet fizz_writes s.fizz_reads }
          (((packet fizz_writes s.fizz_reads).length : Int), 0))
    | Label.buzz =>
      { s with buzz_reads := s.buzz_reads + 1 }.next
        (consume d { s.consumer with buf := packet buzz_writes s.buzz_reads }
          (((packet buzz_writes s.buzz_reads).length : Int), 0))

/-- The state of the demo after `n` reads of the consumer have completed. -/
def after (d : Descriptors) (ticks : Nat → Nat) : Nat → Demo
  | 0 => start d
  | n + 1 => deliver d ticks (after d ticks n)

/-- Line `i` of the output as the specification gives it, without the new
line. -/
def fizzbuzz_line (i : Nat) : List Char :=
  if i % 15 = 0 then ['F', 'i', 'z', 'z', 'B', 'u', 'z', 'z']
  else if i % 3 = 0 then ['F', 'i', 'z', 'z']
  else if i % 5 = 0 then ['B', 'u', 'z', 'z']
  else Nat.toDigits 10 i

/-- The first `k` lines of the output as the specification gives them. -/
def fizzbuzz_lines : Nat → List Char
  | 0 => []
  | k + 1 => fizzbuzz_lines k ++ fizzbuzz_line (k + 1) ++ ['\n']

/-- The states of the demo in which the consumer is suspended in round `i` of
its inner loop, or in the read of the timer before that round, with the first
`i - 1` lines written: in the read of the `buzz` pipe it has also written the
marker of `fizz` when 3 divides `i`. -/
def Suspended (s : Demo) (i : Nat) : Prop :=
  1 ≤ i ∧ i ≤ 20 ∧ s.completed = false ∧ s.consumer.done = false ∧
  s.consumer.iteration = (i : Int) ∧ s.buzz_reads = i - 1 ∧
  match s.consumer.at_ with
  | Label.start => False
  | Label.timer => s.fizz_reads = i - 1 ∧ s.consumer.stdout = fizzbuzz_lines (i - 1)
  | Label.fizz =>
    s.fizz_reads = i - 1 ∧ s.consumer.stdout = fizzbuzz_lines (i - 1) ∧
      s.consumer.fizzy_buzzy = false
  | Label.buzz =>
    s.fizz_reads = i ∧
      s.consumer.stdout = fizzbuzz_lines (i - 1) ++ (if i % 3 = 0 then ['F', 'i', 'z', 'z'] else []) ∧
      s.consumer.fizzy_buzzy = decide (i % 3 = 0)

/-- The number of reads that the consumer has still to complete, at most. -/
def remaining (s : Demo) (i : Nat) : Nat :=
  3 * (21 - i) -
    match s.consumer.at_ with
    | Label.start => 0
    | Label.timer => 0
    | Label.fizz => 1
    | Label.buzz => 2

/-- The consumer has returned, with the 20 lines written and `done` set. -/
def Finished (s : Demo) : Prop :=
  s.completed = true ∧ s.consumer.done = true ∧ s.consumer.stdout = fizzbuzz_lines 20

end FizzBuzz

/-! # Theorems -/

/-! ## Facts about `await_ready` -/

theorem Awaitable.await_ready_result_irrelevant (a : Awaitable) (x : AsyncIOResult)
    (tr : List Outcome) :
    ({ a with m_result := x } : Awaitable).await_ready tr = a.await_ready tr := by
  cases tr with
  | nil => rfl
  | cons o tr => simp [Awaitable.await_ready]

theorem Awaitable.await_ready_interrupted (a : Awaitable) (k : Nat) (tr : List Outcome) :
    a.await_ready (List.replicate k (Outcome.fail EINTR) ++ tr) = a.await_ready tr := by
  induction k generalizing a with
  | zero => simp
  | succ k ih =>
    have step : ∀ tr1 : List Outcome, a.await_ready (Outcome.fail EINTR :: tr1)
        = ({ a with m_result := (0, EINTR) } : Awaitable).await_ready tr1 := by
      intro tr1
      simp [Awaitable.await_ready, Outcome.errno_after, Outcome.value]
    rw [List.replicate_succ, List.cons_append, step, ih,
      Awaitable.await_ready_result_irrelevant]

theorem Awaitable.await_ready_only_interrupted (a : Awaitable) (k : Nat) :
    a.await_ready (List.replicate k (Outcome.fail EINTR)) = none := by
  have h := Awaitable.await_ready_interrupted a k []
  simpa [Awaitable.await_ready] using h

/-- What a call of `await_ready` that returns has done: only `m_result`
changed, the byte count is not negative, the errno is not `EINTR`, the
returned boolean says whether the errno differs from `EAGAIN`, and the
outcomes left are a proper suffix of the outcomes given. -/
theorem Awaitable.await_ready_post (a : Awaitable) (tr : List Outcome) (b : Bool)
    (a1 : Awaitable) (tr1 : List Outcome) (h : a.await_ready tr = some (b, a1, tr1)) :
    a1 = { a with m_result := a1.m_result } ∧ 0 ≤ a1.m_result.1 ∧ a1.m_result.2 ≠ EINTR ∧
      (b = false ↔ a1.m_result.2 = EAGAIN) ∧ tr1.length < tr.length ∧
      (a1.m_result.2 ≠ 0 → a1.m_result.1 = 0) := by
  induction tr generalizing a with
  | nil => simp [Awaitable.await_ready] at h
  | cons o tr ih =>
    simp only [Awaitable.await_ready] at h
    split at h
    · have := ih _ h
      simp only [List.length_cons] at this ⊢
      refine ⟨this.1, this.2.1, this.2.2.1, this.2.2.2.1, by omega, this.2.2.2.2.2⟩
    · rename_i hne
      simp only [Option.some.injEq, Prod.mk.injEq] at h
      obtain ⟨hb, ha, ht⟩ := h
      subst ha ht
      refine ⟨rfl, ?_, hne, ?_, by simp, ?_⟩
      · simp only
        split <;> omega
      · rw [← hb]
        simp
      · cases o <;> simp [Outcome.value, Outcome.errno_after]

/-- C1. For a request `a`, `k` interrupted calls and then a call that is not
interrupted: a call returning `n ≥ 0` records `(n, 0)` and `await_ready`
returns true; a call failing with `EAGAIN` records `(0, EAGAIN)` and it
returns false; a call failing with another errno `e` records `(0, e)` and it
returns true.  Whenever `await_ready` returns, the recorded byte count is not
negative and the returned value is false exactly when the recorded errno is
`EAGAIN`. -/
theorem C1_await_ready_records (a : Awaitable) (k : Nat) (rest : List Outcome) :
    (∀ n : Nat, a.await_ready (List.replicate k (Outcome.fail EINTR) ++ Outcome.ret n :: rest)
        = some (true, { a with m_result := ((n : Int), 0) }, rest)) ∧
    a.await_ready (List.replicate k (Outcome.fail EINTR) ++ Outcome.fail EAGAIN :: rest)
        = some (false, { a with m_result := (0, EAGAIN) }, rest) ∧
    (∀ e : Int, e ≠ EINTR → e ≠ EAGAIN →
      a.await_ready (List.replicate k (Outcome.fail EINTR) ++ Outcome.fail e :: rest)
        = some (true, { a with m_result := (0, e) }, rest)) ∧
    (∀ (tr : List Outcome) (b : Bool) (a1 : Awaitable) (tr1 : List Outcome),
      a.await_ready tr = some (b, a1, tr1) →
        0 ≤ a1.m_result.1 ∧ (b = false ↔ a1.m_result.2 = EAGAIN)) := by
  refine ⟨?_, ?_, ?_, ?_⟩
  · intro n
    rw [Awaitable.await_ready_interrupted]
    simp [Awaitable.await_ready, Outcome.value, Outcome.errno_after, EINTR, EAGAIN]
  · rw [Awaitable.await_ready_interrupted]
    simp [Awaitable.await_ready, Outcome.value, Outcome.errno_after, EINTR, EAGAIN]
  · intro e h1 h2
    rw [Awaitable.await_ready_interrupted]
    simp [Awaitable.await_ready, Outcome.value, Outcome.errno_after, h1, h2]
  · intro tr b a1 tr1 h
    have := Awaitable.await_ready_post a tr b a1 tr1 h
    exact ⟨this.2.1, this.2.2.2.1⟩

/-- C1 at a request to read descriptor 3 whose call is interrupted once and
then fails with errno 32. -/
theorem C1_await_ready_records_witness :
    (async_read 3 0 64).await_ready [Outcome.fail EINTR, Outcome.fail 32, Outcome.ret 5]
      = some (true, { async_read 3 0 64 with m_result := (0, 32) }, [Outcome.ret 5]) :=
  (C1_await_ready_records (async_read 3 0 64) 1 [Outcome.ret 5]).2.2.1 32 (by decide) (by decide)

/-! ## Facts about the calls through a pointer -/

theorem World.await_ready_eq (w : World σ) (p : Ptr) :
    w.await_ready p =
      match (w.heap p).await_ready (w.env (w.heap p).m_fd) with
      | none => .error (Stop.no_outcome, w)
      | some (b, a1, tr1) =>
        .ok (b, { w with heap := Function.update w.heap p a1,
                         env := Function.update w.env (w.heap p).m_fd tr1 }) := rfl

theorem World.await_ready_ok_iff (w : World σ) (p : Ptr) (b : Bool) (w1 : World σ) :
    w.await_ready p = .ok (b, w1) ↔
      ∃ a1 tr1, (w.heap p).await_ready (w.env (w.heap p).m_fd) = some (b, a1, tr1) ∧
        w1 = { w with heap := Function.update w.heap p a1,
                      env := Function.update w.env (w.heap p).m_fd tr1 } := by
  rw [World.await_ready_eq]
  cases hr : (w.heap p).await_ready (w.env (w.heap p).m_fd) with
  | none => simp
  | some x =>
    obtain ⟨b0, a0, tr0⟩ := x
    simp only [Except.ok.injEq, Prod.mk.injEq, Option.some.injEq]
    constructor
    · rintro ⟨rfl, rfl⟩
      exact ⟨a0, tr0, ⟨rfl, rfl, rfl⟩, rfl⟩
    · rintro ⟨a1, tr1, ⟨rfl, rfl, rfl⟩, rfl⟩
      exact ⟨rfl, rfl⟩

theorem World.await_ready_error (w : World σ) (p : Ptr) (x : Stop × World σ)
    (h : w.await_ready p = .error x) :
    (w.heap p).await_ready (w.env (w.heap p).m_fd) = none ∧ x = (Stop.no_outcome, w) := by
  rw [World.await_ready_eq] at h
  cases hr : (w.heap p).await_ready (w.env (w.heap p).m_fd) with
  | none =>
    rw [hr] at h
    simp only [Except.error.injEq] at h
    exact ⟨rfl, h.symm⟩
  | some y =>
    rw [hr] at h
    simp at h

theorem World.retry_eq (w : World σ) (p : Ptr) :
    w.retry p =
      match (w.heap p).await_ready (w.env (w.heap p).m_fd) with
      | none => .error (Stop.no_outcome, w)
      | some (b, a1, tr1) =>
        .ok (if b then (w.heap p).m_cohandle else none,
             { w with heap := Function.update w.heap p a1,
                      env := Function.update w.env (w.heap p).m_fd tr1 }) := by
  unfold World.retry
  rw [World.await_ready_eq]
  cases hr : (w.heap p).await_ready (w.env (w.heap p).m_fd) with
  | none => rfl
  | some x =>
    obtain ⟨b0, a0, tr0⟩ := x
    have hp := (Awaitable.await_ready_post _ _ _ _ _ hr).1
    simp only [Function.update_same]
    rw [hp]

/-- C8. When the next `k` calls are interrupted and the call after them has
the outcome `o`, which is not an interruption, `await_ready` returns what it
returns for `o` alone and has used exactly those `k + 1` outcomes (`k` of them
are not enough for it to return).  The errno of a result that `await_ready`
recorded, which is what `co_await` evaluates to, is never `EINTR`. -/
theorem C8_interrupted_calls_retried (a : Awaitable) (k : Nat) (o : Outcome)
    (rest : List Outcome) (ho : o ≠ Outcome.fail EINTR) :
    (∃ b a1, a.await_ready [o] = some (b, a1, []) ∧
      a.await_ready (List.replicate k (Outcome.fail EINTR) ++ o :: rest) = some (b, a1, rest) ∧
      a1.await_resume.2 ≠ EINTR) ∧
    a.await_ready (List.replicate k (Outcome.fail EINTR)) = none ∧
    (∀ (tr : List Outcome) (b : Bool) (a1 : Awaitable) (tr1 : List Outcome),
      a.await_ready tr = some (b, a1, tr1) → a1.await_resume.2 ≠ EINTR) ∧
    (∀ (w : World σ) (h : Handle) (r : AsyncIOResult) (w1 : World σ),
      co_await w h a = .ok (Awaited.done r w1) → r.2 ≠ EINTR) ∧
    (∀ (w : World σ) (p : Ptr) (c : Option Handle) (w1 : World σ),
      w.retry p = .ok (c, w1) → (w1.await_resume p).2 ≠ EINTR) := by
  have hne : (o.errno_after 0 = EINTR) = False := by
    cases o with
    | ret n => simp [Outcome.errno_after, EINTR]
    | fail e =>
      simp only [Outcome.errno_after, eq_iff_iff, iff_false]
      intro he
      exact ho (by rw [he])
  refine ⟨?_, Awaitable.await_ready_only_interrupted a k, ?_, ?_, ?_⟩
  · refine ⟨decide (o.errno_after 0 ≠ EAGAIN),
      { a with m_result := (if o.value ≥ 0 then o.value else 0, o.errno_after 0) }, ?_, ?_, ?_⟩
    · simp [Awaitable.await_ready, hne]
    · rw [Awaitable.await_ready_interrupted]
      simp [Awaitable.await_ready, hne]
    · simp [Awaitable.await_resume, hne]
  · intro tr b a1 tr1 h
    exact (Awaitable.await_ready_post a tr b a1 tr1 h).2.2.1
  · intro w h r w1 hc
    unfold co_await at hc
    simp only at hc
    split at hc
    · simp at hc
    · rename_i w2 hr
      simp only [Except.ok.injEq, Awaited.done.injEq] at hc
      obtain ⟨a1, tr1, hready, hw⟩ := (World.await_ready_ok_iff _ _ _ _).1 hr
      rw [← hc.1, hw]
      simp only [World.await_resume, Function.update_same]
      exact (Awaitable.await_ready_post _ _ _ _ _ hready).2.2.1
    · split at hc <;> simp at hc
  · intro w p c w1 hc
    rw [World.retry_eq] at hc
    split at hc
    · simp at hc
    · rename_i b a1 tr1 hready
      simp only [Except.ok.injEq, Prod.mk.injEq] at hc
      rw [← hc.2]
      simp only [World.await_resume, Function.update_same]
      exact (Awaitable.await_ready_post _ _ _ _ _ hready).2.2.1

/-- C8 at a read of descriptor 3 interrupted twice before it returns 2 bytes. -/
theorem C8_interrupted_calls_retried_witness :
    (async_read 3 0 64).await_ready
        [Outcome.fail EINTR, Outcome.fail EINTR, Outcome.ret 2, Outcome.fail EAGAIN]
      = some (true, { async_read 3 0 64 with m_result := (2, 0) }, [Outcome.fail EAGAIN]) ∧
    (async_read 3 0 64).await_ready [Outcome.fail EINTR, Outcome.fail EINTR] = none := by
  have h := C8_interrupted_calls_retried (σ := Unit) (async_read 3 0 64) 2 (Outcome.ret 2)
    [Outcome.fail EAGAIN] (by decide)
  obtain ⟨⟨b, a1, h1, h2, _⟩, h3, _⟩ := h
  have h4 : (async_read 3 0 64).await_ready [Outcome.ret 2]
      = some (true, { async_read 3 0 64 with m_result := (2, 0) }, []) := by decide
  rw [h4] at h1
  simp only [Option.some.injEq, Prod.mk.injEq] at h1
  obtain ⟨rfl, rfl, -⟩ := h1
  exact ⟨h2, h3⟩

theorem World.await_suspend_eq (w : World σ) (p : Ptr) (h : Handle) :
    w.await_suspend p h =
      match index? (w.heap p).m_fd with
      | none => .error (Stop.out_of_bounds,
          { w with heap := Function.update w.heap p { w.heap p with m_cohandle := some h } })
      | some i =>
        match w.m_awaitables i with
        | some _ => .error (Stop.assertion_failed,
            { w with heap := Function.update w.heap p { w.heap p with m_cohandle := some h } })
        | none =>
          .ok { w with heap := Function.update w.heap p { w.heap p with m_cohandle := some h },
                       m_awaitables := Function.update w.m_awaitables i (some p),
                       log := w.log ++ [Event.park (w.heap p).m_fd p] } := rfl

/-- C7. When the slot of the request's descriptor is occupied, `await_suspend`
fails its assertion and the table at that point is the table before the call;
`await_suspend` returns exactly when the slot of the request's descriptor is
null. -/
theorem C7_occupied_slot_asserts (w : World σ) (p : Ptr) (h : Handle) :
    (∀ (i : Fin MAX_EXCLUSIVE_FD) (q : Ptr),
      index? (w.heap p).m_fd = some i → w.m_awaitables i = some q →
        ∃ w1, w.await_suspend p h = .error (Stop.assertion_failed, w1) ∧
          w1.m_awaitables = w.m_awaitables ∧ w1.m_awaitables i = some q) ∧
    ((∃ w2, w.await_suspend p h = .ok w2) ↔
      ∃ i, index? (w.heap p).m_fd = some i ∧ w.m_awaitables i = none) := by
  constructor
  · intro i q hi hq
    rw [World.await_suspend_eq, hi]
    simp only [hq]
    exact ⟨_, rfl, rfl, hq⟩
  · rw [World.await_suspend_eq]
    cases hi : index? (w.heap p).m_fd with
    | none => simp
    | some i =>
      cases hq : w.m_awaitables i with
      | none => simp [hq]
      | some q => simp [hq]

theorem co_await_would_block (w : World σ) (h : Handle) (a a1 : Awaitable) (tr1 : List Outcome)
    (i : Fin MAX_EXCLUSIVE_FD) (hi : index? a.m_fd = some i) (hempty : w.m_awaitables i = none)
    (hwb : a.await_ready (w.env a.m_fd) = some (false, a1, tr1)) :
    co_await w h a = .ok (Awaited.suspended w.next_ptr
      { w with m_awaitables := Function.update w.m_awaitables i (some w.next_ptr),
               heap := Function.update w.heap w.next_ptr
                 { a with m_result := (0, EAGAIN), m_cohandle := some h },
               next_ptr := w.next_ptr + 1,
               env := Function.update w.env a.m_fd tr1,
               log := w.log ++ [Event.park a.m_fd w.next_ptr] }) := by
  have hpost := Awaitable.await_ready_post a _ _ _ _ hwb
  have hres : a1.m_result = (0, EAGAIN) := by
    have h2 : a1.m_result.2 = EAGAIN := hpost.2.2.2.1.1 rfl
    have h1 : a1.m_result.1 = 0 := hpost.2.2.2.2.2 (by rw [h2]; decide)
    exact Prod.ext h1 h2
  have ha1 : a1 = { a with m_result := (0, EAGAIN) } := by
    rw [hpost.1, hres]
  subst ha1
  unfold co_await
  simp only [World.await_ready_eq, Function.update_same, hwb, World.await_suspend_eq, hi, hempty,
    Function.update_idem]


/-- C2. A request `a` on a descriptor within the table whose slot is null, and
whose immediate attempt reports would-block: `co_await` suspends the
coroutine, the slot of the descriptor holds the address of exactly that
request, the request records the coroutine's handle, and every other slot is
as before; the frame of the coroutine is then suspended on that request.  The
same holds of `await_suspend` called on any request at an address `p`. -/
theorem C2_would_block_parks (w : World σ) (h : Handle) (a a1 : Awaitable) (tr1 : List Outcome)
    (i : Fin MAX_EXCLUSIVE_FD) (hi : index? a.m_fd = some i) (hempty : w.m_awaitables i = none)
    (hwb : a.await_ready (w.env a.m_fd) = some (false, a1, tr1)) :
    (∃ w2, co_await w h a = .ok (Awaited.suspended w.next_ptr w2) ∧
      w2.m_awaitables i = some w.next_ptr ∧
      w2.heap w.next_ptr = { a with m_result := (0, EAGAIN), m_cohandle := some h } ∧
      (∀ j, j ≠ i → w2.m_awaitables j = w.m_awaitables j) ∧
      (∀ (body : Body σ) (fuel : Nat) (l l1 : σ) (r : AsyncIOResult),
        body l r = (l1, Action.co_await a) →
          ∃ w3, run body (fuel + 1) w h l r = .ok w3 ∧
            w3.frames h = CoState.suspended l1 w.next_ptr ∧
            w3.m_awaitables = w2.m_awaitables)) ∧
    (∀ p : Ptr, (w.heap p).m_fd = a.m_fd →
      ∃ w2, w.await_suspend p h = .ok w2 ∧
        w2.m_awaitables i = some p ∧
        w2.heap p = { w.heap p with m_cohandle := some h } ∧
        (∀ j, j ≠ i → w2.m_awaitables j = w.m_awaitables j)) := by
  constructor
  · refine ⟨_, co_await_would_block w h a a1 tr1 i hi hempty hwb, ?_, ?_, ?_, ?_⟩
    · simp
    · simp
    · intro j hj
      simp [Function.update_noteq hj]
    · intro body fuel l l1 r hb
      have hrun : run body (fuel + 1) w h l r = .ok
          { m_awaitables := Function.update w.m_awaitables i (some w.next_ptr),
            heap := Function.update w.heap w.next_ptr
              { a with m_result := (0, EAGAIN), m_cohandle := some h },
            next_ptr := w.next_ptr + 1,
            frames := Function.update w.frames h (CoState.suspended l1 w.next_ptr),
            env := Function.update w.env a.m_fd tr1,
            log := w.log ++ [Event.park a.m_fd w.next_ptr] } := by
        simp only [run, hb, co_await_would_block w h a a1 tr1 i hi hempty hwb]
      exact ⟨_, hrun, by simp, rfl⟩
  · intro p hp
    rw [World.await_suspend_eq, hp, hi]
    simp only [hempty]
    refine ⟨_, rfl, ?_, ?_, ?_⟩
    · simp
    · simp
    · intro j hj
      simp [Function.update_noteq hj]

/-- C2 at `quiet_world`, where coroutine 7 reads descriptor 3. -/
theorem C2_would_block_parks_witness :
    ∃ w2, co_await quiet_world 7 (async_read 3 0 64) = .ok (Awaited.suspended 0 w2) ∧
      w2.m_awaitables 3 = some 0 ∧
      w2.heap 0 = { async_read 3 0 64 with m_result := (0, EAGAIN), m_cohandle := some 7 } ∧
      (∀ j, j ≠ 3 → w2.m_awaitables j = none) := by
  obtain ⟨w2, h1, h2, h3, h4, _⟩ :=
    (C2_would_block_parks quiet_world 7 (async_read 3 0 64)
      { async_read 3 0 64 with m_result := (0, EAGAIN) } [Outcome.ret 2, Outcome.fail EAGAIN]
      3 (by decide) (by decide) (by decide)).1
  exact ⟨w2, h1, h2, h3, h4⟩

/-- C7 at `parked_world`, where coroutine 8 tries to park a second request on
descriptor 3. -/
theorem C7_occupied_slot_asserts_witness :
    ∃ w1, parked_world.await_suspend 1 8 = .error (Stop.assertion_failed, w1) ∧
      w1.m_awaitables = parked_world.m_awaitables ∧ w1.m_awaitables 3 = some 0 :=
  (C7_occupied_slot_asserts parked_world 1 8).1 3 0 (by decide) (by decide)

/-! ## Facts about the loops of `pump_events` -/

theorem scan_not_ready (st : World σ × List Handle) (polls : List pollfd)
    (h : ∀ e ∈ polls, e.revents = 0) : scan st polls = .ok st := by
  induction polls with
  | nil => rfl
  | cons e polls ih =>
    have he : e.revents = 0 := h e (List.mem_cons_self _ _)
    simp only [scan, scan_step, he, if_true]
    exact ih (fun x hx => h x (List.mem_cons_of_mem _ hx))

/-- C9. When `poll` fails with an errno other than `EINTR`, `pump_events`
returns that errno; when `poll` fails with `EINTR` it returns 0; in both cases
the state, with its table and its log of retries and resumptions, is the state
before the call.  When `poll` succeeds every value `pump_events` returns is 0,
and it does return 0 when nothing is reported ready.  So a value other than 0
is returned exactly when `poll` failed with an errno that is neither `EINTR`
nor 0. -/
theorem C9_poll_failure (body : Body σ) (fuel : Nat) (w : World σ) :
    (∀ e : Int, e ≠ EINTR → pump_events body fuel w (PollOutcome.fail e) = .ok (e, w)) ∧
    pump_events body fuel w (PollOutcome.fail EINTR) = .ok (0, w) ∧
    (∀ (revents : Int → Int) (c : Int) (w2 : World σ),
      pump_events body fuel w (PollOutcome.ready revents) = .ok (c, w2) → c = 0) ∧
    pump_events body fuel w (PollOutcome.ready fun _ => 0) = .ok (0, w) ∧
    (∀ (po : PollOutcome) (c : Int) (w2 : World σ),
      pump_events body fuel w po = .ok (c, w2) →
        (c ≠ 0 ↔ ∃ e, po = PollOutcome.fail e ∧ e ≠ EINTR ∧ e ≠ 0)) := by
  have hready : ∀ (revents : Int → Int) (c : Int) (w2 : World σ),
      pump_events body fuel w (PollOutcome.ready revents) = .ok (c, w2) → c = 0 := by
    intro revents c w2 h
    simp only [pump_events] at h
    split at h
    · simp at h
    · split at h
      · simp at h
      · simp only [Except.ok.injEq, Prod.mk.injEq] at h
        exact h.1.symm
  refine ⟨?_, ?_, hready, ?_, ?_⟩
  · intro e he
    simp [pump_events, he]
  · simp [pump_events]
  · have hs : scan (w, ([] : List Handle)) (fill_revents (fun _ => 0) (collect_polls w))
        = .ok (w, []) := by
      apply scan_not_ready
      intro e he
      simp only [fill_revents, List.mem_map] at he
      obtain ⟨x, _, rfl⟩ := he
      rfl
    simp only [pump_events, hs, resume_all]
  · intro po c w2 h
    cases po with
    | fail e =>
      simp only [pump_events, Except.ok.injEq, Prod.mk.injEq] at h
      obtain ⟨hc, -⟩ := h
      by_cases he : e = EINTR
      · subst he
        simp at hc
        simp [← hc]
      · simp only [ne_eq, he, not_false_eq_true, if_true] at hc
        subst hc
        simp [he]
    | ready revents =>
      have := hready revents c w2 h
      simp [this]

/-- C9 at `parked_world`, where `poll` fails with errno 9. -/
theorem C9_poll_failure_witness :
    pump_events read_once 4 parked_world (PollOutcome.fail 9) = .ok (9, parked_world) :=
  (C9_poll_failure read_once 4 parked_world).1 9 (by decide)

theorem index?_eq_some (fd : Int) (i : Fin MAX_EXCLUSIVE_FD) :
    index? fd = some i ↔ fd = (i.val : Int) := by
  unfold index?
  split
  · rename_i h
    simp only [Option.some.injEq]
    constructor
    · intro hi
      have hv := congrArg Fin.val hi
      simp only at hv
      omega
    · intro hfd
      apply Fin.ext
      show fd.toNat = i.val
      omega
  · rename_i h
    constructor
    · intro hc
      cases hc
    · intro hfd
      have := i.isLt
      exact absurd ⟨by omega, by omega⟩ h

theorem index?_coe (i : Fin MAX_EXCLUSIVE_FD) : index? (i.val : Int) = some i :=
  (index?_eq_some _ _).2 rfl

/-- One round of the second loop, for an entry whose slot holds the request at
`p` in a well-formed state `w` with which the current state agrees. -/
theorem scan_step_spec (w : World σ) (hwf : WellFormed w) (w1 : World σ) (cs : List Handle)
    (e : pollfd) (i : Fin MAX_EXCLUSIVE_FD) (p : Ptr) (hi : index? e.fd = some i)
    (hp : w.m_awaitables i = some p) (hag : Agree w w1 [e]) :
    scan_step (w1, cs) e =
      if e.revents = 0 then .ok (w1, cs)
      else
        match (w.heap p).await_ready (w.env e.fd) with
        | none => .error (Stop.no_outcome, { w1 with log := w1.log ++ [Event.retry e.fd] })
        | some (true, a1, tr1) =>
          .ok ({ w1 with m_awaitables := Function.update w1.m_awaitables i none,
                         heap := Function.update w1.heap p a1,
                         env := Function.update w1.env e.fd tr1,
                         log := w1.log ++ [Event.retry e.fd] ++ [Event.unpark e.fd] },
               cs ++ ((w.heap p).m_cohandle).toList)
        | some (false, a1, tr1) =>
          .ok ({ w1 with heap := Function.update w1.heap p a1,
                         env := Function.update w1.env e.fd tr1,
                         log := w1.log ++ [Event.retry e.fd] }, cs) := by
  obtain ⟨h1, h2, h3⟩ := hag e (List.mem_singleton_self e) i hi
  have h3 := h3 p hp
  have hfd : (w.heap p).m_fd = e.fd := by
    rw [(hwf i p hp).1, (index?_eq_some _ _).1 hi]
  obtain ⟨c, hc⟩ := Option.ne_none_iff_exists'.1 (hwf i p hp).2.1
  by_cases hr : e.revents = 0
  · simp [scan_step, hr]
  · simp only [scan_step, hr, if_false, hi, h1, hp, World.retry_eq, h3, hfd, h2]
    cases hat : (w.heap p).await_ready (w.env e.fd) with
    | none => rfl
    | some x =>
      obtain ⟨b, a1, tr1⟩ := x
      cases b with
      | true => simp [hc]
      | false => simp

theorem filterMap_cons_toList {α β : Type} (f : α → Option β) (a : α) (l : List α) :
    (a :: l).filterMap f = (f a).toList ++ l.filterMap f := by
  rw [List.filterMap_cons]
  cases f a <;> rfl

/-- Two slots of a well-formed table hold different requests. -/
theorem WellFormed.slot_unique (w : World σ) (hwf : WellFormed w) (i j : Fin MAX_EXCLUSIVE_FD)
    (p : Ptr) (hi : w.m_awaitables i = some p) (hj : w.m_awaitables j = some p) : i = j := by
  have h1 := (hwf i p hi).1
  have h2 := (hwf j p hj).1
  rw [h1] at h2
  exact Fin.ext (by exact_mod_cast h2)

/-- One round of the second loop that does not stop, as a `ScanPost`. -/
theorem scan_step_post (w : World σ) (hwf : WellFormed w) (w0 w1 : World σ)
    (cs cs1 : List Handle) (e : pollfd) (i : Fin MAX_EXCLUSIVE_FD) (p : Ptr)
    (hi : index? e.fd = some i) (hp : w.m_awaitables i = some p) (hag : Agree w w0 [e])
    (hs : scan_step (w0, cs) e = .ok (w1, cs1)) :
    ScanPost w w0 w1 cs cs1 [e] := by
  have hfd : e.fd = (i.val : Int) := (index?_eq_some _ _).1 hi
  obtain ⟨h1, h2, h3⟩ := hag e (List.mem_singleton_self e) i hi
  have h3 := h3 p hp
  rw [scan_step_spec w hwf w0 cs e i p hi hp hag] at hs
  have hne : ∀ j : Fin MAX_EXCLUSIVE_FD, (∀ x ∈ [e], x.fd ≠ (j.val : Int)) → j ≠ i := by
    intro j hj hji
    exact hj e (List.mem_singleton_self e) (by rw [hfd, hji])
  have hnq : ∀ q : Ptr, (∀ x ∈ [e], ∀ k, index? x.fd = some k → w.m_awaitables k ≠ some q) →
      q ≠ p := by
    intro q hq hqp
    exact hq e (List.mem_singleton_self e) i hi (by rw [hqp]; exact hp)
  by_cases hr : e.revents = 0
  · simp only [hr, if_true, Except.ok.injEq, Prod.mk.injEq] at hs
    obtain ⟨rfl, rfl⟩ := hs
    have hat : scan_attempt w e = none := by simp [scan_attempt, hr]
    refine ⟨?_, ?_, rfl, rfl, fun _ _ => rfl, fun _ _ => rfl, fun _ _ => rfl, ?_, ?_⟩
    · rw [filterMap_cons_toList]
      simp [scan_handle, hat]
    · simp [scan_events, hat]
    · intro x hx _ k q hk hq
      rw [List.mem_singleton] at hx
      subst hx
      rw [hi] at hk
      cases hk
      rw [hp] at hq
      cases hq
      exact ⟨by rw [h1, hp], h3, h2⟩
    · intro x hx hxr
      rw [List.mem_singleton] at hx
      subst hx
      exact absurd hr hxr
  · simp only [hr, if_false] at hs
    cases hat : (w.heap p).await_ready (w.env e.fd) with
    | none =>
      rw [hat] at hs
      cases hs
    | some y =>
      obtain ⟨b, a1, tr1⟩ := y
      rw [hat] at hs
      have hsa : scan_attempt w e = some (p, b, a1, tr1) := by
        simp [scan_attempt, hr, hi, hp, hat]
      have hready : ∀ x ∈ [e], x.revents ≠ 0 → ∀ k q, index? x.fd = some k →
          w.m_awaitables k = some q →
          ∃ b2 a2 tr2, (w.heap q).await_ready (w.env x.fd) = some (b2, a2, tr2) ∧
            (Function.update w0.heap p a1) q = a2 ∧ (Function.update w0.env e.fd tr1) x.fd = tr2 ∧
            (if b then Function.update w0.m_awaitables i none else w0.m_awaitables) k
              = if b2 then none else some q := by
        intro x hx _ k q hk hq
        rw [List.mem_singleton] at hx
        subst hx
        rw [hi] at hk
        cases hk
        rw [hp] at hq
        cases hq
        refine ⟨b, a1, tr1, hat, by simp, by simp, ?_⟩
        cases b
        · simp [h1, hp]
        · simp
      have hnot : ∀ x ∈ [e], x.revents = 0 → ∀ k q, index? x.fd = some k →
          w.m_awaitables k = some q →
          w1.m_awaitables k = some q ∧ w1.heap q = w.heap q ∧ w1.env x.fd = w.env x.fd := by
        intro x hx hxr
        rw [List.mem_singleton] at hx
        subst hx
        exact absurd hxr hr
      obtain ⟨c, hc⟩ := Option.ne_none_iff_exists'.1 (hwf i p hp).2.1
      cases b with
      | true =>
        simp only [Except.ok.injEq, Prod.mk.injEq] at hs
        obtain ⟨rfl, rfl⟩ := hs
        refine ⟨?_, ?_, rfl, rfl, ?_, ?_, ?_, hnot, ?_⟩
        · rw [filterMap_cons_toList]
          simp [scan_handle, hsa]
        · simp [scan_events, hsa]
        · intro j hj
          simp [Function.update_noteq (hne j hj)]
        · intro fd hfd2
          have : fd ≠ e.fd := fun h => hfd2 e (List.mem_singleton_self e) h.symm
          simp [Function.update_noteq this]
        · intro q hq
          simp [Function.update_noteq (hnq q hq)]
        · simpa using hready
      | false =>
        simp only [Except.ok.injEq, Prod.mk.injEq] at hs
        obtain ⟨rfl, rfl⟩ := hs
        refine ⟨?_, ?_, rfl, rfl, ?_, ?_, ?_, hnot, ?_⟩
        · rw [filterMap_cons_toList]
          simp [scan_handle, hsa]
        · simp [scan_events, hsa]
        · intro j _
          rfl
        · intro fd hfd2
          have : fd ≠ e.fd := fun h => hfd2 e (List.mem_singleton_self e) h.symm
          simp [Function.update_noteq this]
        · intro q hq
          simp [Function.update_noteq (hnq q hq)]
        · simpa using hready

/-- A round of the second loop followed by the rest of the loop. -/
theorem ScanPost.cons (w : World σ) (hwf : WellFormed w) (w0 w1 w2 : World σ)
    (cs cs1 cs2 : List Handle) (e : pollfd) (es : List pollfd)
    (hd : ∀ x ∈ es, e.fd ≠ x.fd)
    (A : ScanPost w w0 w1 cs cs1 [e]) (B : ScanPost w w1 w2 cs1 cs2 es) :
    ScanPost w w0 w2 cs cs2 (e :: es) := by
  have hslot : ∀ i, index? e.fd = some i → w2.m_awaitables i = w1.m_awaitables i := by
    intro i hi
    apply B.slot_frame
    intro x hx hxi
    exact hd x hx (by rw [hxi, (index?_eq_some _ _).1 hi])
  have henv : w2.env e.fd = w1.env e.fd :=
    B.env_frame _ (fun x hx hxe => hd x hx hxe.symm)
  have hheap : ∀ i p, index? e.fd = some i → w.m_awaitables i = some p →
      w2.heap p = w1.heap p := by
    intro i p hi hp
    apply B.heap_frame
    intro x hx k hk hkp
    have hik : k = i := WellFormed.slot_unique w hwf k i p hkp hp
    subst hik
    exact hd x hx (by rw [(index?_eq_some _ _).1 hi, (index?_eq_some _ _).1 hk])
  refine ⟨?_, ?_, ?_, ?_, ?_, ?_, ?_, ?_, ?_⟩
  · rw [B.handles, A.handles, filterMap_cons_toList, filterMap_cons_toList]
    simp
  · rw [B.log, A.log]
    simp
  · rw [B.next_ptr, A.next_ptr]
  · rw [B.frames, A.frames]
  · intro j hj
    rw [B.slot_frame j (fun x hx => hj x (List.mem_cons_of_mem _ hx)),
      A.slot_frame j (fun x hx => hj x (by rw [List.mem_singleton.1 hx]; exact List.mem_cons_self _ _))]
  · intro fd hfd
    rw [B.env_frame fd (fun x hx => hfd x (List.mem_cons_of_mem _ hx)),
      A.env_frame fd (fun x hx => hfd x (by rw [List.mem_singleton.1 hx]; exact List.mem_cons_self _ _))]
  · intro q hq
    rw [B.heap_frame q (fun x hx => hq x (List.mem_cons_of_mem _ hx)),
      A.heap_frame q (fun x hx => hq x (by rw [List.mem_singleton.1 hx]; exact List.mem_cons_self _ _))]
  · intro x hx hxr i p hi hp
    rcases List.mem_cons.1 hx with rfl | hx
    · obtain ⟨a1, a2, a3⟩ := A.not_ready x (List.mem_singleton_self x) hxr i p hi hp
      exact ⟨by rw [hslot i hi, a1], by rw [hheap i p hi hp, a2], by rw [henv, a3]⟩
    · exact B.not_ready x hx hxr i p hi hp
  · intro x hx hxr i p hi hp
    rcases List.mem_cons.1 hx with rfl | hx
    · obtain ⟨b, a1, tr1, hat, a2, a3, a4⟩ := A.ready x (List.mem_singleton_self x) hxr i p hi hp
      exact ⟨b, a1, tr1, hat, by rw [hheap i p hi hp, a2], by rw [henv, a3],
        by rw [hslot i hi, a4]⟩
    · exact B.ready x hx hxr i p hi hp

/-- The second loop of `pump_events`, when it does not stop. -/
theorem scan_post (w : World σ) (hwf : WellFormed w) (es : List pollfd) :
    ∀ (w0 w2 : World σ) (cs cs2 : List Handle),
      es.Pairwise (fun e1 e2 => e1.fd ≠ e2.fd) →
      (∀ e ∈ es, ∃ i p, index? e.fd = some i ∧ w.m_awaitables i = some p) →
      Agree w w0 es →
      scan (w0, cs) es = .ok (w2, cs2) →
      ScanPost w w0 w2 cs cs2 es := by
  induction es with
  | nil =>
    intro w0 w2 cs cs2 _ _ _ hs
    simp only [scan, Except.ok.injEq, Prod.mk.injEq] at hs
    obtain ⟨rfl, rfl⟩ := hs
    exact ⟨by simp, by simp, rfl, rfl, fun _ _ => rfl, fun _ _ => rfl, fun _ _ => rfl,
      fun x hx => absurd hx (List.not_mem_nil x), fun x hx => absurd hx (List.not_mem_nil x)⟩
  | cons e es ih =>
    intro w0 w2 cs cs2 hpw hall hag hs
    obtain ⟨hd, hpw⟩ := List.pairwise_cons.1 hpw
    obtain ⟨i, p, hi, hp⟩ := hall e (List.mem_cons_self _ _)
    have hag1 : Agree w w0 [e] := by
      intro x hx
      rw [List.mem_singleton] at hx
      subst hx
      exact hag x (List.mem_cons_self _ _)
    simp only [scan] at hs
    cases hst : scan_step (w0, cs) e with
    | error x =>
      rw [hst] at hs
      cases hs
    | ok st1 =>
      obtain ⟨w1, cs1⟩ := st1
      rw [hst] at hs
      have A := scan_step_post w hwf w0 w1 cs cs1 e i p hi hp hag1 hst
      have hag2 : Agree w w1 es := by
        intro x hx k hk
        obtain ⟨g1, g2, g3⟩ := hag x (List.mem_cons_of_mem _ hx) k hk
        have hne : e.fd ≠ x.fd := hd x hx
        refine ⟨?_, ?_, ?_⟩
        · rw [A.slot_frame k, g1]
          intro y hy
          rw [List.mem_singleton.1 hy, ← (index?_eq_some _ _).1 hk]
          exact hne
        · rw [A.env_frame x.fd, g2]
          intro y hy
          rw [List.mem_singleton.1 hy]
          exact hne
        · intro q hq
          rw [A.heap_frame q, g3 q hq]
          intro y hy k2 hk2 hk2q
          rw [List.mem_singleton.1 hy] at hk2
          have hkk : k2 = k := WellFormed.slot_unique w hwf k2 k q hk2q hq
          subst hkk
          exact hne (by rw [(index?_eq_some _ _).1 hk2, (index?_eq_some _ _).1 hk])
      have B := ih w1 w2 cs1 cs2 hpw (fun x hx => hall x (List.mem_cons_of_mem _ hx)) hag2 hs
      exact ScanPost.cons w hwf w0 w1 w2 cs cs1 cs2 e es hd A B

/-- The second loop of `pump_events` does not stop when every retry it makes
has the outcomes it needs. -/
theorem scan_total (w : World σ) (hwf : WellFormed w) (es : List pollfd) :
    ∀ (w0 : World σ) (cs : List Handle),
      es.Pairwise (fun e1 e2 => e1.fd ≠ e2.fd) →
      (∀ e ∈ es, ∃ i p, index? e.fd = some i ∧ w.m_awaitables i = some p) →
      (∀ e ∈ es, e.revents ≠ 0 → ∀ i p, index? e.fd = some i → w.m_awaitables i = some p →
        (w.heap p).await_ready (w.env e.fd) ≠ none) →
      Agree w w0 es →
      ∃ w2 cs2, scan (w0, cs) es = .ok (w2, cs2) := by
  induction es with
  | nil =>
    intro w0 cs _ _ _ _
    exact ⟨w0, cs, rfl⟩
  | cons e es ih =>
    intro w0 cs hpw hall hen hag
    obtain ⟨hd, hpw1⟩ := List.pairwise_cons.1 hpw
    obtain ⟨i, p, hi, hp⟩ := hall e (List.mem_cons_self _ _)
    have hag1 : Agree w w0 [e] := by
      intro x hx
      rw [List.mem_singleton] at hx
      subst hx
      exact hag x (List.mem_cons_self _ _)
    have hstep : ∃ w1 cs1, scan_step (w0, cs) e = .ok (w1, cs1) := by
      rw [scan_step_spec w hwf w0 cs e i p hi hp hag1]
      by_cases hr : e.revents = 0
      · simp [hr]
      · have := hen e (List.mem_cons_self _ _) hr i p hi hp
        cases hat : (w.heap p).await_ready (w.env e.fd) with
        | none => exact absurd hat this
        | some y =>
          obtain ⟨b, a1, tr1⟩ := y
          cases b <;> simp [hr]
    obtain ⟨w1, cs1, hst⟩ := hstep
    have hcons : scan (w0, cs) (e :: es) = scan (w1, cs1) es := by
      simp only [scan, hst]
    have hfull := fun w2 cs2 (h : scan (w1, cs1) es = .ok (w2, cs2)) =>
      scan_post w hwf (e :: es) w0 w2 cs cs2 hpw hall hag (hcons ▸ h)
    have A := scan_step_post w hwf w0 w1 cs cs1 e i p hi hp hag1 hst
    have hag2 : Agree w w1 es := by
      intro x hx k hk
      obtain ⟨g1, g2, g3⟩ := hag x (List.mem_cons_of_mem _ hx) k hk
      have hne : e.fd ≠ x.fd := hd x hx
      refine ⟨?_, ?_, ?_⟩
      · rw [A.slot_frame k, g1]
        intro y hy
        rw [List.mem_singleton.1 hy, ← (index?_eq_some _ _).1 hk]
        exact hne
      · rw [A.env_frame x.fd, g2]
        intro y hy
        rw [List.mem_singleton.1 hy]
        exact hne
      · intro q hq
        rw [A.heap_frame q, g3 q hq]
        intro y hy k2 hk2 hk2q
        rw [List.mem_singleton.1 hy] at hk2
        have hkk : k2 = k := WellFormed.slot_unique w hwf k2 k q hk2q hq
        subst hkk
        exact hne (by rw [(index?_eq_some _ _).1 hk2, (index?_eq_some _ _).1 hk])
    obtain ⟨w2, cs2, h2⟩ := ih w1 cs1 hpw1 (fun x hx => hall x (List.mem_cons_of_mem _ hx))
      (fun x hx => hen x (List.mem_cons_of_mem _ hx)) hag2
    exact ⟨w2, cs2, by rw [hcons, h2]⟩

theorem foldl_collect_step (w : World σ) (l : List (Fin MAX_EXCLUSIVE_FD)) (acc : List pollfd) :
    l.foldl (collect_step w) acc = acc ++ l.filterMap (poll_entry w) := by
  induction l generalizing acc with
  | nil => simp
  | cons i l ih =>
    rw [List.foldl_cons, ih, filterMap_cons_toList]
    unfold collect_step poll_entry
    cases w.m_awaitables i <;> simp

/-- The first loop of `pump_events` makes the entries of the occupied slots,
in the order of the slots. -/
theorem collect_polls_eq (w : World σ) :
    collect_polls w = (List.finRange MAX_EXCLUSIVE_FD).filterMap (poll_entry w) := by
  unfold collect_polls
  rw [foldl_collect_step]
  simp

theorem poll_entry_some (w : World σ) (i : Fin MAX_EXCLUSIVE_FD) (e : pollfd)
    (h : poll_entry w i = some e) :
    e.fd = (i.val : Int) ∧ e.revents = 0 ∧ ∃ p, w.m_awaitables i = some p ∧
      e.events = if (w.heap p).m_iop = IOp.READ then POLLIN else POLLOUT := by
  unfold poll_entry at h
  cases hp : w.m_awaitables i with
  | none =>
    rw [hp] at h
    cases h
  | some p =>
    rw [hp] at h
    simp only [Option.some.injEq] at h
    subst h
    exact ⟨rfl, rfl, p, rfl, rfl⟩

theorem mem_collect_polls (w : World σ) (e : pollfd) :
    e ∈ collect_polls w ↔ ∃ i, poll_entry w i = some e := by
  rw [collect_polls_eq, List.mem_filterMap]
  constructor
  · rintro ⟨i, _, hi⟩
    exact ⟨i, hi⟩
  · rintro ⟨i, hi⟩
    exact ⟨i, List.mem_finRange i, hi⟩

/-- The entries of the first loop have strictly ascending descriptors. -/
theorem collect_polls_sorted (w : World σ) :
    (collect_polls w).Pairwise (fun e1 e2 => e1.fd < e2.fd) := by
  rw [collect_polls_eq]
  refine List.Pairwise.filterMap (poll_entry w) ?_ (List.pairwise_lt_finRange MAX_EXCLUSIVE_FD)
  intro i j hij e1 h1 e2 h2
  rw [(poll_entry_some w i e1 h1).1, (poll_entry_some w j e2 h2).1]
  exact_mod_cast hij

theorem fill_revents_sorted (w : World σ) (revents : Int → Int) :
    (fill_revents revents (collect_polls w)).Pairwise (fun e1 e2 => e1.fd < e2.fd) := by
  unfold fill_revents
  rw [List.pairwise_map]
  exact collect_polls_sorted w

theorem mem_fill_revents (w : World σ) (revents : Int → Int) (e : pollfd) :
    e ∈ fill_revents revents (collect_polls w) ↔
      ∃ i p, w.m_awaitables i = some p ∧
        e = { fd := (i.val : Int),
              events := if (w.heap p).m_iop = IOp.READ then POLLIN else POLLOUT,
              revents := revents (i.val : Int) } := by
  unfold fill_revents
  rw [List.mem_map]
  constructor
  · rintro ⟨x, hx, rfl⟩
    obtain ⟨i, hi⟩ := (mem_collect_polls w x).1 hx
    obtain ⟨h1, _, p, hp, h3⟩ := poll_entry_some w i x hi
    exact ⟨i, p, hp, by rw [h1, h3]⟩
  · rintro ⟨i, p, hp, rfl⟩
    refine ⟨{ fd := (i.val : Int),
              events := if (w.heap p).m_iop = IOp.READ then POLLIN else POLLOUT,
              revents := 0 }, ?_, rfl⟩
    rw [mem_collect_polls]
    exact ⟨i, by simp [poll_entry, hp]⟩

/-- The handles that the second loop collects, slot by slot. -/
theorem filterMap_scan_handle (w : World σ) (revents : Int → Int) :
    (fill_revents revents (collect_polls w)).filterMap (scan_handle w)
      = (List.finRange MAX_EXCLUSIVE_FD).filterMap (removed_handle w revents) := by
  unfold fill_revents
  rw [collect_polls_eq, List.map_filterMap, List.filterMap_filterMap]
  congr 1
  funext i
  unfold poll_entry removed_handle scan_handle scan_attempt
  cases hp : w.m_awaitables i with
  | none => simp
  | some p =>
    simp only [Option.map_some', Option.some_bind, index?_coe, hp]
    by_cases hr : revents (i.val : Int) = 0
    · simp [hr]
    · simp only [hr, if_false]
      cases hat : (w.heap p).await_ready (w.env (i.val : Int)) with
      | none => rfl
      | some y =>
        obtain ⟨b, a1, tr1⟩ := y
        cases b <;> rfl

theorem fill_revents_slots (w : World σ) (revents : Int → Int) :
    ∀ e ∈ fill_revents revents (collect_polls w),
      ∃ i p, index? e.fd = some i ∧ w.m_awaitables i = some p := by
  intro e he
  obtain ⟨i, p, hp, rfl⟩ := (mem_fill_revents w revents e).1 he
  exact ⟨i, p, index?_coe i, hp⟩

theorem fill_revents_distinct (w : World σ) (revents : Int → Int) :
    (fill_revents revents (collect_polls w)).Pairwise (fun e1 e2 => e1.fd ≠ e2.fd) :=
  (fill_revents_sorted w revents).imp (fun h => ne_of_lt h)

theorem Agree.refl (w : World σ) (es : List pollfd) : Agree w w es :=
  fun _ _ _ _ => ⟨rfl, rfl, fun _ _ => rfl⟩

/-- The second loop of `pump_events` over the entries that `poll` filled in,
slot by slot. -/
theorem scan_slots (w : World σ) (hwf : WellFormed w) (revents : Int → Int) (w1 : World σ)
    (cs : List Handle)
    (hs : scan (w, []) (fill_revents revents (collect_polls w)) = .ok (w1, cs)) :
    cs = (List.finRange MAX_EXCLUSIVE_FD).filterMap (removed_handle w revents) ∧
    w1.next_ptr = w.next_ptr ∧ w1.frames = w.frames ∧
    (∀ i, w.m_awaitables i = none → w1.m_awaitables i = none) ∧
    (∀ i p, w.m_awaitables i = some p → revents (i.val : Int) = 0 →
      w1.m_awaitables i = some p ∧ w1.heap p = w.heap p ∧
        w1.env (i.val : Int) = w.env (i.val : Int)) ∧
    (∀ i p, w.m_awaitables i = some p → revents (i.val : Int) ≠ 0 →
      ∃ b a1 tr1, (w.heap p).await_ready (w.env (i.val : Int)) = some (b, a1, tr1) ∧
        w1.heap p = a1 ∧ w1.env (i.val : Int) = tr1 ∧
        w1.m_awaitables i = if b then none else some p) ∧
    (∀ fd : Int, (∀ i : Fin MAX_EXCLUSIVE_FD, fd = (i.val : Int) → w.m_awaitables i = none) →
      w1.env fd = w.env fd) ∧
    (∀ q : Ptr, (∀ i, w.m_awaitables i ≠ some q) → w1.heap q = w.heap q) := by
  have P := scan_post w hwf _ w w1 [] cs (fill_revents_distinct w revents)
    (fill_revents_slots w revents) (Agree.refl w _) hs
  have hmem : ∀ i p, w.m_awaitables i = some p →
      ({ fd := (i.val : Int),
         events := if (w.heap p).m_iop = IOp.READ then POLLIN else POLLOUT,
         revents := revents (i.val : Int) } : pollfd) ∈ fill_revents revents (collect_polls w) :=
    fun i p hp => (mem_fill_revents w revents _).2 ⟨i, p, hp, rfl⟩
  refine ⟨?_, P.next_ptr, P.frames, ?_, ?_, ?_, ?_, ?_⟩
  · rw [P.handles, filterMap_scan_handle]
    simp
  · intro i hi
    rw [P.slot_frame i, hi]
    intro e he hfd
    obtain ⟨j, p, hp, rfl⟩ := (mem_fill_revents w revents e).1 he
    simp only at hfd
    have : j = i := Fin.ext (by exact_mod_cast hfd)
    subst this
    rw [hi] at hp
    cases hp
  · intro i p hp hr
    exact P.not_ready _ (hmem i p hp) hr i p (index?_coe i) hp
  · intro i p hp hr
    exact P.ready _ (hmem i p hp) hr i p (index?_coe i) hp
  · intro fd hfd
    apply P.env_frame
    intro e he hefd
    obtain ⟨j, p, hp, rfl⟩ := (mem_fill_revents w revents e).1 he
    have := hfd j hefd.symm
    rw [this] at hp
    cases hp
  · intro q hq
    apply P.heap_frame
    intro e _ i _
    exact hq i

/-- The second loop of `pump_events` ends when every descriptor reported ready
has the outcomes that its retry needs. -/
theorem scan_returns (w : World σ) (hwf : WellFormed w) (revents : Int → Int)
    (henough : ∀ i p, w.m_awaitables i = some p → revents (i.val : Int) ≠ 0 →
      (w.heap p).await_ready (w.env (i.val : Int)) ≠ none) :
    ∃ w1 cs, scan (w, []) (fill_revents revents (collect_polls w)) = .ok (w1, cs) := by
  apply scan_total w hwf _ w [] (fill_revents_distinct w revents) (fill_revents_slots w revents)
    ?_ (Agree.refl w _)
  intro e he hr i p hi hp
  obtain ⟨j, q, hq, rfl⟩ := (mem_fill_revents w revents e).1 he
  simp only at hi hr ⊢
  rw [index?_coe, Option.some.injEq] at hi
  rw [hi] at hr ⊢
  exact henough i p hp hr

/-- C3. In a well-formed state, when `poll` succeeds and every descriptor it
reports ready has the outcomes its retry needs, the scan ends, and after it: a
slot is null exactly when it was null before or its descriptor was reported
ready and the retry of its request completed; a request whose descriptor was
reported ready and whose retry would block stays in its slot; a request whose
descriptor was not reported ready stays in its slot, unchanged, and no outcome
of its descriptor has been used; the handles collected are the handles of the
removed requests, slot by slot; and `retry` returns the stored handle when
`await_ready` returns true and null when it returns false. -/
theorem C3_scan_postcondition (w : World σ) (hwf : WellFormed w) (revents : Int → Int)
    (henough : ∀ i p, w.m_awaitables i = some p → revents (i.val : Int) ≠ 0 →
      (w.heap p).await_ready (w.env (i.val : Int)) ≠ none) :
    ∃ w1 cohandles,
      scan (w, []) (fill_revents revents (collect_polls w)) = .ok (w1, cohandles) ∧
      (∀ i, w1.m_awaitables i = none ↔
        (w.m_awaitables i = none ∨
          (revents (i.val : Int) ≠ 0 ∧ ∃ p a1 tr1, w.m_awaitables i = some p ∧
            (w.heap p).await_ready (w.env (i.val : Int)) = some (true, a1, tr1)))) ∧
      (∀ i p a1 tr1, w.m_awaitables i = some p → revents (i.val : Int) ≠ 0 →
        (w.heap p).await_ready (w.env (i.val : Int)) = some (false, a1, tr1) →
          w1.m_awaitables i = some p) ∧
      (∀ i p, w.m_awaitables i = some p → revents (i.val : Int) = 0 →
        w1.m_awaitables i = some p ∧ w1.heap p = w.heap p ∧
          w1.env (i.val : Int) = w.env (i.val : Int)) ∧
      cohandles = (List.finRange MAX_EXCLUSIVE_FD).filterMap (removed_handle w revents) ∧
      (∀ (v : World σ) (p : Ptr) (v1 : World σ),
        (v.await_ready p = .ok (true, v1) → v.retry p = .ok ((v.heap p).m_cohandle, v1)) ∧
        (v.await_ready p = .ok (false, v1) → v.retry p = .ok (none, v1))) := by
  obtain ⟨w1, cs, hs⟩ := scan_returns w hwf revents henough
  obtain ⟨hcs, -, -, hnone, hnot, hready, -, -⟩ := scan_slots w hwf revents w1 cs hs
  refine ⟨w1, cs, hs, ?_, ?_, hnot, hcs, ?_⟩
  · intro i
    cases hp : w.m_awaitables i with
    | none => simp [hnone i hp]
    | some p =>
      by_cases hr : revents (i.val : Int) = 0
      · simp [(hnot i p hp hr).1, hr]
      · obtain ⟨b, a1, tr1, hat, -, -, hslot⟩ := hready i p hp hr
        cases b with
        | true =>
          simp only [if_true] at hslot
          simp [hslot, hr, hat]
        | false =>
          simp only [Bool.false_eq_true, if_false] at hslot
          simp [hslot, hr, hat]
  · intro i p a1 tr1 hp hr hat
    obtain ⟨b, a2, tr2, hat2, -, -, hslot⟩ := hready i p hp hr
    rw [hat] at hat2
    simp only [Option.some.injEq, Prod.mk.injEq] at hat2
    rw [← hat2.1] at hslot
    simpa using hslot
  · intro v p v1
    constructor
    · intro h
      obtain ⟨a1, tr1, hat, hv⟩ := (World.await_ready_ok_iff _ _ _ _).1 h
      rw [World.retry_eq, hat, hv]
      rfl
    · intro h
      obtain ⟨a1, tr1, hat, hv⟩ := (World.await_ready_ok_iff _ _ _ _).1 h
      rw [World.retry_eq, hat, hv]
      rfl

theorem parked_world_slot (i : Fin MAX_EXCLUSIVE_FD) (p : Ptr)
    (h : parked_world.m_awaitables i = some p) : i = 3 ∧ p = 0 := by
  unfold parked_world at h
  simp only at h
  split at h
  · rename_i h3
    simp only [Option.some.injEq] at h
    exact ⟨Fin.ext h3, h.symm⟩
  · cases h

theorem parked_world_wf : WellFormed parked_world := by
  intro i p h
  obtain ⟨rfl, rfl⟩ := parked_world_slot i p h
  decide

/-- C3 at `parked_world`, where `poll` reports descriptor 3 readable: the
retry completes, slot 3 is emptied and handle 7 is collected. -/
theorem C3_scan_postcondition_witness :
    ∃ w1 cohandles,
      scan (parked_world, [])
        (fill_revents (fun fd => if fd = 3 then POLLIN else 0) (collect_polls parked_world))
        = .ok (w1, cohandles) ∧
      w1.m_awaitables 3 = none ∧ cohandles = [7] := by
  obtain ⟨w1, cs, h1, h2, -, -, h5, -⟩ :=
    C3_scan_postcondition parked_world parked_world_wf (fun fd => if fd = 3 then POLLIN else 0)
      (by
        intro i p h _
        obtain ⟨rfl, rfl⟩ := parked_world_slot i p h
        decide)
  refine ⟨w1, cs, h1, ?_, ?_⟩
  · rw [h2]
    right
    exact ⟨by decide, 0, { async_read 3 0 64 with m_result := (2, 0), m_cohandle := some 7 },
      [Outcome.fail EAGAIN], by decide, by decide⟩
  · rw [h5]
    decide

/-! ## Facts about `co_await`, `run` and `resume` -/

/-- The events of a `co_await` expression are `park` events, whether it
returns or stops. -/
theorem co_await_log (w : World σ) (h : Handle) (a : Awaitable) :
    ∃ evs, (end_state Awaited.world (co_await w h a)).log = w.log ++ evs ∧
      ∀ x ∈ evs, x.by_task = true := by
  unfold co_await
  simp only [World.await_ready_eq, Function.update_same]
  cases hat : a.await_ready (w.env a.m_fd) with
  | none => exact ⟨[], by simp [end_state], by simp⟩
  | some y =>
    obtain ⟨b, a1, tr1⟩ := y
    cases b with
    | true => exact ⟨[], by simp [end_state, Awaited.world], by simp⟩
    | false =>
      simp only [World.await_suspend_eq, Function.update_same]
      cases hi : index? a1.m_fd with
      | none => exact ⟨[], by simp [end_state], by simp⟩
      | some i =>
        simp only
        cases hq : w.m_awaitables i with
        | some q => exact ⟨[], by simp [end_state], by simp⟩
        | none =>
          exact ⟨[Event.park a1.m_fd w.next_ptr], by simp [end_state, Awaited.world],
            by simp [Event.by_task]⟩

/-- The events of a running coroutine are `park` events. -/
theorem run_log (body : Body σ) (fuel : Nat) :
    ∀ (w : World σ) (h : Handle) (l : σ) (r : AsyncIOResult),
      ∃ evs, (end_state id (run body fuel w h l r)).log = w.log ++ evs ∧
        ∀ x ∈ evs, x.by_task = true := by
  induction fuel with
  | zero =>
    intro w h l r
    exact ⟨[], by simp [run, end_state], by simp⟩
  | succ fuel ih =>
    intro w h l r
    simp only [run]
    cases hb : body l r with
    | mk l1 act =>
      cases act with
      | co_return => exact ⟨[], by simp [end_state], by simp⟩
      | co_await a =>
        simp only
        obtain ⟨evs, h1, h2⟩ := co_await_log w h a
        cases hc : co_await w h a with
        | error x =>
          rw [hc] at h1
          exact ⟨evs, by simpa [end_state] using h1, h2⟩
        | ok aw =>
          rw [hc] at h1
          cases aw with
          | done r1 w1 =>
            simp only [end_state, Awaited.world] at h1
            obtain ⟨evs2, h3, h4⟩ := ih w1 h l1 r1
            refine ⟨evs ++ evs2, ?_, ?_⟩
            · simp only
              rw [h3, h1, List.append_assoc]
            · intro x hx
              rcases List.mem_append.1 hx with hx | hx
              · exact h2 x hx
              · exact h4 x hx
          | suspended p w1 =>
            simp only [end_state, Awaited.world] at h1
            exact ⟨evs, by simpa [end_state] using h1, h2⟩

theorem by_task_events (evs : List Event) (h : ∀ x ∈ evs, x.by_task = true) :
    evs.filterMap Event.resumed = [] ∧ evs.filterMap Event.retried = [] ∧
      ∀ x ∈ evs, x.by_scan = false := by
  refine ⟨?_, ?_, ?_⟩
  · rw [List.filterMap_eq_nil_iff]
    intro x hx
    have := h x hx
    cases x <;> simp_all [Event.by_task, Event.resumed]
  · rw [List.filterMap_eq_nil_iff]
    intro x hx
    have := h x hx
    cases x <;> simp_all [Event.by_task, Event.retried]
  · intro x hx
    have := h x hx
    cases x <;> simp_all [Event.by_task, Event.by_scan]

/-- The events of `h.resume()`: the `resume` event of `h`, when `h` is
suspended, and then `park` events. -/
theorem resume_log (body : Body σ) (fuel : Nat) (w : World σ) (h : Handle) :
    ∃ evs, (end_state id (resume body fuel w h)).log = w.log ++ evs ∧
      (∀ x ∈ evs, x.by_scan = false) ∧ evs.filterMap Event.retried = [] ∧
      (evs.filterMap Event.resumed = [] ∨
        ∃ l p, w.frames h = CoState.suspended l p ∧
          evs.filterMap Event.resumed = [(h, (w.heap p).m_result)]) ∧
      (∀ w2, resume body fuel w h = .ok w2 →
        ∃ l p, w.frames h = CoState.suspended l p ∧
          evs.filterMap Event.resumed = [(h, (w.heap p).m_result)]) := by
  unfold resume
  cases hf : w.frames h with
  | suspended l p =>
    simp only
    obtain ⟨evs, h1, h2⟩ := run_log body fuel
      { w with frames := Function.update w.frames h CoState.running,
               log := w.log ++ [Event.resume h (w.await_resume p)] } h l (w.await_resume p)
    obtain ⟨g1, g2, g3⟩ := by_task_events evs h2
    have hres : (Event.resume h (w.await_resume p) :: evs).filterMap Event.resumed
        = [(h, (w.heap p).m_result)] := by
      rw [filterMap_cons_toList, g1]
      rfl
    refine ⟨Event.resume h (w.await_resume p) :: evs, ?_, ?_, ?_, Or.inr ⟨l, p, rfl, hres⟩,
      fun _ _ => ⟨l, p, rfl, hres⟩⟩
    · rw [h1]
      simp
    · intro x hx
      rcases List.mem_cons.1 hx with rfl | hx
      · rfl
      · exact g3 x hx
    · rw [filterMap_cons_toList, g2]
      rfl
  | running =>
    exact ⟨[], by simp [end_state], by simp, by simp, Or.inl (by simp), by simp⟩
  | completed =>
    exact ⟨[], by simp [end_state], by simp, by simp, Or.inl (by simp), by simp⟩

/-- The events of the third loop of `pump_events`: the handles are resumed in
the order of `cohandles`, all of them when the loop ends. -/
theorem resume_all_log (body : Body σ) (fuel : Nat) (cs : List Handle) :
    ∀ w : World σ,
      ∃ evs, (end_state id (resume_all body fuel w cs)).log = w.log ++ evs ∧
        (∀ x ∈ evs, x.by_scan = false) ∧ evs.filterMap Event.retried = [] ∧
        List.IsPrefix ((evs.filterMap Event.resumed).map Prod.fst) cs ∧
        (∀ w2, resume_all body fuel w cs = .ok w2 →
          (evs.filterMap Event.resumed).map Prod.fst = cs) := by
  induction cs with
  | nil =>
    intro w
    exact ⟨[], by simp [resume_all, end_state], by simp, by simp, by simp, by simp⟩
  | cons h cs ih =>
    intro w
    obtain ⟨evs, h1, h2, h3, h4, h5⟩ := resume_log body fuel w h
    simp only [resume_all]
    cases hr : resume body fuel w h with
    | error x =>
      rw [hr] at h1
      refine ⟨evs, by simpa [end_state] using h1, h2, h3, ?_, by simp⟩
      rcases h4 with h4 | ⟨l, p, -, h4⟩
      · rw [h4]
        simp
      · rw [h4]
        simp
    | ok w1 =>
      rw [hr] at h1
      simp only [end_state, id] at h1
      obtain ⟨l, p, -, h6⟩ := h5 w1 hr
      obtain ⟨evs2, k1, k2, k3, k4, k5⟩ := ih w1
      refine ⟨evs ++ evs2, ?_, ?_, ?_, ?_, ?_⟩
      · simp only
        rw [k1, h1, List.append_assoc]
      · intro x hx
        rcases List.mem_append.1 hx with hx | hx
        · exact h2 x hx
        · exact k2 x hx
      · rw [List.filterMap_append, h3, k3]
        rfl
      · rw [List.filterMap_append, h6, List.map_append]
        simpa using k4
      · intro w2 hw2
        rw [List.filterMap_append, h6, List.map_append, k5 w2 hw2]
        rfl

/-- The events of one round of the second loop: nothing, a retry, or a retry
and a removal, all for the descriptor of the entry. -/
theorem scan_step_log (st : World σ × List Handle) (e : pollfd) :
    ∃ evs, (end_state Prod.fst (scan_step st e)).log = st.1.log ++ evs ∧
      (∀ x ∈ evs, x.by_scan = true) ∧ evs.filterMap Event.resumed = [] ∧
      List.Sublist (evs.filterMap Event.retried) [e.fd] := by
  unfold scan_step
  by_cases hr : e.revents = 0
  · exact ⟨[], by simp [hr, end_state], by simp, by simp, by simp⟩
  · simp only [hr, if_false]
    cases hi : index? e.fd with
    | none => exact ⟨[], by simp [end_state], by simp, by simp, by simp⟩
    | some i =>
      simp only
      cases hp : st.1.m_awaitables i with
      | none => exact ⟨[], by simp [end_state], by simp, by simp, by simp⟩
      | some p =>
        simp only [World.retry_eq]
        cases hat : (st.1.heap p).await_ready (st.1.env (st.1.heap p).m_fd) with
        | none =>
          exact ⟨[Event.retry e.fd], by simp [end_state], by simp [Event.by_scan],
            by simp [Event.resumed], by simp [Event.retried]⟩
        | some y =>
          obtain ⟨b, a1, tr1⟩ := y
          simp only
          cases hc : (if b = true then (st.1.heap p).m_cohandle else none) with
          | none =>
            exact ⟨[Event.retry e.fd], by simp [end_state], by simp [Event.by_scan],
              by simp [Event.resumed], by simp [Event.retried]⟩
          | some c =>
            exact ⟨[Event.retry e.fd, Event.unpark e.fd], by simp [end_state],
              by simp [Event.by_scan], by simp [Event.resumed], by simp [Event.retried]⟩

/-- The events of the second loop of `pump_events`: retries and removals,
the retries in the order of the entries. -/
theorem scan_log (es : List pollfd) :
    ∀ st : World σ × List Handle,
      ∃ evs, (end_state Prod.fst (scan st es)).log = st.1.log ++ evs ∧
        (∀ x ∈ evs, x.by_scan = true) ∧ evs.filterMap Event.resumed = [] ∧
        List.Sublist (evs.filterMap Event.retried) (es.map pollfd.fd) := by
  induction es with
  | nil =>
    intro st
    exact ⟨[], by simp [scan, end_state], by simp, by simp, by simp⟩
  | cons e es ih =>
    intro st
    obtain ⟨evs, h1, h2, h3, h4⟩ := scan_step_log st e
    simp only [scan]
    cases hs : scan_step st e with
    | error x =>
      rw [hs] at h1
      refine ⟨evs, by simpa [end_state] using h1, h2, h3, ?_⟩
      exact h4.trans (by simp)
    | ok st1 =>
      rw [hs] at h1
      simp only [end_state] at h1
      obtain ⟨evs2, k1, k2, k3, k4⟩ := ih st1
      refine ⟨evs ++ evs2, ?_, ?_, ?_, ?_⟩
      · simp only
        rw [k1, h1, List.append_assoc]
      · intro x hx
        rcases List.mem_append.1 hx with hx | hx
        · exact h2 x hx
        · exact k2 x hx
      · rw [List.filterMap_append, h3, k3]
        rfl
      · rw [List.filterMap_append, List.map_cons]
        exact List.Sublist.append h4 k4

/-- The events of a `pump_events` call whose `poll` succeeded: first the
events of the scan, then the events of the resumptions. -/
theorem pump_log (body : Body σ) (fuel : Nat) (w : World σ) (revents : Int → Int) :
    ∃ evs1 evs2,
      (end_state Prod.snd (pump_events body fuel w (PollOutcome.ready revents))).log
        = w.log ++ evs1 ++ evs2 ∧
      (∀ x ∈ evs1, x.by_scan = true) ∧ evs1.filterMap Event.resumed = [] ∧
      List.Sublist (evs1.filterMap Event.retried)
        ((fill_revents revents (collect_polls w)).map pollfd.fd) ∧
      (∀ x ∈ evs2, x.by_scan = false) ∧ evs2.filterMap Event.retried = [] ∧
      ((∃ x, scan (w, []) (fill_revents revents (collect_polls w)) = .error x) → evs2 = []) ∧
      (∀ w1 cs, scan (w, []) (fill_revents revents (collect_polls w)) = .ok (w1, cs) →
        w1.log = w.log ++ evs1 ∧
        List.IsPrefix ((evs2.filterMap Event.resumed).map Prod.fst) cs ∧
        (∀ c w2, pump_events body fuel w (PollOutcome.ready revents) = .ok (c, w2) →
          (evs2.filterMap Event.resumed).map Prod.fst = cs)) := by
  obtain ⟨evs1, h1, h2, h3, h4⟩ := scan_log (fill_revents revents (collect_polls w))
    ((w, []) : World σ × List Handle)
  cases hs : scan (w, []) (fill_revents revents (collect_polls w)) with
  | error x =>
    have hpump : pump_events body fuel w (PollOutcome.ready revents) = .error x := by
      simp only [pump_events, hs]
    rw [hs] at h1
    rw [hpump]
    refine ⟨evs1, [], by simpa [end_state] using h1, h2, h3, h4, by simp, by simp, by simp, ?_⟩
    intro w1 cs hc
    cases hc
  | ok st =>
    obtain ⟨w1, cs⟩ := st
    have hpump : pump_events body fuel w (PollOutcome.ready revents) =
        match resume_all body fuel w1 cs with
        | .error x => .error x
        | .ok w2 => .ok (0, w2) := by
      simp only [pump_events, hs]
    rw [hs] at h1
    simp only [end_state] at h1
    obtain ⟨evs2, k1, k2, k3, k4, k5⟩ := resume_all_log body fuel cs w1
    rw [hpump]
    refine ⟨evs1, evs2, ?_, h2, h3, h4, k2, k3, by simp, ?_⟩
    · cases hr : resume_all body fuel w1 cs with
      | error x =>
        rw [hr] at k1
        simp only [end_state] at k1 ⊢
        rw [k1, h1]
      | ok w2 =>
        rw [hr] at k1
        simp only [end_state, id] at k1 ⊢
        rw [k1, h1]
    · intro w1' cs' hc
      simp only [Except.ok.injEq, Prod.mk.injEq] at hc
      obtain ⟨rfl, rfl⟩ := hc
      refine ⟨h1, k4, ?_⟩
      intro c w2 hp
      cases hr : resume_all body fuel w1 cs with
      | error x =>
        rw [hr] at hp
        cases hp
      | ok w3 => exact k5 w3 hr

theorem removed_handle_parked (w : World σ) (revents : Int → Int) (i : Fin MAX_EXCLUSIVE_FD)
    (h : removed_handle w revents i ≠ none) :
    removed_handle w revents i = parked_handle w i := by
  unfold removed_handle parked_handle at *
  cases hp : w.m_awaitables i with
  | none => rfl
  | some p =>
    rw [hp] at h
    simp only at h ⊢
    split at h
    · exact absurd rfl h
    · rename_i hr
      simp only [hr, if_false]
      split at h
      · rfl
      · exact absurd rfl h

/-- C10. In a `pump_events` call on a well-formed state whose `poll`
succeeded, whether the call returns or stops: the descriptors retried, in the
order of the retries, are strictly ascending; and the handles resumed, in the
order of the resumptions, are the handles parked in a strictly ascending list
of slots, each of them a slot whose request the scan removed, and all of those
slots when the call returns. -/
theorem C10_ascending_order (body : Body σ) (fuel : Nat) (w : World σ) (hwf : WellFormed w)
    (revents : Int → Int) :
    ∃ evs,
      (end_state Prod.snd (pump_events body fuel w (PollOutcome.ready revents))).log
        = w.log ++ evs ∧
      (evs.filterMap Event.retried).Pairwise (fun fd1 fd2 => fd1 < fd2) ∧
      ∃ fds : List (Fin MAX_EXCLUSIVE_FD),
        fds.Pairwise (fun i j => i < j) ∧
        (evs.filterMap Event.resumed).map (fun x => some x.1) = fds.map (parked_handle w) ∧
        (∀ i ∈ fds, removed_handle w revents i ≠ none) ∧
        (∀ c w2, pump_events body fuel w (PollOutcome.ready revents) = .ok (c, w2) →
          fds = (List.finRange MAX_EXCLUSIVE_FD).filter
            (fun i => (removed_handle w revents i).isSome)) := by
  obtain ⟨evs1, evs2, h1, -, h3, h4, -, h6, h7, h8⟩ := pump_log body fuel w revents
  refine ⟨evs1 ++ evs2, by rw [h1, List.append_assoc], ?_, ?_⟩
  · rw [List.filterMap_append, h6, List.append_nil]
    refine List.Pairwise.sublist h4 ?_
    rw [List.pairwise_map]
    exact fill_revents_sorted w revents
  · rw [List.filterMap_append, h3, List.nil_append]
    cases hs : scan (w, []) (fill_revents revents (collect_polls w)) with
    | error x =>
      rw [h7 ⟨x, hs⟩]
      refine ⟨[], List.Pairwise.nil, rfl, by simp, ?_⟩
      intro c w2 hp
      simp only [pump_events, hs] at hp
      cases hp
    | ok st =>
      obtain ⟨w1, cs⟩ := st
      obtain ⟨-, hpre, hall⟩ := h8 w1 cs hs
      have hcs := (scan_slots w hwf revents w1 cs hs).1
      have hsome : cs.map some
          = ((List.finRange MAX_EXCLUSIVE_FD).filter
              (fun i => (removed_handle w revents i).isSome)).map (removed_handle w revents) := by
        rw [hcs, List.map_filterMap_some_eq_filter_map_isSome, List.filter_map]
        rfl
      have hsorted : ((List.finRange MAX_EXCLUSIVE_FD).filter
          (fun i => (removed_handle w revents i).isSome)).Pairwise (fun i j => i < j) :=
        (List.pairwise_lt_finRange MAX_EXCLUSIVE_FD).filter _
      have hpar : ∀ l : List (Fin MAX_EXCLUSIVE_FD),
          (∀ i ∈ l, removed_handle w revents i ≠ none) →
          l.map (removed_handle w revents) = l.map (parked_handle w) := by
        intro l hl
        apply List.map_congr_left
        intro i hi
        exact removed_handle_parked w revents i (hl i hi)
      have hmemf : ∀ i ∈ (List.finRange MAX_EXCLUSIVE_FD).filter
          (fun i => (removed_handle w revents i).isSome), removed_handle w revents i ≠ none := by
        intro i hi
        have := (List.mem_filter.1 hi).2
        intro hn
        rw [hn] at this
        cases this
      have htake := List.prefix_iff_eq_take.1 hpre
      refine ⟨((List.finRange MAX_EXCLUSIVE_FD).filter
          (fun i => (removed_handle w revents i).isSome)).take
            ((evs2.filterMap Event.resumed).map Prod.fst).length, ?_, ?_, ?_, ?_⟩
      · exact hsorted.sublist (List.take_sublist _ _)
      · rw [← hpar _ (fun i hi => hmemf i (List.mem_of_mem_take hi)), List.map_take, ← hsome,
          ← List.map_take, ← htake]
        simp [Function.comp_def]
      · intro i hi
        exact hmemf i (List.mem_of_mem_take hi)
      · intro c w2 hp
        have hlen := congrArg List.length (hall c w2 hp)
        have hlen2 := congrArg List.length hsome
        simp only [List.length_map] at hlen hlen2
        rw [List.length_map, hlen, hlen2, List.take_length]

theorem two_parked_world_wf : WellFormed two_parked_world := by
  intro i p h
  unfold two_parked_world at h
  simp only at h
  split at h
  · rename_i h3
    simp only [Option.some.injEq] at h
    subst h
    have : i = 3 := Fin.ext h3
    subst this
    decide
  · split at h
    · rename_i h5
      simp only [Option.some.injEq] at h
      subst h
      have : i = 5 := Fin.ext h5
      subst this
      decide
    · cases h

/-- C10 at `two_parked_world`, where `poll` reports every descriptor ready:
descriptor 3 is retried before descriptor 5, and coroutine 9, parked on 3, is
resumed before coroutine 8, parked on 5. -/
theorem C10_ascending_order_witness :
    (∃ evs,
      (end_state Prod.snd
          (pump_events read_once 4 two_parked_world (PollOutcome.ready fun _ => POLLIN))).log
        = two_parked_world.log ++ evs ∧
      (evs.filterMap Event.retried).Pairwise (fun fd1 fd2 => fd1 < fd2) ∧
      ∃ fds : List (Fin MAX_EXCLUSIVE_FD),
        fds.Pairwise (fun i j => i < j) ∧
        (evs.filterMap Event.resumed).map (fun x => some x.1)
          = fds.map (parked_handle two_parked_world)) ∧
    (end_state Prod.snd
        (pump_events read_once 4 two_parked_world (PollOutcome.ready fun _ => POLLIN))).log
      = [Event.retry 3, Event.unpark 3, Event.retry 5, Event.unpark 5,
         Event.resume 9 (2, 0), Event.resume 8 (1, 0)] := by
  obtain ⟨evs, h1, h2, fds, h3, h4, -⟩ :=
    C10_ascending_order read_once 4 two_parked_world two_parked_world_wf (fun _ => POLLIN)
  exact ⟨⟨evs, h1, h2, fds, h3, h4⟩, by decide⟩

/-- A suspended coroutine that, resumed in a state where the slot of
descriptor `i` is null, at once awaits a request on `i` that would block:
it parks that request in slot `i` and is suspended on it. -/
theorem resume_reparks (body : Body σ) (fuel : Nat) (v : World σ) (h : Handle) (l l1 : σ)
    (p : Ptr) (a a2 : Awaitable) (tr2 : List Outcome) (i : Fin MAX_EXCLUSIVE_FD)
    (hf : v.frames h = CoState.suspended l p)
    (hb : body l (v.heap p).m_result = (l1, Action.co_await a))
    (hi : index? a.m_fd = some i) (hempty : v.m_awaitables i = none)
    (hwb : a.await_ready (v.env a.m_fd) = some (false, a2, tr2)) :
    resume body (fuel + 1) v h = .ok
      { m_awaitables := Function.update v.m_awaitables i (some v.next_ptr),
        heap := Function.update v.heap v.next_ptr
          { a with m_result := (0, EAGAIN), m_cohandle := some h },
        next_ptr := v.next_ptr + 1,
        frames := Function.update (Function.update v.frames h CoState.running) h
          (CoState.suspended l1 v.next_ptr),
        env := Function.update v.env a.m_fd tr2,
        log := v.log ++ [Event.resume h (v.heap p).m_result] ++ [Event.park a.m_fd v.next_ptr] } := by
  unfold resume
  rw [hf]
  simp only [World.await_resume, Awaitable.await_resume, run, hb]
  have hc := co_await_would_block
    ({ v with frames := Function.update v.frames h CoState.running,
              log := v.log ++ [Event.resume h (v.heap p).m_result] } : World σ)
    h a a2 tr2 i hi hempty hwb
  simp only at hc
  rw [hc]

/-! ## The table stays well formed -/

theorem WellFormed.await_ready (w : World σ) (p : Ptr) (b : Bool) (w1 : World σ)
    (hwf : WellFormed w) (h : w.await_ready p = .ok (b, w1)) : WellFormed w1 := by
  obtain ⟨a1, tr1, hat, rfl⟩ := (World.await_ready_ok_iff _ _ _ _).1 h
  have hp := (Awaitable.await_ready_post _ _ _ _ _ hat).1
  intro i q hq
  obtain ⟨g1, g2, g3⟩ := hwf i q hq
  simp only at hq ⊢
  by_cases hqp : q = p
  · subst hqp
    rw [Function.update_same, hp]
    exact ⟨g1, g2, g3⟩
  · rw [Function.update_noteq hqp]
    exact ⟨g1, g2, g3⟩

theorem WellFormed.await_suspend (w : World σ) (p : Ptr) (h : Handle) (w1 : World σ)
    (hwf : WellFormed w) (hp : p < w.next_ptr) (hs : w.await_suspend p h = .ok w1) :
    WellFormed w1 := by
  rw [World.await_suspend_eq] at hs
  cases hi : index? (w.heap p).m_fd with
  | none =>
    rw [hi] at hs
    cases hs
  | some i =>
    rw [hi] at hs
    simp only at hs
    cases hq : w.m_awaitables i with
    | some q =>
      rw [hq] at hs
      cases hs
    | none =>
      rw [hq] at hs
      simp only [Except.ok.injEq] at hs
      subst hs
      intro j q hj
      simp only at hj ⊢
      by_cases hji : j = i
      · subst hji
        rw [Function.update_same, Option.some.injEq] at hj
        subst hj
        rw [Function.update_same]
        exact ⟨(index?_eq_some _ _).1 hi, by simp, hp⟩
      · rw [Function.update_noteq hji] at hj
        obtain ⟨g1, g2, g3⟩ := hwf j q hj
        have hqp : q ≠ p := by
          intro hqp
          subst hqp
          rw [(index?_eq_some _ _).1 hi] at g1
          exact hji (Fin.ext (by exact_mod_cast g1.symm))
        rw [Function.update_noteq hqp]
        exact ⟨g1, g2, g3⟩

theorem World.await_ready_frame (w : World σ) (p : Ptr) (b : Bool) (w1 : World σ)
    (h : w.await_ready p = .ok (b, w1)) :
    w1.next_ptr = w.next_ptr ∧ w1.frames = w.frames ∧ w1.m_awaitables = w.m_awaitables ∧
      (∀ q, q ≠ p → w1.heap q = w.heap q) := by
  obtain ⟨a1, tr1, -, rfl⟩ := (World.await_ready_ok_iff _ _ _ _).1 h
  exact ⟨rfl, rfl, rfl, fun q hq => Function.update_noteq hq _ _⟩

theorem World.await_suspend_frame (w : World σ) (p : Ptr) (h : Handle) (w1 : World σ)
    (hs : w.await_suspend p h = .ok w1) :
    w1.next_ptr = w.next_ptr ∧ w1.frames = w.frames ∧ w1.env = w.env ∧
      (∀ q, q ≠ p → w1.heap q = w.heap q) := by
  rw [World.await_suspend_eq] at hs
  cases hi : index? (w.heap p).m_fd with
  | none =>
    rw [hi] at hs
    cases hs
  | some i =>
    rw [hi] at hs
    simp only at hs
    cases hq : w.m_awaitables i with
    | some q =>
      rw [hq] at hs
      cases hs
    | none =>
      rw [hq] at hs
      simp only [Except.ok.injEq] at hs
      subst hs
      exact ⟨rfl, rfl, rfl, fun q hq => Function.update_noteq hq _ _⟩

/-- What a `co_await` expression that returns leaves as it was. -/
theorem co_await_ok (w : World σ) (h : Handle) (a : Awaitable) (aw : Awaited σ)
    (hc : co_await w h a = .ok aw) :
    (WellFormed w → WellFormed aw.world) ∧ aw.world.next_ptr = w.next_ptr + 1 ∧
      (∀ q, q < w.next_ptr → aw.world.heap q = w.heap q) ∧ aw.world.frames = w.frames := by
  unfold co_await at hc
  simp only at hc
  have hwf0 : WellFormed w → WellFormed
      ({ w with heap := Function.update w.heap w.next_ptr a, next_ptr := w.next_ptr + 1 } :
        World σ) := by
    intro hwf i q hq
    obtain ⟨g1, g2, g3⟩ := hwf i q hq
    simp only
    rw [Function.update_noteq (Nat.ne_of_lt g3)]
    exact ⟨g1, g2, Nat.lt_succ_of_lt g3⟩
  cases hr : World.await_ready
      ({ w with heap := Function.update w.heap w.next_ptr a, next_ptr := w.next_ptr + 1 } :
        World σ) w.next_ptr with
  | error x =>
    rw [hr] at hc
    cases hc
  | ok y =>
    obtain ⟨b, w1⟩ := y
    rw [hr] at hc
    have hwf1 : WellFormed w → WellFormed w1 := fun hwf =>
      WellFormed.await_ready _ _ _ _ (hwf0 hwf) hr
    obtain ⟨f1, f2, -, f4⟩ := World.await_ready_frame _ _ _ _ hr
    simp only at f1 f2 f4
    have hheap1 : ∀ q, q < w.next_ptr → w1.heap q = w.heap q := by
      intro q hq
      rw [f4 q (Nat.ne_of_lt hq), Function.update_noteq (Nat.ne_of_lt hq)]
    cases b with
    | true =>
      simp only [Except.ok.injEq] at hc
      subst hc
      exact ⟨hwf1, f1, hheap1, f2⟩
    | false =>
      simp only at hc
      cases hs : w1.await_suspend w.next_ptr h with
      | error x =>
        rw [hs] at hc
        cases hc
      | ok w2 =>
        rw [hs] at hc
        simp only [Except.ok.injEq] at hc
        subst hc
        obtain ⟨k1, k2, -, k4⟩ := World.await_suspend_frame _ _ _ _ hs
        refine ⟨fun hwf => WellFormed.await_suspend w1 w.next_ptr h w2 (hwf1 hwf)
          (by rw [f1]; exact Nat.lt_succ_self _) hs, by rw [← f1, ← k1]; rfl, ?_,
          by rw [← f2, ← k2]; rfl⟩
        intro q hq
        simp only [Awaited.world]
        rw [k4 q (Nat.ne_of_lt hq), hheap1 q hq]

/-- What a coroutine that runs to its next suspension or to its end leaves
as it was. -/
theorem run_ok (body : Body σ) (fuel : Nat) :
    ∀ (w : World σ) (h : Handle) (l : σ) (r : AsyncIOResult) (w2 : World σ),
      run body fuel w h l r = .ok w2 →
        (WellFormed w → WellFormed w2) ∧ w.next_ptr ≤ w2.next_ptr ∧
          (∀ q, q < w.next_ptr → w2.heap q = w.heap q) ∧
          (∀ h1, h1 ≠ h → w2.frames h1 = w.frames h1) := by
  induction fuel with
  | zero =>
    intro w h l r w2 hr
    simp only [run] at hr
    cases hr
  | succ fuel ih =>
    intro w h l r w2 hr
    simp only [run] at hr
    cases hb : body l r with
    | mk l1 act =>
      rw [hb] at hr
      cases act with
      | co_return =>
        simp only [Except.ok.injEq] at hr
        subst hr
        exact ⟨fun hwf i q hq => hwf i q hq, Nat.le_refl _, fun _ _ => rfl,
          fun h1 hh => Function.update_noteq hh _ _⟩
      | co_await a =>
        simp only at hr
        cases hc : co_await w h a with
        | error x =>
          rw [hc] at hr
          cases hr
        | ok aw =>
          rw [hc] at hr
          obtain ⟨c1, c2, c3, c4⟩ := co_await_ok w h a aw hc
          cases aw with
          | done r1 w1 =>
            simp only [Awaited.world] at c1 c2 c3 c4
            simp only at hr
            obtain ⟨k1, k2, k3, k4⟩ := ih w1 h l1 r1 w2 hr
            refine ⟨fun hwf => k1 (c1 hwf),
              Nat.le_trans (by rw [c2]; exact Nat.le_succ _) k2, ?_, ?_⟩
            · intro q hq
              rw [k3 q (by rw [c2]; exact Nat.lt_succ_of_lt hq), c3 q hq]
            · intro h1 hh
              rw [k4 h1 hh, c4]
          | suspended p w1 =>
            simp only [Awaited.world] at c1 c2 c3 c4
            simp only [Except.ok.injEq] at hr
            subst hr
            have hle : w.next_ptr ≤ w1.next_ptr := by
              rw [c2]
              exact Nat.le_succ _
            refine ⟨fun hwf i q hq => c1 hwf i q hq, hle, fun q hq => c3 q hq, ?_⟩
            intro h1 hh
            simp only
            rw [Function.update_noteq hh, c4]

/-- What `h.resume()` leaves as it was, when it returns. -/
theorem resume_ok (body : Body σ) (fuel : Nat) (w : World σ) (h : Handle) (w2 : World σ)
    (hr : resume body fuel w h = .ok w2) :
    (WellFormed w → WellFormed w2) ∧ w.next_ptr ≤ w2.next_ptr ∧
      (∀ q, q < w.next_ptr → w2.heap q = w.heap q) ∧
      (∀ h1, h1 ≠ h → w2.frames h1 = w.frames h1) := by
  unfold resume at hr
  cases hf : w.frames h with
  | suspended l p =>
    rw [hf] at hr
    simp only at hr
    obtain ⟨k1, k2, k3, k4⟩ := run_ok body fuel _ h l _ w2 hr
    refine ⟨fun hwf => k1 (fun i q hq => hwf i q hq), k2, k3, ?_⟩
    intro h1 hh
    rw [k4 h1 hh]
    exact Function.update_noteq hh _ _
  | running =>
    rw [hf] at hr
    cases hr
  | completed =>
    rw [hf] at hr
    cases hr

/-- What the third loop of `pump_events` leaves as it was, when it ends. -/
theorem resume_all_ok (body : Body σ) (fuel : Nat) (cs : List Handle) :
    ∀ (w w2 : World σ), resume_all body fuel w cs = .ok w2 →
      (WellFormed w → WellFormed w2) ∧ w.next_ptr ≤ w2.next_ptr ∧
        (∀ q, q < w.next_ptr → w2.heap q = w.heap q) ∧
        (∀ h1, h1 ∉ cs → w2.frames h1 = w.frames h1) := by
  induction cs with
  | nil =>
    intro w w2 hr
    simp only [resume_all, Except.ok.injEq] at hr
    subst hr
    exact ⟨id, Nat.le_refl _, fun _ _ => rfl, fun _ _ => rfl⟩
  | cons h cs ih =>
    intro w w2 hr
    simp only [resume_all] at hr
    cases h1 : resume body fuel w h with
    | error x =>
      rw [h1] at hr
      cases hr
    | ok w1 =>
      rw [h1] at hr
      simp only at hr
      obtain ⟨c1, c2, c3, c4⟩ := resume_ok body fuel w h w1 h1
      obtain ⟨k1, k2, k3, k4⟩ := ih w1 w2 hr
      refine ⟨fun hwf => k1 (c1 hwf), Nat.le_trans c2 k2, ?_, ?_⟩
      · intro q hq
        rw [k3 q (Nat.lt_of_lt_of_le hq c2), c3 q hq]
      · intro h2 hh
        rw [k4 h2 (fun hm => hh (List.mem_cons_of_mem _ hm)),
          c4 h2 (fun he => hh (by rw [he]; exact List.mem_cons_self _ _))]

/-- The second loop of `pump_events` keeps the table well formed. -/
theorem WellFormed.scan (w : World σ) (hwf : WellFormed w) (revents : Int → Int) (w1 : World σ)
    (cs : List Handle)
    (hs : scan (w, []) (fill_revents revents (collect_polls w)) = .ok (w1, cs)) :
    WellFormed w1 := by
  obtain ⟨-, hn, -, hnone, hnot, hready, -, -⟩ := scan_slots w hwf revents w1 cs hs
  intro i q hq
  cases hp : w.m_awaitables i with
  | none =>
    rw [hnone i hp] at hq
    cases hq
  | some p =>
    obtain ⟨g1, g2, g3⟩ := hwf i p hp
    by_cases hr : revents (i.val : Int) = 0
    · obtain ⟨k1, k2, -⟩ := hnot i p hp hr
      rw [k1, Option.some.injEq] at hq
      subst hq
      rw [k2, hn]
      exact ⟨g1, g2, g3⟩
    · obtain ⟨b, a1, tr1, hat, k2, -, k4⟩ := hready i p hp hr
      cases b with
      | true =>
        simp only [if_true] at k4
        rw [k4] at hq
        cases hq
      | false =>
        simp only [Bool.false_eq_true, if_false] at k4
        rw [k4, Option.some.injEq] at hq
        subst hq
        have hpost := (Awaitable.await_ready_post _ _ _ _ _ hat).1
        rw [k2, hn, hpost]
        exact ⟨g1, g2, g3⟩

/-- A `pump_events` call that returns keeps the table well formed. -/
theorem WellFormed.pump_events (body : Body σ) (fuel : Nat) (w : World σ) (hwf : WellFormed w)
    (po : PollOutcome) (c : Int) (w2 : World σ)
    (hp : pump_events body fuel w po = .ok (c, w2)) : WellFormed w2 := by
  cases po with
  | fail e =>
    simp only [CoroSched.pump_events, Except.ok.injEq, Prod.mk.injEq] at hp
    rw [← hp.2]
    exact hwf
  | ready revents =>
    simp only [CoroSched.pump_events] at hp
    cases hs : CoroSched.scan (w, []) (fill_revents revents (collect_polls w)) with
    | error x =>
      rw [hs] at hp
      cases hp
    | ok st =>
      obtain ⟨w1, cs⟩ := st
      rw [hs] at hp
      simp only at hp
      cases hr : resume_all body fuel w1 cs with
      | error x =>
        rw [hr] at hp
        cases hp
      | ok w3 =>
        rw [hr] at hp
        simp only [Except.ok.injEq, Prod.mk.injEq] at hp
        rw [← hp.2]
        exact (resume_all_ok body fuel cs w1 w3 hr).1 (WellFormed.scan w hwf revents w1 cs hs)

/-- Every reachable state has a well-formed table. -/
theorem Reachable.wellFormed (body : Body σ) (w : World σ) (h : Reachable body w) :
    WellFormed w := by
  induction h with
  | init w h0 =>
    intro i p hp
    rw [h0 i] at hp
    cases hp
  | await_suspend w p h w1 _ hp hs ih => exact WellFormed.await_suspend w p h w1 ih hp hs
  | co_await w h a aw _ hc ih => exact (co_await_ok w h a aw hc).1 ih
  | run w fuel h l r w1 _ hr ih => exact (run_ok body fuel w h l r w1 hr).1 ih
  | scan w revents w1 cs _ hs ih => exact WellFormed.scan w ih revents w1 cs hs
  | resume w fuel h w1 _ hr ih => exact (resume_ok body fuel w h w1 hr).1 ih
  | pump_events w fuel po c w1 _ hp ih => exact WellFormed.pump_events body fuel w ih po c w1 hp

/-- C6. In every state reachable from an empty table by `await_suspend` on
an empty slot, `co_await`, running and resuming coroutines, the scan of
`pump_events` and whole `pump_events` calls: a slot that is not null holds a
request whose own descriptor `m_fd` is the index of the slot, and no request
is held by two slots. -/
theorem C6_table_invariant (body : Body σ) (w : World σ) (hreach : Reachable body w) :
    (∀ i p, w.m_awaitables i = some p → (w.heap p).m_fd = (i.val : Int)) ∧
    (∀ i j p, w.m_awaitables i = some p → w.m_awaitables j = some p → i = j) := by
  have hwf := Reachable.wellFormed body w hreach
  exact ⟨fun i p hp => (hwf i p hp).1, fun i j p hi hj => WellFormed.slot_unique w hwf i j p hi hj⟩

/-- C6 at the state that `quiet_world` is in after coroutine 7 has awaited a
read of descriptor 3 that would block. -/
theorem C6_table_invariant_witness :
    ∃ aw, co_await quiet_world 7 (async_read 3 0 64) = .ok aw ∧
      aw.world.m_awaitables 3 = some 0 ∧
      (∀ i p, aw.world.m_awaitables i = some p → (aw.world.heap p).m_fd = (i.val : Int)) ∧
      (∀ i j p, aw.world.m_awaitables i = some p → aw.world.m_awaitables j = some p → i = j) := by
  have hc := co_await_would_block quiet_world 7 (async_read 3 0 64)
    { async_read 3 0 64 with m_result := (0, EAGAIN) } [Outcome.ret 2, Outcome.fail EAGAIN]
    3 (by decide) (by decide) (by decide)
  obtain ⟨h1, h2⟩ := C6_table_invariant read_loop _
    (Reachable.co_await _ _ _ _ (Reachable.init quiet_world (fun _ => rfl)) hc)
  exact ⟨_, hc, by simp [Awaited.world, quiet_world], h1, h2⟩

/-- C5 as stated fails at `parked_world` with the body `read_loop`: coroutine
7 is parked by a read of descriptor 3 that would block, `poll` reports
descriptor 3 readable and the retried read returns 2 bytes; the call returns,
coroutine 7 has been resumed once with `(2, 0)`, and slot 3 is not empty: it
holds the request at address 1 that coroutine 7 parked when its next read
would block. -/
theorem C5_slot_refilled_counterexample :
    parked_world.m_awaitables 3 = some 0 ∧
    parked_world.heap 0
      = { async_read 3 0 64 with m_result := (0, EAGAIN), m_cohandle := some 7 } ∧
    parked_world.env 3 = [Outcome.ret 2, Outcome.fail EAGAIN] ∧
    returned (pump_events read_loop 1 parked_world
      (PollOutcome.ready fun fd => if fd = 3 then POLLIN else 0)) = true ∧
    (end_state Prod.snd (pump_events read_loop 1 parked_world
      (PollOutcome.ready fun fd => if fd = 3 then POLLIN else 0))).log.filterMap Event.resumed
        = [(7, (2, 0))] ∧
    (end_state Prod.snd (pump_events read_loop 1 parked_world
      (PollOutcome.ready fun fd => if fd = 3 then POLLIN else 0))).m_awaitables 3 = some 1 ∧
    ¬ (end_state Prod.snd (pump_events read_loop 1 parked_world
      (PollOutcome.ready fun fd => if fd = 3 then POLLIN else 0))).m_awaitables 3 = none := by
  decide

theorem resume_all_append (body : Body σ) (fuel : Nat) (l1 l2 : List Handle) :
    ∀ (w w2 : World σ), resume_all body fuel w (l1 ++ l2) = .ok w2 →
      ∃ wm, resume_all body fuel w l1 = .ok wm ∧ resume_all body fuel wm l2 = .ok w2 := by
  induction l1 with
  | nil =>
    intro w w2 h
    exact ⟨w, rfl, h⟩
  | cons h l1 ih =>
    intro w w2 hr
    simp only [List.cons_append, resume_all] at hr ⊢
    cases h1 : resume body fuel w h with
    | error x =>
      rw [h1] at hr
      cases hr
    | ok w1 =>
      rw [h1] at hr
      exact ih w1 w2 hr

theorem filter_handle_nil (h : Handle) (l : List (Handle × AsyncIOResult))
    (hn : h ∉ l.map Prod.fst) : l.filter (fun x => decide (x.1 = h)) = [] := by
  rw [List.filter_eq_nil_iff]
  intro x hx hxh
  simp only [decide_eq_true_eq] at hxh
  exact hn (List.mem_map.2 ⟨x, hx, hxh⟩)

/-- A handle carried by the request of one slot only is collected once. -/
theorem removed_handle_once (w : World σ) (revents : Int → Int) (i : Fin MAX_EXCLUSIVE_FD)
    (h : Handle) (hi : removed_handle w revents i = some h)
    (huniq : ∀ j, parked_handle w j = some h → j = i) :
    ∃ pre post, (List.finRange MAX_EXCLUSIVE_FD).filterMap (removed_handle w revents)
        = pre ++ h :: post ∧ h ∉ pre ∧ h ∉ post := by
  obtain ⟨s, t, hst⟩ := List.append_of_mem (List.mem_finRange i)
  have hnd := List.nodup_finRange MAX_EXCLUSIVE_FD
  rw [hst] at hnd
  have his : i ∉ s := fun hm =>
    (List.nodup_append.1 hnd).2.2 hm (List.mem_cons_self _ _)
  have hit : i ∉ t := (List.nodup_cons.1 (List.nodup_append.1 hnd).2.1).1
  have hno : ∀ l : List (Fin MAX_EXCLUSIVE_FD), i ∉ l →
      h ∉ l.filterMap (removed_handle w revents) := by
    intro l hl hm
    obtain ⟨j, hj, hjh⟩ := List.mem_filterMap.1 hm
    have hpar : parked_handle w j = some h := by
      rw [← removed_handle_parked w revents j (by rw [hjh]; simp), hjh]
    rw [huniq j hpar] at hj
    exact hl hj
  refine ⟨s.filterMap (removed_handle w revents), t.filterMap (removed_handle w revents), ?_,
    hno s his, hno t hit⟩
  rw [hst, List.filterMap_append, filterMap_cons_toList, hi]
  rfl

/-- A coroutine suspended on the request of slot `i` is the coroutine of no
other slot. -/
theorem Linked.handle_unique (w : World σ) (hwf : WellFormed w) (hlk : Linked w)
    (i j : Fin MAX_EXCLUSIVE_FD) (p : Ptr) (h : Handle) (l : σ)
    (hp : w.m_awaitables i = some p) (hf : w.frames h = CoState.suspended l p)
    (hj : parked_handle w j = some h) : j = i := by
  unfold parked_handle at hj
  cases hq : w.m_awaitables j with
  | none =>
    rw [hq] at hj
    cases hj
  | some q =>
    rw [hq] at hj
    simp only at hj
    obtain ⟨h1, l1, g1, g2⟩ := hlk j q hq
    rw [hj, Option.some.injEq] at g1
    subst g1
    rw [hf, CoState.suspended.injEq] at g2
    rw [← g2.2] at hq
    exact WellFormed.slot_unique w hwf j i p hq hp

/-- C5, amended. In a well-formed state where every parked request belongs to
the coroutine suspended on it (every state of an execution is one), coroutine
`h` is suspended on the request at `p`, a read that would block, parked in
slot `i`.
In a `pump_events` call that returns, where `poll` reports descriptor `i`
ready and the retried read, after `k` interruptions, returns `n` bytes: the
scan ends with slot `i` null, before any coroutine is resumed; the
resumptions start from that state; and among the resumptions of the call
there is exactly one of `h`, whose `co_await` evaluates to `(n, 0)`, the
result the retry recorded and not the `(0, EAGAIN)` of the first attempt. -/
theorem C5_parked_read_resumed (body : Body σ) (fuel : Nat) (w : World σ) (hwf : WellFormed w)
    (hlk : Linked w) (revents : Int → Int) (i : Fin MAX_EXCLUSIVE_FD) (p : Ptr) (h : Handle) (l : σ)
    (k n : Nat) (rest : List Outcome) (c : Int) (w2 : World σ)
    (hp : w.m_awaitables i = some p) (hop : (w.heap p).m_iop = IOp.READ)
    (hres : (w.heap p).m_result = (0, EAGAIN))
    (hh : (w.heap p).m_cohandle = some h) (hf : w.frames h = CoState.suspended l p)
    (hr : revents (i.val : Int) ≠ 0)
    (henv : w.env (i.val : Int) = List.replicate k (Outcome.fail EINTR) ++ Outcome.ret n :: rest)
    (hpump : pump_events body fuel w (PollOutcome.ready revents) = .ok (c, w2)) :
    ∃ w1 cs evs,
      scan (w, []) (fill_revents revents (collect_polls w)) = .ok (w1, cs) ∧
      w1.m_awaitables i = none ∧
      resume_all body fuel w1 cs = .ok w2 ∧
      w2.log = w1.log ++ evs ∧
      (evs.filterMap Event.resumed).filter (fun x => decide (x.1 = h)) = [(h, ((n : Int), 0))] ∧
      (w.heap p).m_iop = IOp.READ ∧ ((n : Int), (0 : Int)) ≠ (w.heap p).m_result := by
  have huniq : ∀ j, parked_handle w j = some h → j = i :=
    fun j hj => Linked.handle_unique w hwf hlk i j p h l hp hf hj
  -- the scan and the resumptions both ended
  simp only [pump_events] at hpump
  cases hs : scan (w, []) (fill_revents revents (collect_polls w)) with
  | error x =>
    rw [hs] at hpump
    cases hpump
  | ok st =>
    obtain ⟨w1, cs⟩ := st
    rw [hs] at hpump
    simp only at hpump
    cases hra : resume_all body fuel w1 cs with
    | error x =>
      rw [hra] at hpump
      cases hpump
    | ok w3 =>
      rw [hra] at hpump
      simp only [Except.ok.injEq, Prod.mk.injEq] at hpump
      obtain ⟨-, rfl⟩ := hpump
      -- what the scan did to slot `i`
      obtain ⟨hcs, hn, hframes, -, -, hready, -, -⟩ := scan_slots w hwf revents w1 cs hs
      obtain ⟨b, a1, tr1, hat, hheap, -, hslot⟩ := hready i p hp hr
      have hat2 : (w.heap p).await_ready (w.env (i.val : Int))
          = some (true, { w.heap p with m_result := ((n : Int), 0) }, rest) := by
        rw [henv, Awaitable.await_ready_interrupted]
        simp [Awaitable.await_ready, Outcome.value, Outcome.errno_after, EINTR, EAGAIN]
      rw [hat2] at hat
      simp only [Option.some.injEq, Prod.mk.injEq] at hat
      obtain ⟨rfl, rfl, rfl⟩ := hat
      simp only [if_true] at hslot
      -- `h` is collected once
      have hrem : removed_handle w revents i = some h := by
        simp [removed_handle, hp, hr, hat2, hh]
      obtain ⟨pre, post, hsplit, hpre, hpost⟩ := removed_handle_once w revents i h hrem huniq
      rw [← hcs] at hsplit
      subst hsplit
      -- the three parts of the third loop
      obtain ⟨wa, ha, hrest⟩ := resume_all_append body fuel pre (h :: post) w1 w3 hra
      simp only [resume_all] at hrest
      cases hb : resume body fuel wa h with
      | error x =>
        rw [hb] at hrest
        cases hrest
      | ok wb =>
        rw [hb] at hrest
        simp only at hrest
        obtain ⟨-, a2, a3, a4⟩ := resume_all_ok body fuel pre w1 wa ha
        have hplt : p < w1.next_ptr := by
          rw [hn]
          exact (hwf i p hp).2.2
        obtain ⟨evsA, la, -, -, -, lall⟩ := resume_all_log body fuel pre w1
        rw [ha] at la
        simp only [end_state, id] at la
        obtain ⟨evsB, lb, -, -, -, lres⟩ := resume_log body fuel wa h
        rw [hb] at lb
        simp only [end_state, id] at lb
        obtain ⟨l0, p0, hf0, hresB⟩ := lres wb hb
        obtain ⟨evsC, lc, -, -, -, lallC⟩ := resume_all_log body fuel post wb
        rw [hrest] at lc
        simp only [end_state, id] at lc
        have hfa : wa.frames h = CoState.suspended l p := by
          rw [a4 h hpre, hframes, hf]
        rw [hfa] at hf0
        simp only [CoState.suspended.injEq] at hf0
        obtain ⟨-, rfl⟩ := hf0
        have hval : (wa.heap p).m_result = ((n : Int), 0) := by
          rw [a3 p hplt, hheap]
        refine ⟨w1, pre ++ h :: post, evsA ++ evsB ++ evsC, rfl, hslot, hra, ?_, ?_, hop, ?_⟩
        · rw [lc, lb, la]
          simp only [List.append_assoc]
        · have fA : (evsA.filterMap Event.resumed).filter (fun x => decide (x.1 = h)) = [] :=
            filter_handle_nil h _ (by rw [lall wa ha]; exact hpre)
          have fC : (evsC.filterMap Event.resumed).filter (fun x => decide (x.1 = h)) = [] :=
            filter_handle_nil h _ (by rw [lallC w3 hrest]; exact hpost)
          have fB : (evsB.filterMap Event.resumed).filter (fun x => decide (x.1 = h))
              = [(h, ((n : Int), 0))] := by
            rw [hresB, hval]
            simp
          rw [List.filterMap_append, List.filterMap_append, List.filter_append,
            List.filter_append, fA, fB, fC]
          rfl
        · rw [hres]
          intro he
          have := congrArg Prod.snd he
          simp [EAGAIN] at this

theorem parked_world_linked : Linked parked_world := by
  intro i p h
  obtain ⟨rfl, rfl⟩ := parked_world_slot i p h
  exact ⟨7, 0, rfl, rfl⟩

/-- C5, amended, at `parked_world` with the body `read_loop`. -/
theorem C5_parked_read_resumed_witness :
    ∃ w1 w2 cs evs,
      pump_events read_loop 1 parked_world
        (PollOutcome.ready fun fd => if fd = 3 then POLLIN else 0) = .ok (0, w2) ∧
      scan (parked_world, [])
        (fill_revents (fun fd => if fd = 3 then POLLIN else 0) (collect_polls parked_world))
        = .ok (w1, cs) ∧
      w1.m_awaitables 3 = none ∧
      w2.log = w1.log ++ evs ∧
      (evs.filterMap Event.resumed).filter (fun x => decide (x.1 = 7)) = [(7, (2, 0))] := by
  have hret : returned (pump_events read_loop 1 parked_world
      (PollOutcome.ready fun fd => if fd = 3 then POLLIN else 0)) = true := by decide
  have hc : ∀ c w2, pump_events read_loop 1 parked_world
      (PollOutcome.ready fun fd => if fd = 3 then POLLIN else 0) = .ok (c, w2) → c = 0 := by
    intro c w2 hp
    simp only [pump_events] at hp
    split at hp
    · cases hp
    · split at hp
      · cases hp
      · simp only [Except.ok.injEq, Prod.mk.injEq] at hp
        exact hp.1.symm
  cases hp : pump_events read_loop 1 parked_world
      (PollOutcome.ready fun fd => if fd = 3 then POLLIN else 0) with
  | error x =>
    rw [hp] at hret
    cases hret
  | ok y =>
    obtain ⟨c, w2⟩ := y
    have hc0 := hc c w2 hp
    subst hc0
    obtain ⟨w1, cs, evs, h1, h2, -, h4, h5, -⟩ :=
      C5_parked_read_resumed read_loop 1 parked_world parked_world_wf parked_world_linked
        (fun fd => if fd = 3 then POLLIN else 0) 3 0 7 0 0 2 [Outcome.fail EAGAIN] 0 w2
        (by decide) (by decide) (by decide) (by decide) rfl (by decide) (by decide) hp
    exact ⟨w1, w2, cs, evs, rfl, h1, h2, h4, h5⟩

/-! ## Parked requests stay linked to their coroutines -/

/-- The two ways a `co_await` expression returns: with a value and the table
as it was, or with the coroutine suspended and its request, at the address
that was `next_ptr`, parked in the slot of its descriptor, which was null. -/
theorem co_await_cases (w : World σ) (h : Handle) (a : Awaitable) (aw : Awaited σ)
    (hc : co_await w h a = .ok aw) :
    (∃ r w1, aw = Awaited.done r w1 ∧ w1.m_awaitables = w.m_awaitables) ∨
    (∃ w1 i, aw = Awaited.suspended w.next_ptr w1 ∧ index? a.m_fd = some i ∧
      w.m_awaitables i = none ∧
      w1.m_awaitables = Function.update w.m_awaitables i (some w.next_ptr) ∧
      (w1.heap w.next_ptr).m_cohandle = some h) := by
  unfold co_await at hc
  simp only [World.await_ready_eq, Function.update_same] at hc
  cases hat : a.await_ready (w.env a.m_fd) with
  | none =>
    rw [hat] at hc
    cases hc
  | some y =>
    obtain ⟨b, a1, tr1⟩ := y
    rw [hat] at hc
    have hfd : a1.m_fd = a.m_fd := by
      rw [(Awaitable.await_ready_post _ _ _ _ _ hat).1]
    cases b with
    | true =>
      simp only [Except.ok.injEq] at hc
      exact Or.inl ⟨_, _, hc.symm, rfl⟩
    | false =>
      simp only [World.await_suspend_eq, Function.update_same, hfd] at hc
      cases hi : index? a.m_fd with
      | none =>
        rw [hi] at hc
        cases hc
      | some i =>
        rw [hi] at hc
        simp only at hc
        cases hq : w.m_awaitables i with
        | some q =>
          rw [hq] at hc
          cases hc
        | none =>
          rw [hq] at hc
          simp only [Except.ok.injEq] at hc
          exact Or.inr ⟨_, i, hc.symm, rfl, hq, rfl, by simp⟩

/-- A coroutine that holds no parked request runs to its next suspension or
to its end: parked requests stay linked, and a coroutine that held no parked
request still holds none. -/
theorem run_linked (body : Body σ) (fuel : Nat) :
    ∀ (w : World σ) (h : Handle) (l : σ) (r : AsyncIOResult) (w2 : World σ),
      WellFormed w → Linked w → NotParked w h → run body fuel w h l r = .ok w2 →
        Linked w2 ∧ ∀ h1, h1 ≠ h → NotParked w h1 → NotParked w2 h1 := by
  induction fuel with
  | zero =>
    intro w h l r w2 _ _ _ hr
    simp only [run] at hr
    cases hr
  | succ fuel ih =>
    intro w h l r w2 hwf hlk hnp hr
    simp only [run] at hr
    cases hb : body l r with
    | mk l1 act =>
      rw [hb] at hr
      cases act with
      | co_return =>
        simp only [Except.ok.injEq] at hr
        subst hr
        refine ⟨?_, fun h1 _ hn => hn⟩
        intro i p hp
        obtain ⟨h1, l0, g1, g2⟩ := hlk i p hp
        have hne : h1 ≠ h := fun he => hnp i p hp (by rw [g1, he])
        exact ⟨h1, l0, g1, by simp only; rw [Function.update_noteq hne]; exact g2⟩
      | co_await a =>
        simp only at hr
        cases hc : co_await w h a with
        | error x =>
          rw [hc] at hr
          cases hr
        | ok aw =>
          rw [hc] at hr
          obtain ⟨c1, c2, c3, c4⟩ := co_await_ok w h a aw hc
          rcases co_await_cases w h a aw hc with ⟨r1, w1, rfl, ht⟩ | ⟨w1, i, rfl, hi, hq, ht, hh⟩
          · simp only [Awaited.world] at c1 c2 c3 c4
            simp only at hr
            have hlk1 : Linked w1 := by
              intro j q hj
              rw [ht] at hj
              obtain ⟨h1, l0, g1, g2⟩ := hlk j q hj
              exact ⟨h1, l0, by rw [c3 q (hwf j q hj).2.2]; exact g1, by rw [c4]; exact g2⟩
            have hnp1 : ∀ h1, NotParked w h1 → NotParked w1 h1 := by
              intro h1 hn j q hj
              rw [ht] at hj
              rw [c3 q (hwf j q hj).2.2]
              exact hn j q hj
            obtain ⟨k1, k2⟩ := ih w1 h l1 r1 w2 (c1 hwf) hlk1 (hnp1 h hnp) hr
            exact ⟨k1, fun h1 hne hn => k2 h1 hne (hnp1 h1 hn)⟩
          · simp only [Awaited.world] at c1 c2 c3 c4
            simp only [Except.ok.injEq] at hr
            subst hr
            constructor
            · intro j q hj
              simp only at hj ⊢
              rw [ht] at hj
              by_cases hji : j = i
              · subst hji
                rw [Function.update_same, Option.some.injEq] at hj
                subst hj
                exact ⟨h, l1, hh, by rw [Function.update_same]⟩
              · rw [Function.update_noteq hji] at hj
                obtain ⟨h1, l0, g1, g2⟩ := hlk j q hj
                have hne : h1 ≠ h := fun he => hnp j q hj (by rw [g1, he])
                exact ⟨h1, l0, by rw [c3 q (hwf j q hj).2.2]; exact g1,
                  by rw [Function.update_noteq hne, c4]; exact g2⟩
            · intro h1 hne hn j q hj
              simp only at hj ⊢
              rw [ht] at hj
              by_cases hji : j = i
              · subst hji
                rw [Function.update_same, Option.some.injEq] at hj
                subst hj
                rw [hh]
                intro he
                exact hne (Option.some.inj he).symm
              · rw [Function.update_noteq hji] at hj
                rw [c3 q (hwf j q hj).2.2]
                exact hn j q hj

theorem resume_linked (body : Body σ) (fuel : Nat) (w : World σ) (h : Handle) (w2 : World σ)
    (hwf : WellFormed w) (hlk : Linked w) (hnp : NotParked w h)
    (hr : resume body fuel w h = .ok w2) :
    Linked w2 ∧ ∀ h1, h1 ≠ h → NotParked w h1 → NotParked w2 h1 := by
  unfold resume at hr
  cases hf : w.frames h with
  | suspended l p =>
    rw [hf] at hr
    simp only at hr
    refine run_linked body fuel
      ({ w with frames := Function.update w.frames h CoState.running,
                log := w.log ++ [Event.resume h (w.await_resume p)] } : World σ)
      h l _ w2 (fun i q hq => hwf i q hq) ?_ (fun i q hq => hnp i q hq) hr
    intro i q hq
    obtain ⟨h1, l0, g1, g2⟩ := hlk i q hq
    have hne : h1 ≠ h := fun he => hnp i q hq (by rw [g1, he])
    exact ⟨h1, l0, g1, by simp only; rw [Function.update_noteq hne]; exact g2⟩
  | running =>
    rw [hf] at hr
    cases hr
  | completed =>
    rw [hf] at hr
    cases hr

theorem resume_all_linked (body : Body σ) (fuel : Nat) (cs : List Handle) :
    ∀ (w w2 : World σ), WellFormed w → Linked w → cs.Nodup → (∀ h ∈ cs, NotParked w h) →
      resume_all body fuel w cs = .ok w2 → Linked w2 := by
  induction cs with
  | nil =>
    intro w w2 _ hlk _ _ hr
    simp only [resume_all, Except.ok.injEq] at hr
    subst hr
    exact hlk
  | cons h cs ih =>
    intro w w2 hwf hlk hnd hnp hr
    simp only [resume_all] at hr
    cases h1 : resume body fuel w h with
    | error x =>
      rw [h1] at hr
      cases hr
    | ok w1 =>
      rw [h1] at hr
      simp only at hr
      obtain ⟨hnot, hnd1⟩ := List.nodup_cons.1 hnd
      obtain ⟨k1, k2⟩ := resume_linked body fuel w h w1 hwf hlk (hnp h (List.mem_cons_self _ _)) h1
      refine ih w1 w2 ((resume_ok body fuel w h w1 h1).1 hwf) k1 hnd1 ?_ hr
      intro h2 hm
      exact k2 h2 (fun he => hnot (by rw [← he]; exact hm)) (hnp h2 (List.mem_cons_of_mem _ hm))

/-- After the second loop of `pump_events` parked requests are still linked,
the collected handles are distinct, and no parked request holds one of them. -/
theorem scan_linked (w : World σ) (hwf : WellFormed w) (hlk : Linked w) (revents : Int → Int)
    (w1 : World σ) (cs : List Handle)
    (hs : scan (w, []) (fill_revents revents (collect_polls w)) = .ok (w1, cs)) :
    Linked w1 ∧ cs.Nodup ∧ ∀ h ∈ cs, NotParked w1 h := by
  obtain ⟨hcs, -, hframes, hnone, hnot, hready, -, -⟩ := scan_slots w hwf revents w1 cs hs
  -- a request parked after the scan was parked before it, with the same handle
  have hkeep : ∀ j q, w1.m_awaitables j = some q →
      w.m_awaitables j = some q ∧ (w1.heap q).m_cohandle = (w.heap q).m_cohandle := by
    intro j q hq
    cases hp : w.m_awaitables j with
    | none =>
      rw [hnone j hp] at hq
      cases hq
    | some p =>
      by_cases hr : revents (j.val : Int) = 0
      · obtain ⟨k1, k2, -⟩ := hnot j p hp hr
        rw [k1, Option.some.injEq] at hq
        subst hq
        exact ⟨rfl, by rw [k2]⟩
      · obtain ⟨b, a1, tr1, hat, k2, -, k4⟩ := hready j p hp hr
        cases b with
        | true =>
          simp only [if_true] at k4
          rw [k4] at hq
          cases hq
        | false =>
          simp only [Bool.false_eq_true, if_false] at k4
          rw [k4, Option.some.injEq] at hq
          subst hq
          refine ⟨rfl, ?_⟩
          rw [k2, (Awaitable.await_ready_post _ _ _ _ _ hat).1]
  refine ⟨?_, ?_, ?_⟩
  · intro j q hq
    obtain ⟨g1, g2⟩ := hkeep j q hq
    obtain ⟨h1, l0, g3, g4⟩ := hlk j q g1
    exact ⟨h1, l0, by rw [g2]; exact g3, by rw [hframes]; exact g4⟩
  · rw [hcs]
    refine List.Nodup.filterMap ?_ (List.nodup_finRange MAX_EXCLUSIVE_FD)
    intro j1 j2 h h1 h2
    rw [Option.mem_def] at h1 h2
    have p1 : parked_handle w j1 = some h := by
      rw [← removed_handle_parked w revents j1 (by rw [h1]; simp), h1]
    have p2 : parked_handle w j2 = some h := by
      rw [← removed_handle_parked w revents j2 (by rw [h2]; simp), h2]
    unfold parked_handle at p1
    cases hq : w.m_awaitables j1 with
    | none =>
      rw [hq] at p1
      cases p1
    | some q =>
      rw [hq] at p1
      simp only at p1
      obtain ⟨h0, l0, g1, g2⟩ := hlk j1 q hq
      rw [p1, Option.some.injEq] at g1
      subst g1
      exact (Linked.handle_unique w hwf hlk j1 j2 q h l0 hq g2 p2).symm
  · intro h hm j q hq hcoh
    rw [hcs] at hm
    obtain ⟨i, -, hi⟩ := List.mem_filterMap.1 hm
    obtain ⟨g1, g2⟩ := hkeep j q hq
    -- the slot whose request was removed
    have pi : parked_handle w i = some h := by
      rw [← removed_handle_parked w revents i (by rw [hi]; simp), hi]
    have pj : parked_handle w j = some h := by
      simp only [parked_handle, g1]
      rw [← g2]
      exact hcoh
    obtain ⟨h0, l0, g3, g4⟩ := hlk j q g1
    rw [g2] at hcoh
    rw [hcoh, Option.some.injEq] at g3
    subst g3
    have hij : i = j := Linked.handle_unique w hwf hlk j i q h l0 g1 g4 pi
    subst hij
    -- slot `i` is null after the scan
    unfold removed_handle at hi
    rw [g1] at hi
    simp only at hi
    split at hi
    · cases hi
    · rename_i hr
      obtain ⟨b, a1, tr1, hat, -, -, k4⟩ := hready i q g1 hr
      rw [hat] at hi
      cases b with
      | true =>
        simp only [if_true] at k4
        rw [k4] at hq
        cases hq
      | false => cases hi

/-- A `pump_events` call that returns keeps parked requests linked. -/
theorem pump_events_linked (body : Body σ) (fuel : Nat) (w : World σ) (hwf : WellFormed w)
    (hlk : Linked w) (po : PollOutcome) (c : Int) (w2 : World σ)
    (hp : pump_events body fuel w po = .ok (c, w2)) : Linked w2 := by
  cases po with
  | fail e =>
    simp only [pump_events, Except.ok.injEq, Prod.mk.injEq] at hp
    rw [← hp.2]
    exact hlk
  | ready revents =>
    simp only [pump_events] at hp
    cases hs : scan (w, []) (fill_revents revents (collect_polls w)) with
    | error x =>
      rw [hs] at hp
      cases hp
    | ok st =>
      obtain ⟨w1, cs⟩ := st
      rw [hs] at hp
      simp only at hp
      cases hr : resume_all body fuel w1 cs with
      | error x =>
        rw [hr] at hp
        cases hp
      | ok w3 =>
        rw [hr] at hp
        simp only [Except.ok.injEq, Prod.mk.injEq] at hp
        rw [← hp.2]
        obtain ⟨k1, k2, k3⟩ := scan_linked w hwf hlk revents w1 cs hs
        exact resume_all_linked body fuel cs w1 w3 (WellFormed.scan w hwf revents w1 cs hs)
          k1 k2 k3 hr

/-- In every state of an execution the table is well formed and every parked
request belongs to the coroutine suspended on it. -/
theorem Execution.invariant (body : Body σ) (w : World σ) (h : Execution body w) :
    WellFormed w ∧ Linked w := by
  induction h with
  | init w h0 =>
    constructor
    · intro i p hp
      rw [h0 i] at hp
      cases hp
    · intro i p hp
      rw [h0 i] at hp
      cases hp
  | spawn w fuel h l r w1 _ hns hr ih =>
    have hnp : NotParked w h := by
      intro i p hp hc
      obtain ⟨h1, l0, g1, g2⟩ := ih.2 i p hp
      rw [hc, Option.some.injEq] at g1
      subst g1
      exact hns l0 p g2
    exact ⟨(run_ok body fuel w h l r w1 hr).1 ih.1,
      (run_linked body fuel w h l r w1 ih.1 ih.2 hnp hr).1⟩
  | pump w fuel po c w1 _ hp ih =>
    exact ⟨WellFormed.pump_events body fuel w ih.1 po c w1 hp,
      pump_events_linked body fuel w ih.1 ih.2 po c w1 hp⟩

theorem resume_all_append_eq (body : Body σ) (fuel : Nat) (l1 l2 : List Handle) :
    ∀ (w wm : World σ), resume_all body fuel w l1 = .ok wm →
      resume_all body fuel w (l1 ++ l2) = resume_all body fuel wm l2 := by
  induction l1 with
  | nil =>
    intro w wm h
    simp only [resume_all, Except.ok.injEq] at h
    subst h
    rfl
  | cons h l1 ih =>
    intro w wm hr
    simp only [List.cons_append, resume_all] at hr ⊢
    cases h1 : resume body fuel w h with
    | error x =>
      rw [h1] at hr
      cases hr
    | ok w1 =>
      rw [h1] at hr
      exact ih w1 wm hr

/-- C4. In a `pump_events` call whose `poll` succeeded, whether it returns or
stops, the events are first retries and removals and then resumptions and the
events of the resumed coroutines: no retry and no removal follows a
resumption.  In a well-formed state the resumptions start from the state the
scan ended in, where the slot of every descriptor whose retry completed is
null.  So when the first coroutine resumed at once awaits a request on the
descriptor it was waiting on, and that request would block, the coroutine parks
it in the slot of that descriptor, the assertion holds, and `pump_events`
goes on to the next handle.  The same holds of a coroutine resumed later in
the call, when the slot of its descriptor is still null at its resumption,
that is, when no coroutine resumed before it has parked a request there. -/
theorem C4_resume_after_scan (body : Body σ) (fuel : Nat) (w : World σ) (revents : Int → Int) :
    (∃ evs1 evs2,
      (end_state Prod.snd (pump_events body fuel w (PollOutcome.ready revents))).log
        = w.log ++ evs1 ++ evs2 ∧
      (∀ x ∈ evs1, x.by_scan = true) ∧ (∀ x ∈ evs2, x.by_scan = false) ∧
      evs1.filterMap Event.resumed = []) ∧
    (WellFormed w → ∀ w1 cs,
      scan (w, []) (fill_revents revents (collect_polls w)) = .ok (w1, cs) →
        (pump_events body fuel w (PollOutcome.ready revents) =
          match resume_all body fuel w1 cs with
          | .error x => .error x
          | .ok w2 => .ok (0, w2)) ∧
        ∀ i p a1 tr1, w.m_awaitables i = some p → revents (i.val : Int) ≠ 0 →
          (w.heap p).await_ready (w.env (i.val : Int)) = some (true, a1, tr1) →
            w1.m_awaitables i = none) ∧
    (WellFormed w → ∀ (w1 : World σ) (h : Handle) (rest : List Handle)
        (i : Fin MAX_EXCLUSIVE_FD) (p : Ptr) (l l1 : σ) (a a1 a2 : Awaitable)
        (tr1 tr2 : List Outcome),
      scan (w, []) (fill_revents revents (collect_polls w)) = .ok (w1, h :: rest) →
      w.m_awaitables i = some p → w.frames h = CoState.suspended l p →
      revents (i.val : Int) ≠ 0 →
      (w.heap p).await_ready (w.env (i.val : Int)) = some (true, a1, tr1) →
      body l a1.m_result = (l1, Action.co_await a) → a.m_fd = (i.val : Int) →
      a.await_ready tr1 = some (false, a2, tr2) →
        ∃ w2, resume body (fuel + 1) w1 h = .ok w2 ∧
          w2.m_awaitables i = some w1.next_ptr ∧
          w2.frames h = CoState.suspended l1 w1.next_ptr ∧
          pump_events body (fuel + 1) w (PollOutcome.ready revents) =
            match resume_all body (fuel + 1) w2 rest with
            | .error x => .error x
            | .ok w3 => .ok (0, w3)) ∧
    (WellFormed w → Linked w → ∀ (w1 wa : World σ) (h : Handle) (pre rest : List Handle)
        (i : Fin MAX_EXCLUSIVE_FD) (p : Ptr) (l l1 : σ) (a a1 a2 : Awaitable)
        (tr1 tr2 : List Outcome),
      scan (w, []) (fill_revents revents (collect_polls w)) = .ok (w1, pre ++ h :: rest) →
      resume_all body (fuel + 1) w1 pre = .ok wa → wa.m_awaitables i = none →
      w.m_awaitables i = some p → w.frames h = CoState.suspended l p →
      revents (i.val : Int) ≠ 0 →
      (w.heap p).await_ready (w.env (i.val : Int)) = some (true, a1, tr1) →
      body l a1.m_result = (l1, Action.co_await a) → a.m_fd = (i.val : Int) →
      a.await_ready (wa.env (i.val : Int)) = some (false, a2, tr2) →
        ∃ wb, resume body (fuel + 1) wa h = .ok wb ∧
          wb.m_awaitables i = some wa.next_ptr ∧
          wb.frames h = CoState.suspended l1 wa.next_ptr ∧
          pump_events body (fuel + 1) w (PollOutcome.ready revents) =
            match resume_all body (fuel + 1) wb rest with
            | .error x => .error x
            | .ok w3 => .ok (0, w3)) := by
  refine ⟨?_, ?_, ?_, ?_⟩
  · obtain ⟨evs1, evs2, h1, h2, h3, -, h5, -⟩ := pump_log body fuel w revents
    exact ⟨evs1, evs2, h1, h2, h5, h3⟩
  · intro hwf w1 cs hs
    refine ⟨by simp only [pump_events, hs], ?_⟩
    intro i p a1 tr1 hp hr hat
    obtain ⟨b, a2, tr2, hat2, -, -, hslot⟩ := (scan_slots w hwf revents w1 cs hs).2.2.2.2.2.1 i p hp hr
    rw [hat] at hat2
    simp only [Option.some.injEq, Prod.mk.injEq] at hat2
    rw [← hat2.1] at hslot
    simpa using hslot
  · intro hwf w1 h rest i p l l1 a a1 a2 tr1 tr2 hs hp hf hr hat hb hfd hwb
    obtain ⟨-, -, hframes, -, -, hready, -, -⟩ := scan_slots w hwf revents w1 (h :: rest) hs
    obtain ⟨b, a3, tr3, hat2, hheap, henv, hslot⟩ := hready i p hp hr
    rw [hat] at hat2
    simp only [Option.some.injEq, Prod.mk.injEq] at hat2
    obtain ⟨rfl, rfl, rfl⟩ := hat2
    simp only [if_true] at hslot
    have hres := resume_reparks body fuel w1 h l l1 p a a2 tr2 i
      (by rw [hframes, hf]) (by rw [hheap]; exact hb) ((index?_eq_some _ _).2 hfd) hslot
      (by rw [hfd, henv]; exact hwb)
    refine ⟨_, hres, by simp, by simp, ?_⟩
    simp only [pump_events, hs, resume_all, hres]
  · intro hwf hlk w1 wa h pre rest i p l l1 a a1 a2 tr1 tr2 hs ha hempty hp hf hr hat hb hfd hwb
    obtain ⟨-, hn, hframes, -, -, hready, -, -⟩ := scan_slots w hwf revents w1 _ hs
    obtain ⟨b, a3, tr3, hat2, hheap, -, -⟩ := hready i p hp hr
    rw [hat] at hat2
    simp only [Option.some.injEq, Prod.mk.injEq] at hat2
    obtain ⟨rfl, rfl, rfl⟩ := hat2
    have hnd := (scan_linked w hwf hlk revents w1 _ hs).2.1
    have hpre : h ∉ pre := fun hm =>
      (List.nodup_append.1 hnd).2.2 hm (List.mem_cons_self _ _)
    obtain ⟨-, -, k3, k4⟩ := resume_all_ok body (fuel + 1) pre w1 wa ha
    have hplt : p < w1.next_ptr := by
      rw [hn]
      exact (hwf i p hp).2.2
    have hres := resume_reparks body fuel wa h l l1 p a a2 tr2 i
      (by rw [k4 h hpre, hframes, hf]) (by rw [k3 p hplt, hheap]; exact hb)
      ((index?_eq_some _ _).2 hfd) hempty (by rw [hfd]; exact hwb)
    refine ⟨_, hres, by simp, by simp, ?_⟩
    simp only [pump_events, hs]
    rw [resume_all_append_eq body (fuel + 1) pre (h :: rest) w1 wa ha]
    simp only [resume_all, hres]

/-- C4 at `parked_world` with the body `read_loop`: coroutine 7, resumed with
the two bytes of descriptor 3, reads descriptor 3 again, would block, and is
parked in slot 3 as the request at address 1. -/
theorem C4_resume_after_scan_witness :
    ∃ w2, pump_events read_loop 1 parked_world
        (PollOutcome.ready fun fd => if fd = 3 then POLLIN else 0) = .ok (0, w2) ∧
      w2.m_awaitables 3 = some 1 ∧
      w2.log = [Event.park 3 0, Event.retry 3, Event.unpark 3, Event.resume 7 (2, 0),
        Event.park 3 1] := by
  obtain ⟨w1, cs, hs⟩ := scan_returns parked_world parked_world_wf
    (fun fd => if fd = 3 then POLLIN else 0)
    (by
      intro i p h _
      obtain ⟨rfl, rfl⟩ := parked_world_slot i p h
      decide)
  obtain ⟨hcs, hn, -⟩ := scan_slots parked_world parked_world_wf _ w1 cs hs
  have hcs7 : cs = [7] := by
    rw [hcs]
    decide
  subst hcs7
  obtain ⟨w2, h1, h2, h3, h4⟩ :=
    (C4_resume_after_scan read_loop 0 parked_world
      (fun fd => if fd = 3 then POLLIN else 0)).2.2.1 parked_world_wf w1 7 [] 3 0 0 1
      (async_read 3 0 64)
      { async_read 3 0 64 with m_result := (2, 0), m_cohandle := some 7 }
      { async_read 3 0 64 with m_result := (0, EAGAIN) }
      [Outcome.fail EAGAIN] [] hs (by decide) rfl (by decide) (by decide) (by decide)
      (by decide) (by decide)
  refine ⟨w2, by simpa [resume_all] using h4, by rw [h2, hn]; rfl, ?_⟩
  have h6 : pump_events read_loop 1 parked_world
      (PollOutcome.ready fun fd => if fd = 3 then POLLIN else 0) = .ok (0, w2) := by
    simpa [resume_all] using h4
  have h7 : (end_state Prod.snd (pump_events read_loop 1 parked_world
      (PollOutcome.ready fun fd => if fd = 3 then POLLIN else 0))).log
        = [Event.park 3 0, Event.retry 3, Event.unpark 3, Event.resume 7 (2, 0),
          Event.park 3 1] := by decide
  rw [h6] at h7
  exact h7

/-! ## The set handed to `poll` -/

theorem collect_polls_fds (w : World σ) :
    (collect_polls w).map pollfd.fd
      = ((List.finRange MAX_EXCLUSIVE_FD).filter (fun i => (w.m_awaitables i).isSome)).map
          (fun i => (i.val : Int)) := by
  rw [collect_polls_eq, List.map_filterMap]
  have h : (fun i => Option.map pollfd.fd (poll_entry w i))
      = fun i => if (w.m_awaitables i).isSome then some (i.val : Int) else none := by
    funext i
    unfold poll_entry
    cases w.m_awaitables i <;> rfl
  rw [h]
  induction (List.finRange MAX_EXCLUSIVE_FD) with
  | nil => rfl
  | cons i l ih =>
    rw [filterMap_cons_toList, ih, List.filter_cons]
    cases (w.m_awaitables i).isSome <;> rfl

/-- C11. The entries handed to `poll` are exactly one for each slot that is
not null, none for any other descriptor, in the order of the slots; the count
`num_p` is the number of slots that are not null; the `events` of an entry is
`POLLIN` when the parked request is a `READ` and `POLLOUT` when it is a
`WRITE`, and its `revents` is 0; the timeout is -1.  A request built by
`async_read` is a `READ`, one built by `async_write` is a `WRITE`, and a
request parked by `co_await` gets the entry of its operation. -/
theorem C11_poll_set (w : World σ) :
    (∀ e, e ∈ (poll_args w).1 ↔
      ∃ i p, w.m_awaitables i = some p ∧
        e = { fd := (i.val : Int),
              events := if (w.heap p).m_iop = IOp.READ then POLLIN else POLLOUT,
              revents := 0 }) ∧
    (poll_args w).1.map pollfd.fd
      = ((List.finRange MAX_EXCLUSIVE_FD).filter (fun i => (w.m_awaitables i).isSome)).map
          (fun i => (i.val : Int)) ∧
    (poll_args w).2.1
      = ((List.finRange MAX_EXCLUSIVE_FD).filter (fun i => (w.m_awaitables i).isSome)).length ∧
    (poll_args w).2.2 = -1 ∧
    (∀ i p e, w.m_awaitables i = some p → e ∈ (poll_args w).1 → e.fd = (i.val : Int) →
      ((w.heap p).m_iop = IOp.READ → e.events = POLLIN) ∧
      ((w.heap p).m_iop = IOp.WRITE → e.events = POLLOUT) ∧ e.revents = 0) ∧
    (∀ (fd : Int) (ptr len : Nat),
      (async_read fd ptr len).m_iop = IOp.READ ∧ (async_write fd ptr len).m_iop = IOp.WRITE) ∧
    (∀ (h : Handle) (a a1 : Awaitable) (tr1 : List Outcome) (i : Fin MAX_EXCLUSIVE_FD)
        (aw : Awaited σ),
      index? a.m_fd = some i → w.m_awaitables i = none →
      a.await_ready (w.env a.m_fd) = some (false, a1, tr1) → co_await w h a = .ok aw →
        poll_entry aw.world i
          = some { fd := (i.val : Int),
                   events := if a.m_iop = IOp.READ then POLLIN else POLLOUT,
                   revents := 0 }) := by
  have hmem : ∀ e, e ∈ collect_polls w ↔
      ∃ i p, w.m_awaitables i = some p ∧
        e = { fd := (i.val : Int),
              events := if (w.heap p).m_iop = IOp.READ then POLLIN else POLLOUT,
              revents := 0 } := by
    intro e
    rw [mem_collect_polls]
    constructor
    · rintro ⟨i, hi⟩
      obtain ⟨h1, h2, p, hp, h3⟩ := poll_entry_some w i e hi
      refine ⟨i, p, hp, ?_⟩
      cases e
      simp only at h1 h2 h3
      rw [h1, h2, h3]
    · rintro ⟨i, p, hp, rfl⟩
      exact ⟨i, by simp [poll_entry, hp]⟩
  refine ⟨hmem, collect_polls_fds w, ?_, rfl, ?_, fun _ _ _ => ⟨rfl, rfl⟩, ?_⟩
  · have h := congrArg List.length (collect_polls_fds w)
    simpa [poll_args] using h
  · intro i p e hp he hfd
    obtain ⟨j, q, hq, rfl⟩ := (hmem e).1 he
    simp only at hfd
    have hji : j = i := Fin.ext (by exact_mod_cast hfd)
    subst hji
    rw [hp, Option.some.injEq] at hq
    subst hq
    refine ⟨fun h => by simp [h], fun h => by simp [h], rfl⟩
  · intro h a a1 tr1 i aw hi hempty hwb hc
    rw [co_await_would_block w h a a1 tr1 i hi hempty hwb, Except.ok.injEq] at hc
    subst hc
    simp [poll_entry, Awaited.world]

/-- C11 at `write_parked_world`: the write parked on descriptor 6 is polled
for `POLLOUT` and the read parked on descriptor 9 for `POLLIN`. -/
theorem C11_poll_set_witness :
    poll_args write_parked_world
      = ([{ fd := 6, events := POLLOUT, revents := 0 }, { fd := 9, events := POLLIN, revents := 0 }],
         2, -1) ∧
    (poll_args write_parked_world).2.1
      = ((List.finRange MAX_EXCLUSIVE_FD).filter
          (fun i => (write_parked_world.m_awaitables i).isSome)).length :=
  ⟨by decide, (C11_poll_set write_parked_world).2.2.1⟩

/-! ## Requests that complete at once -/

/-- A `co_await` whose attempt completes: it has the recorded result as its
value, does not call `await_suspend`, and changes only the request object, the
address counter and the outcomes of the request's descriptor. -/
theorem co_await_completes (w : World σ) (h : Handle) (a a1 : Awaitable) (tr1 : List Outcome)
    (hat : a.await_ready (w.env a.m_fd) = some (true, a1, tr1)) :
    co_await w h a = .ok (Awaited.done a1.m_result
      { w with heap := Function.update w.heap w.next_ptr a1,
               next_ptr := w.next_ptr + 1,
               env := Function.update w.env a.m_fd tr1 }) := by
  unfold co_await
  simp only [World.await_ready_eq, Function.update_same, hat, World.await_resume,
    Awaitable.await_resume, Function.update_idem]

/-- C12. A request whose immediate attempt, after `k` interruptions, transfers
`n` bytes or fails with an errno `e` other than `EAGAIN`: the `co_await` has a
value at once, `(n, 0)` or `(0, e)`, the pair that `await_resume` reads from
the request; the table, the coroutine frames and the log are as before, so
nothing is parked and nothing is suspended; and the coroutine goes on running
with that value. -/
theorem C12_synchronous_completion (w : World σ) (h : Handle) (a : Awaitable) (k : Nat)
    (rest : List Outcome) :
    (∀ n : Nat, w.env a.m_fd = List.replicate k (Outcome.fail EINTR) ++ Outcome.ret n :: rest →
      ∃ w1, co_await w h a = .ok (Awaited.done ((n : Int), 0) w1) ∧
        w1.await_resume w.next_ptr = ((n : Int), 0) ∧
        w1.m_awaitables = w.m_awaitables ∧ w1.frames = w.frames ∧ w1.log = w.log ∧
        ∀ (body : Body σ) (fuel : Nat) (l l1 : σ) (r : AsyncIOResult),
          body l r = (l1, Action.co_await a) →
            run body (fuel + 1) w h l r = run body fuel w1 h l1 ((n : Int), 0)) ∧
    (∀ e : Int, e ≠ EINTR → e ≠ EAGAIN →
      w.env a.m_fd = List.replicate k (Outcome.fail EINTR) ++ Outcome.fail e :: rest →
      ∃ w1, co_await w h a = .ok (Awaited.done (0, e) w1) ∧
        w1.await_resume w.next_ptr = (0, e) ∧
        w1.m_awaitables = w.m_awaitables ∧ w1.frames = w.frames ∧ w1.log = w.log ∧
        ∀ (body : Body σ) (fuel : Nat) (l l1 : σ) (r : AsyncIOResult),
          body l r = (l1, Action.co_await a) →
            run body (fuel + 1) w h l r = run body fuel w1 h l1 (0, e)) := by
  constructor
  · intro n henv
    have hat : a.await_ready (w.env a.m_fd)
        = some (true, { a with m_result := ((n : Int), 0) }, rest) := by
      rw [henv, Awaitable.await_ready_interrupted]
      simp [Awaitable.await_ready, Outcome.value, Outcome.errno_after, EINTR, EAGAIN]
    have hc := co_await_completes w h a _ rest hat
    refine ⟨_, hc, by simp [World.await_resume, Awaitable.await_resume], rfl, rfl, rfl, ?_⟩
    intro body fuel l l1 r hb
    simp only [run, hb, hc]
  · intro e h1 h2 henv
    have hat : a.await_ready (w.env a.m_fd)
        = some (true, { a with m_result := (0, e) }, rest) := by
      rw [henv, Awaitable.await_ready_interrupted]
      simp [Awaitable.await_ready, Outcome.value, Outcome.errno_after, h1, h2]
    have hc := co_await_completes w h a _ rest hat
    refine ⟨_, hc, by simp [World.await_resume, Awaitable.await_resume], rfl, rfl, rfl, ?_⟩
    intro body fuel l l1 r hb
    simp only [run, hb, hc]

/-- C12 at `ample_world`, where coroutine 4 writes the two bytes of "AB" to
descriptor 6: the value is `(2, 0)` and nothing is parked. -/
theorem C12_synchronous_completion_witness :
    ∃ w1, co_await ample_world 4 (async_write 6 0 2) = .ok (Awaited.done (2, 0) w1) ∧
      w1.m_awaitables = ample_world.m_awaitables ∧ w1.frames = ample_world.frames := by
  obtain ⟨w1, h1, -, h3, h4, -⟩ :=
    (C12_synchronous_completion ample_world 4 (async_write 6 0 2) 0 []).1 2 (by decide)
  exact ⟨w1, h1, h3, h4⟩

/-! ## Only suspended coroutines are resumed -/

theorem co_await_stop_kind (w : World σ) (h : Handle) (a : Awaitable) (x : Stop × World σ)
    (hc : co_await w h a = .error x) : x.1 ≠ Stop.bad_resume := by
  unfold co_await at hc
  simp only [World.await_ready_eq, Function.update_same] at hc
  cases hat : a.await_ready (w.env a.m_fd) with
  | none =>
    rw [hat] at hc
    simp only [Except.error.injEq] at hc
    rw [← hc]
    simp
  | some y =>
    obtain ⟨b, a1, tr1⟩ := y
    rw [hat] at hc
    cases b with
    | true => cases hc
    | false =>
      simp only [World.await_suspend_eq, Function.update_same] at hc
      cases hi : index? a1.m_fd with
      | none =>
        rw [hi] at hc
        simp only [Except.error.injEq] at hc
        rw [← hc]
        simp
      | some i =>
        rw [hi] at hc
        simp only at hc
        cases hq : w.m_awaitables i with
        | some q =>
          rw [hq] at hc
          simp only [Except.error.injEq] at hc
          rw [← hc]
          simp
        | none =>
          rw [hq] at hc
          cases hc

theorem run_stop_kind (body : Body σ) (fuel : Nat) :
    ∀ (w : World σ) (h : Handle) (l : σ) (r : AsyncIOResult) (x : Stop × World σ),
      run body fuel w h l r = .error x → x.1 ≠ Stop.bad_resume := by
  induction fuel with
  | zero =>
    intro w h l r x hr
    simp only [run, Except.error.injEq] at hr
    rw [← hr]
    simp
  | succ fuel ih =>
    intro w h l r x hr
    simp only [run] at hr
    cases hb : body l r with
    | mk l1 act =>
      rw [hb] at hr
      cases act with
      | co_return => cases hr
      | co_await a =>
        simp only at hr
        cases hc : co_await w h a with
        | error y =>
          rw [hc] at hr
          simp only [Except.error.injEq] at hr
          rw [← hr]
          exact co_await_stop_kind w h a y hc
        | ok aw =>
          rw [hc] at hr
          cases aw with
          | done r1 w1 => exact ih w1 h l1 r1 x hr
          | suspended p w1 => cases hr

/-- The third loop of `pump_events` does not resume a coroutine that is not
suspended, when the handles are distinct and their coroutines suspended. -/
theorem resume_all_stop_kind (body : Body σ) (fuel : Nat) (cs : List Handle) :
    ∀ (w : World σ) (x : Stop × World σ), cs.Nodup →
      (∀ h ∈ cs, ∃ l p, w.frames h = CoState.suspended l p) →
      resume_all body fuel w cs = .error x → x.1 ≠ Stop.bad_resume := by
  induction cs with
  | nil =>
    intro w x _ _ hr
    cases hr
  | cons h cs ih =>
    intro w x hnd hsus hr
    simp only [resume_all] at hr
    obtain ⟨hnot, hnd1⟩ := List.nodup_cons.1 hnd
    cases h1 : resume body fuel w h with
    | error y =>
      rw [h1] at hr
      simp only [Except.error.injEq] at hr
      rw [← hr]
      obtain ⟨l, p, hf⟩ := hsus h (List.mem_cons_self _ _)
      unfold resume at h1
      rw [hf] at h1
      exact run_stop_kind body fuel _ h l _ y h1
    | ok w1 =>
      rw [h1] at hr
      refine ih w1 x hnd1 ?_ hr
      intro h2 hm
      obtain ⟨l, p, hf⟩ := hsus h2 (List.mem_cons_of_mem _ hm)
      have hne : h2 ≠ h := fun he => hnot (by rw [← he]; exact hm)
      exact ⟨l, p, by rw [(resume_ok body fuel w h w1 h1).2.2.2 h2 hne]; exact hf⟩

theorem scan_stop_kind (es : List pollfd) :
    ∀ (st : World σ × List Handle) (x : Stop × World σ),
      scan st es = .error x → x.1 ≠ Stop.bad_resume := by
  induction es with
  | nil =>
    intro st x hs
    cases hs
  | cons e es ih =>
    intro st x hs
    simp only [scan] at hs
    cases hst : scan_step st e with
    | ok st1 =>
      rw [hst] at hs
      exact ih st1 x hs
    | error y =>
      rw [hst] at hs
      simp only [Except.error.injEq] at hs
      rw [← hs]
      unfold scan_step at hst
      split at hst
      · cases hst
      · split at hst
        · simp only [Except.error.injEq] at hst
          rw [← hst]
          simp
        · split at hst
          · cases hst
          · simp only [World.retry_eq] at hst
            split at hst
            · rename_i hx
              split at hx
              · simp only [Except.error.injEq] at hx
                simp only [Except.error.injEq] at hst
                rw [← hst, ← hx]
                simp
              · cases hx
            · cases hst
            · cases hst

/-- The handles that the scan collects, in a state of an execution: they are
distinct, and each is the handle of a request that the scan removed from its
slot, whose coroutine is suspended on it. -/
theorem scan_collects (w : World σ) (hwf : WellFormed w) (hlk : Linked w) (revents : Int → Int)
    (w1 : World σ) (cs : List Handle)
    (hs : scan (w, []) (fill_revents revents (collect_polls w)) = .ok (w1, cs)) :
    cs.Nodup ∧ ∀ h ∈ cs, ∃ i p l, w.m_awaitables i = some p ∧ w1.m_awaitables i = none ∧
      (w.heap p).m_cohandle = some h ∧ w.frames h = CoState.suspended l p ∧
      w1.frames h = CoState.suspended l p := by
  refine ⟨(scan_linked w hwf hlk revents w1 cs hs).2.1, ?_⟩
  obtain ⟨hcs, -, hframes, -, -, hready, -, -⟩ := scan_slots w hwf revents w1 cs hs
  intro h hm
  rw [hcs] at hm
  obtain ⟨i, -, hi⟩ := List.mem_filterMap.1 hm
  unfold removed_handle at hi
  cases hp : w.m_awaitables i with
  | none =>
    rw [hp] at hi
    cases hi
  | some p =>
    rw [hp] at hi
    simp only at hi
    split at hi
    · cases hi
    · rename_i hr
      obtain ⟨b, a1, tr1, hat, -, -, k4⟩ := hready i p hp hr
      rw [hat] at hi
      cases b with
      | false => cases hi
      | true =>
        simp only at hi
        simp only [if_true] at k4
        obtain ⟨h0, l0, g1, g2⟩ := hlk i p hp
        rw [hi, Option.some.injEq] at g1
        subst g1
        exact ⟨i, p, l0, hp, k4, hi, g2, by rw [hframes]; exact g2⟩

/-- C13. In every state of an execution: a parked request belongs to a
coroutine that is suspended on that request, whose descriptor is the one of
its slot; a coroutine that has completed holds no parked request; the handles
that the scan of `pump_events` collects are pairwise distinct, each the handle
of a request the scan has just removed, whose coroutine is suspended;
`pump_events` never calls `resume()` on a coroutine that is not suspended; and
when it returns it has resumed exactly the collected handles, each once. -/
theorem C13_never_resumed_after_completion (body : Body σ) (w : World σ)
    (hex : Execution body w) :
    (∀ i p, w.m_awaitables i = some p →
      ∃ h l, (w.heap p).m_cohandle = some h ∧ w.frames h = CoState.suspended l p ∧
        (w.heap p).m_fd = (i.val : Int)) ∧
    (∀ h, w.frames h = CoState.completed → NotParked w h) ∧
    (∀ (revents : Int → Int) (w1 : World σ) (cs : List Handle),
      scan (w, []) (fill_revents revents (collect_polls w)) = .ok (w1, cs) →
        cs.Nodup ∧ ∀ h ∈ cs, ∃ i p l, w.m_awaitables i = some p ∧ w1.m_awaitables i = none ∧
          (w.heap p).m_cohandle = some h ∧ w.frames h = CoState.suspended l p ∧
          w1.frames h = CoState.suspended l p) ∧
    (∀ (fuel : Nat) (po : PollOutcome) (x : Stop × World σ),
      pump_events body fuel w po = .error x → x.1 ≠ Stop.bad_resume) ∧
    (∀ (fuel : Nat) (revents : Int → Int) (c : Int) (w2 : World σ),
      pump_events body fuel w (PollOutcome.ready revents) = .ok (c, w2) →
        ∃ w1 cs evs, scan (w, []) (fill_revents revents (collect_polls w)) = .ok (w1, cs) ∧
          w2.log = w1.log ++ evs ∧ (evs.filterMap Event.resumed).map Prod.fst = cs ∧
          cs.Nodup) := by
  obtain ⟨hwf, hlk⟩ := Execution.invariant body w hex
  refine ⟨?_, ?_, ?_, ?_, ?_⟩
  · intro i p hp
    obtain ⟨h, l, g1, g2⟩ := hlk i p hp
    exact ⟨h, l, g1, g2, (hwf i p hp).1⟩
  · intro h hf i p hp hc
    obtain ⟨h1, l, g1, g2⟩ := hlk i p hp
    rw [hc, Option.some.injEq] at g1
    subst g1
    rw [hf] at g2
    cases g2
  · intro revents w1 cs hs
    exact scan_collects w hwf hlk revents w1 cs hs
  · intro fuel po x hp
    cases po with
    | fail e => cases hp
    | ready revents =>
      simp only [pump_events] at hp
      cases hs : scan (w, []) (fill_revents revents (collect_polls w)) with
      | error y =>
        rw [hs] at hp
        simp only [Except.error.injEq] at hp
        rw [← hp]
        exact scan_stop_kind _ _ y hs
      | ok st =>
        obtain ⟨w1, cs⟩ := st
        rw [hs] at hp
        simp only at hp
        obtain ⟨hnd, hall⟩ := scan_collects w hwf hlk revents w1 cs hs
        cases hr : resume_all body fuel w1 cs with
        | error y =>
          rw [hr] at hp
          simp only [Except.error.injEq] at hp
          rw [← hp]
          refine resume_all_stop_kind body fuel cs w1 y hnd ?_ hr
          intro h hm
          obtain ⟨i, p, l, -, -, -, -, g⟩ := hall h hm
          exact ⟨l, p, g⟩
        | ok w3 =>
          rw [hr] at hp
          cases hp
  · intro fuel revents c w2 hp
    obtain ⟨evs1, evs2, h1, -, -, -, -, -, h7, h8⟩ := pump_log body fuel w revents
    cases hs : scan (w, []) (fill_revents revents (collect_polls w)) with
    | error y =>
      simp only [pump_events, hs] at hp
      cases hp
    | ok st =>
      obtain ⟨w1, cs⟩ := st
      obtain ⟨k1, -, k3⟩ := h8 w1 cs hs
      rw [hp] at h1
      simp only [end_state] at h1
      exact ⟨w1, cs, evs2, rfl, by rw [h1, k1], k3 c w2 hp,
        (scan_collects w hwf hlk revents w1 cs hs).1⟩

/-- C13 at the state that `quiet_world` is in after coroutine 7 has started
to run `read_loop` and suspended on a read of descriptor 3. -/
theorem C13_never_resumed_after_completion_witness :
    ∃ w1, run read_loop 1 quiet_world 7 0 (0, 0) = .ok w1 ∧
      (∀ h, w1.frames h = CoState.completed → NotParked w1 h) ∧
      (∀ (fuel : Nat) (po : PollOutcome) (x : Stop × World Nat),
        pump_events read_loop fuel w1 po = .error x → x.1 ≠ Stop.bad_resume) := by
  have hret : returned (run read_loop 1 quiet_world 7 0 (0, 0)) = true := by decide
  cases hr : run read_loop 1 quiet_world 7 0 (0, 0) with
  | error x =>
    rw [hr] at hret
    cases hret
  | ok w1 =>
    obtain ⟨-, h2, -, h4, -⟩ := C13_never_resumed_after_completion read_loop w1
      (Execution.spawn quiet_world 1 7 0 (0, 0) w1 (Execution.init quiet_world (fun _ => rfl))
        (by
          intro l0 p hf
          cases hf) hr)
    exact ⟨w1, rfl, h2, h4⟩

/-! ## The driver loop -/

/-- What the event loop has done when it returns: it used a prefix of the
`poll` outcomes, one for each `pump_events` call; it returns 0 with the flag
set, or the code of its last `pump_events` call, which is not 0. -/
theorem event_loop_returns (body : Body σ) (fuel : Nat) (done : World σ → Bool)
    (pos : List PollOutcome) :
    ∀ (w : World σ) (code : Int) (w1 : World σ) (rest : List PollOutcome),
      event_loop body fuel done w pos = .ok (code, w1, rest) →
        ∃ used, pos = used ++ rest ∧
          ((code = 0 ∧ done w1 = true) ∨
            (code ≠ 0 ∧ ∃ pre po w0, used = pre ++ [po] ∧ done w0 = false ∧
              pump_events body fuel w0 po = .ok (code, w1))) := by
  induction pos with
  | nil =>
    intro w code w1 rest h
    simp only [event_loop] at h
    split at h
    · rename_i hd
      simp only [Except.ok.injEq, Prod.mk.injEq] at h
      obtain ⟨rfl, rfl, rfl⟩ := h
      exact ⟨[], rfl, Or.inl ⟨rfl, hd⟩⟩
    · cases h
  | cons po pos ih =>
    intro w code w1 rest h
    simp only [event_loop] at h
    split at h
    · rename_i hd
      simp only [Except.ok.injEq, Prod.mk.injEq] at h
      obtain ⟨rfl, rfl, rfl⟩ := h
      exact ⟨[], rfl, Or.inl ⟨rfl, hd⟩⟩
    · rename_i hd
      cases hp : pump_events body fuel w po with
      | error x =>
        rw [hp] at h
        cases h
      | ok y =>
        obtain ⟨err, w2⟩ := y
        rw [hp] at h
        simp only at h
        split at h
        · rename_i herr
          simp only [Except.ok.injEq, Prod.mk.injEq] at h
          obtain ⟨rfl, rfl, rfl⟩ := h
          exact ⟨[po], rfl, Or.inr ⟨herr, [], po, w, rfl, by simpa using hd, hp⟩⟩
        · obtain ⟨used, hu, hcase⟩ := ih w2 code w1 rest h
          refine ⟨po :: used, by rw [hu]; rfl, ?_⟩
          rcases hcase with hz | ⟨hne, pre, po1, w0, h1, h2, h3⟩
          · exact Or.inl hz
          · exact Or.inr ⟨hne, po :: pre, po1, w0, by rw [h1]; rfl, h2, h3⟩

/-- C14. The event loop of `main`: when the flag is set it returns 0 without
calling `pump_events`, leaving the state and the `poll` outcomes as they are;
when the flag is not set it calls `pump_events`, returns its code when that is
not 0, with no further call, and goes round again when it is 0; a stop of
`pump_events` stops the loop.  So whenever the loop returns it has made one
call for each outcome it used, and it returns 0 with the flag set or the
nonzero code of its last call, which was made with the flag not set. -/
theorem C14_driver_loop (body : Body σ) (fuel : Nat) (done : World σ → Bool) :
    (∀ w pos, done w = true → event_loop body fuel done w pos = .ok (0, w, pos)) ∧
    (∀ w po pos err w1, done w = false → pump_events body fuel w po = .ok (err, w1) →
      err ≠ 0 → event_loop body fuel done w (po :: pos) = .ok (err, w1, pos)) ∧
    (∀ w po pos w1, done w = false → pump_events body fuel w po = .ok (0, w1) →
      event_loop body fuel done w (po :: pos) = event_loop body fuel done w1 pos) ∧
    (∀ w po pos x, done w = false → pump_events body fuel w po = .error x →
      event_loop body fuel done w (po :: pos) = .error x) ∧
    (∀ w pos code w1 rest, event_loop body fuel done w pos = .ok (code, w1, rest) →
      ∃ used, pos = used ++ rest ∧
        ((code = 0 ∧ done w1 = true) ∨
          (code ≠ 0 ∧ ∃ pre po w0, used = pre ++ [po] ∧ done w0 = false ∧
            pump_events body fuel w0 po = .ok (code, w1)))) := by
  refine ⟨?_, ?_, ?_, ?_, fun w pos => event_loop_returns body fuel done pos w⟩
  · intro w pos hd
    cases pos <;> simp [event_loop, hd]
  · intro w po pos err w1 hd hp herr
    simp [event_loop, hd, hp, herr]
  · intro w po pos w1 hd hp
    simp [event_loop, hd, hp]
  · intro w po pos x hd hp
    simp [event_loop, hd, hp]

/-- C14 at `parked_world` with a flag that is never set: the first `poll`
is interrupted, the second fails with errno 9, and the loop returns 9 without
using the third outcome. -/
theorem C14_driver_loop_witness :
    event_loop read_once 4 (fun _ => false) parked_world
        [PollOutcome.fail EINTR, PollOutcome.fail 9, PollOutcome.fail 5]
      = .ok (9, parked_world, [PollOutcome.fail 5]) := by
  have h := C14_driver_loop read_once 4 (fun _ : World Nat => false)
  rw [h.2.2.1 parked_world (PollOutcome.fail EINTR) _ parked_world rfl (by rfl)]
  exact h.2.1 parked_world (PollOutcome.fail 9) _ 9 parked_world rfl (by rfl) (by decide)

/-! ## The empty table -/

theorem collect_polls_empty (w : World σ) (hq : ∀ i, w.m_awaitables i = none) :
    collect_polls w = [] := by
  rw [collect_polls_eq, List.filterMap_eq_nil_iff]
  intro i _
  simp [poll_entry, hq i]

/-- C16. When every slot of the table is null, `pump_events` hands `poll` no
entry, and whatever `poll` does the call returns with the state as it was: no
retry, no resumption, and the table still empty; it returns 0 when `poll`
succeeds.  Any number of `pump_events` calls leave the state as it was. -/
theorem C16_quiescent_table (body : Body σ) (fuel : Nat) (w : World σ)
    (hq : ∀ i, w.m_awaitables i = none) :
    poll_args w = ([], 0, -1) ∧
    (∀ po, ∃ c, pump_events body fuel w po = .ok (c, w)) ∧
    (∀ revents, pump_events body fuel w (PollOutcome.ready revents) = .ok (0, w)) ∧
    (∀ pos, pump_repeat body fuel w pos = .ok w) := by
  have hc := collect_polls_empty w hq
  have hready : ∀ revents, pump_events body fuel w (PollOutcome.ready revents) = .ok (0, w) := by
    intro revents
    simp [pump_events, hc, fill_revents, scan, resume_all]
  have hall : ∀ po, ∃ c, pump_events body fuel w po = .ok (c, w) := by
    intro po
    cases po with
    | fail e => exact ⟨_, rfl⟩
    | ready revents => exact ⟨0, hready revents⟩
  refine ⟨by simp [poll_args, hc], hall, hready, ?_⟩
  intro pos
  induction pos with
  | nil => rfl
  | cons po pos ih =>
    obtain ⟨c, hp⟩ := hall po
    simp only [pump_repeat, hp]
    exact ih

/-- C16 at `quiet_world`, for three `poll` outcomes. -/
theorem C16_quiescent_table_witness :
    pump_repeat read_loop 2 quiet_world
        [PollOutcome.ready fun _ => POLLIN, PollOutcome.fail 9, PollOutcome.ready fun _ => 0]
      = .ok quiet_world :=
  (C16_quiescent_table read_loop 2 quiet_world (fun _ => rfl)).2.2.2 _

/-! ## Array bounds in `pump_events` -/

theorem collect_polls_length (w : World σ) : (collect_polls w).length ≤ MAX_EXCLUSIVE_FD := by
  rw [collect_polls_eq]
  refine Nat.le_trans (List.length_filterMap_le _ _) ?_
  simp

/-- The second loop adds at most one handle for each entry. -/
theorem scan_length (es : List pollfd) :
    ∀ (st st1 : World σ × List Handle), scan st es = .ok st1 →
      st1.2.length ≤ st.2.length + es.length := by
  induction es with
  | nil =>
    intro st st1 hs
    simp only [scan, Except.ok.injEq] at hs
    rw [← hs]
    simp
  | cons e es ih =>
    intro st st1 hs
    simp only [scan] at hs
    cases hst : scan_step st e with
    | error y =>
      rw [hst] at hs
      cases hs
    | ok st2 =>
      rw [hst] at hs
      have h2 := ih st2 st1 hs
      have h1 : st2.2.length ≤ st.2.length + 1 := by
        unfold scan_step at hst
        split at hst
        · simp only [Except.ok.injEq] at hst
          rw [← hst]
          exact Nat.le_succ _
        · split at hst
          · cases hst
          · split at hst
            · simp only [Except.ok.injEq] at hst
              rw [← hst]
              exact Nat.le_succ _
            · simp only at hst
              split at hst
              · cases hst
              · simp only [Except.ok.injEq] at hst
                rw [← hst]
                exact Nat.le_succ _
              · simp only [Except.ok.injEq] at hst
                rw [← hst]
                simp
      simp only [List.length_cons]
      omega

/-- The second loop stops only for want of an outcome when the descriptor of
every entry is within the table. -/
theorem scan_stop_in_bounds (es : List pollfd) :
    ∀ (st : World σ × List Handle) (x : Stop × World σ),
      (∀ e ∈ es, index? e.fd ≠ none) → scan st es = .error x → x.1 = Stop.no_outcome := by
  induction es with
  | nil =>
    intro st x _ hs
    cases hs
  | cons e es ih =>
    intro st x hall hs
    simp only [scan] at hs
    cases hst : scan_step st e with
    | ok st1 =>
      rw [hst] at hs
      exact ih st1 x (fun y hy => hall y (List.mem_cons_of_mem _ hy)) hs
    | error y =>
      rw [hst] at hs
      simp only [Except.error.injEq] at hs
      rw [← hs]
      unfold scan_step at hst
      split at hst
      · cases hst
      · split at hst
        · rename_i hi
          exact absurd hi (hall e (List.mem_cons_self _ _))
        · split at hst
          · cases hst
          · simp only [World.retry_eq] at hst
            split at hst
            · rename_i hx
              split at hx
              · simp only [Except.error.injEq] at hx
                simp only [Except.error.injEq] at hst
                rw [← hst, ← hx]
              · cases hx
            · cases hst
            · cases hst

/-- C19. In `pump_events`: the number `num_p` of entries is at most
`MAX_EXCLUSIVE_FD`; the descriptor of every entry is within the table, so the
scan never indexes the table out of bounds; after any number `k` of rounds of
the scan the number `num_c` of collected handles is at most `k`, so at most
`num_p`; and in a well-formed state, when the turn of an entry comes its slot
still holds the request that was parked there, so the branch for a null
`awaitable` is not taken. -/
theorem C19_array_bounds (w : World σ) (revents : Int → Int) :
    (poll_args w).2.1 ≤ MAX_EXCLUSIVE_FD ∧
    (fill_revents revents (collect_polls w)).length = (poll_args w).2.1 ∧
    (∀ e ∈ fill_revents revents (collect_polls w), ∃ i, index? e.fd = some i) ∧
    (∀ x, scan (w, []) (fill_revents revents (collect_polls w)) = .error x →
      x.1 = Stop.no_outcome) ∧
    (∀ (k : Nat) (wk : World σ) (csk : List Handle),
      scan (w, []) ((fill_revents revents (collect_polls w)).take k) = .ok (wk, csk) →
        csk.length ≤ k ∧ csk.length ≤ (poll_args w).2.1) ∧
    (WellFormed w → ∀ (pre post : List pollfd) (e : pollfd) (wk : World σ) (csk : List Handle),
      fill_revents revents (collect_polls w) = pre ++ e :: post →
      scan (w, []) pre = .ok (wk, csk) →
        ∃ i p, index? e.fd = some i ∧ w.m_awaitables i = some p ∧
          wk.m_awaitables i = some p) := by
  have hlen : (fill_revents revents (collect_polls w)).length = (collect_polls w).length := by
    simp [fill_revents]
  have hin : ∀ e ∈ fill_revents revents (collect_polls w), ∃ i, index? e.fd = some i := by
    intro e he
    obtain ⟨i, p, hi, -⟩ := fill_revents_slots w revents e he
    exact ⟨i, hi⟩
  refine ⟨collect_polls_length w, hlen, hin, ?_, ?_, ?_⟩
  · intro x hs
    refine scan_stop_in_bounds _ _ x ?_ hs
    intro e he hn
    obtain ⟨i, hi⟩ := hin e he
    rw [hi] at hn
    cases hn
  · intro k wk csk hs
    have h := scan_length _ _ _ hs
    simp only [List.length_nil, List.length_take, Nat.zero_add] at h
    constructor
    · exact Nat.le_trans h (Nat.min_le_left _ _)
    · refine Nat.le_trans h (Nat.le_trans (Nat.min_le_right _ _) ?_)
      rw [hlen]
      exact Nat.le_refl _
  · intro hwf pre post e wk csk hsplit hs
    have hdist := fill_revents_distinct w revents
    rw [hsplit] at hdist
    obtain ⟨hd1, hd2, hd3⟩ := List.pairwise_append.1 hdist
    have hmem : ∀ y ∈ pre, y ∈ fill_revents revents (collect_polls w) := by
      intro y hy
      rw [hsplit]
      exact List.mem_append_left _ hy
    have P := scan_post w hwf pre w wk [] csk hd1
      (fun y hy => fill_revents_slots w revents y (hmem y hy)) (Agree.refl w _) hs
    obtain ⟨i, p, hi, hp⟩ := fill_revents_slots w revents e
      (by rw [hsplit]; exact List.mem_append_right _ (List.mem_cons_self _ _))
    refine ⟨i, p, hi, hp, ?_⟩
    rw [P.slot_frame i, hp]
    intro y hy hfd
    exact hd3 y hy e (List.mem_cons_self _ _) (by rw [hfd, (index?_eq_some _ _).1 hi])

/-- C19 at `two_parked_world`: when the turn of the entry of descriptor 5
comes, after the entry of descriptor 3 has been removed, slot 5 still holds
its request. -/
theorem C19_array_bounds_witness :
    ∃ wk csk,
      scan (two_parked_world, []) [{ fd := 3, events := POLLIN, revents := POLLIN }]
        = .ok (wk, csk) ∧
      wk.m_awaitables 3 = none ∧
      ∃ i p, index? 5 = some i ∧ two_parked_world.m_awaitables i = some p ∧
        wk.m_awaitables i = some p := by
  have hret : returned (scan ((two_parked_world, []) : World Nat × List Handle)
      [{ fd := 3, events := POLLIN, revents := POLLIN }]) = true := by decide
  have h3 : (end_state Prod.fst (scan ((two_parked_world, []) : World Nat × List Handle)
      [{ fd := 3, events := POLLIN, revents := POLLIN }])).m_awaitables 3 = none := by decide
  cases hs : scan ((two_parked_world, []) : World Nat × List Handle)
      [{ fd := 3, events := POLLIN, revents := POLLIN }] with
  | error x =>
    rw [hs] at hret
    cases hret
  | ok st =>
    obtain ⟨wk, csk⟩ := st
    rw [hs] at h3
    exact ⟨wk, csk, rfl, h3,
      (C19_array_bounds two_parked_world (fun _ => POLLIN)).2.2.2.2.2 two_parked_world_wf
        [{ fd := 3, events := POLLIN, revents := POLLIN }] []
        { fd := 5, events := POLLIN, revents := POLLIN } wk csk (by decide) hs⟩

/-! ## The descriptors of `main` are within the table -/

theorem assert_fd_ok (fd : Int) (h : assert_fd fd = .ok ()) : fd < (MAX_EXCLUSIVE_FD : Int) := by
  unfold assert_fd at h
  split at h
  · assumption
  · cases h

theorem assert_fd_error (fd : Int) (x : Stop) (h : assert_fd fd = .error x) :
    x = Stop.assertion_failed := by
  unfold assert_fd at h
  split at h
  · cases h
  · simp only [Except.error.injEq] at h
    exact h.symm

/-- The descriptors that `main` keeps are within the table. -/
theorem main_descriptors_in_bounds (fizz_pipe_fds buzz_pipe_fds : Option (Nat × Nat))
    (timerfd : Int) (d : Descriptors)
    (h : main_descriptors fizz_pipe_fds buzz_pipe_fds timerfd = .ok (some d)) :
    ∀ fd ∈ d.all, 0 ≤ fd ∧ fd < (MAX_EXCLUSIVE_FD : Int) := by
  unfold main_descriptors at h
  cases fizz_pipe_fds with
  | none => cases h
  | some f =>
    obtain ⟨f0, f1⟩ := f
    simp only at h
    cases h0 : assert_fd (f0 : Int) with
    | error x =>
      rw [h0] at h
      cases h
    | ok u0 =>
      rw [h0] at h
      simp only at h
      cases h1 : assert_fd (f1 : Int) with
      | error x =>
        rw [h1] at h
        cases h
      | ok u1 =>
        rw [h1] at h
        simp only at h
        cases buzz_pipe_fds with
        | none => cases h
        | some b =>
          obtain ⟨b0, b1⟩ := b
          simp only at h
          cases h2 : assert_fd (b0 : Int) with
          | error x =>
            rw [h2] at h
            cases h
          | ok u2 =>
            rw [h2] at h
            simp only at h
            cases h3 : assert_fd (b1 : Int) with
            | error x =>
              rw [h3] at h
              cases h
            | ok u3 =>
              rw [h3] at h
              simp only at h
              by_cases ht : timerfd < 0
              · rw [if_pos ht] at h
                cases h
              · rw [if_neg ht] at h
                cases h4 : assert_fd timerfd with
                | error x =>
                  rw [h4] at h
                  cases h
                | ok u4 =>
                  rw [h4] at h
                  simp only [Except.ok.injEq, Option.some.injEq] at h
                  subst h
                  intro fd hfd
                  simp only [Descriptors.all, List.mem_cons, List.mem_singleton,
                    List.not_mem_nil, or_false] at hfd
                  rcases hfd with rfl | rfl | rfl | rfl | rfl
                  · exact ⟨Int.ofNat_nonneg _, assert_fd_ok _ h0⟩
                  · exact ⟨Int.ofNat_nonneg _, assert_fd_ok _ h1⟩
                  · exact ⟨Int.ofNat_nonneg _, assert_fd_ok _ h2⟩
                  · exact ⟨Int.ofNat_nonneg _, assert_fd_ok _ h3⟩
                  · exact ⟨Int.not_lt.1 ht, assert_fd_ok _ h4⟩

theorem main_descriptors_stop (fizz_pipe_fds buzz_pipe_fds : Option (Nat × Nat))
    (timerfd : Int) (x : Stop)
    (h : main_descriptors fizz_pipe_fds buzz_pipe_fds timerfd = .error x) :
    x = Stop.assertion_failed := by
  unfold main_descriptors at h
  cases fizz_pipe_fds with
  | none => cases h
  | some f =>
    obtain ⟨f0, f1⟩ := f
    simp only at h
    cases h0 : assert_fd (f0 : Int) with
    | error y =>
      rw [h0] at h
      simp only [Except.error.injEq] at h
      rw [← h]
      exact assert_fd_error _ y h0
    | ok u0 =>
      rw [h0] at h
      simp only at h
      cases h1 : assert_fd (f1 : Int) with
      | error y =>
        rw [h1] at h
        simp only [Except.error.injEq] at h
        rw [← h]
        exact assert_fd_error _ y h1
      | ok u1 =>
        rw [h1] at h
        simp only at h
        cases buzz_pipe_fds with
        | none => cases h
        | some b =>
          obtain ⟨b0, b1⟩ := b
          simp only at h
          cases h2 : assert_fd (b0 : Int) with
          | error y =>
            rw [h2] at h
            simp only [Except.error.injEq] at h
            rw [← h]
            exact assert_fd_error _ y h2
          | ok u2 =>
            rw [h2] at h
            simp only at h
            cases h3 : assert_fd (b1 : Int) with
            | error y =>
              rw [h3] at h
              simp only [Except.error.injEq] at h
              rw [← h]
              exact assert_fd_error _ y h3
            | ok u3 =>
              rw [h3] at h
              simp only at h
              by_cases ht : timerfd < 0
              · rw [if_pos ht] at h
                cases h
              · rw [if_neg ht] at h
                cases h4 : assert_fd timerfd with
                | error y =>
                  rw [h4] at h
                  simp only [Except.error.injEq] at h
                  rw [← h]
                  exact assert_fd_error _ y h4
                | ok u4 =>
                  rw [h4] at h
                  cases h

/-- C17. The first part of `main` either fails an assertion, or returns
early because a call failed, or keeps five descriptors; every descriptor it
keeps, which it then gives to `async_read` and `async_write`, is within
`[0, MAX_EXCLUSIVE_FD)`, so `await_suspend` of a request on it indexes
`m_awaitables` at its own position within the table: it either parks the
request there or fails the assertion that the slot is null, and never reads
or writes outside the table. -/
theorem C17_descriptors_in_bounds (fizz_pipe_fds buzz_pipe_fds : Option (Nat × Nat))
    (timerfd : Int) :
    (main_descriptors fizz_pipe_fds buzz_pipe_fds timerfd = .error Stop.assertion_failed ∨
      main_descriptors fizz_pipe_fds buzz_pipe_fds timerfd = .ok none ∨
      ∃ d, main_descriptors fizz_pipe_fds buzz_pipe_fds timerfd = .ok (some d)) ∧
    (∀ d, main_descriptors fizz_pipe_fds buzz_pipe_fds timerfd = .ok (some d) →
      ∀ fd ∈ d.all, ∀ (ptr len : Nat) (a : Awaitable),
        (a = async_read fd ptr len ∨ a = async_write fd ptr len) →
        ∃ i : Fin MAX_EXCLUSIVE_FD, index? a.m_fd = some i ∧ (i.val : Int) = fd ∧
          ∀ (w : World σ) (p : Ptr) (h : Handle), (w.heap p).m_fd = a.m_fd →
            (∃ w1, w.await_suspend p h = .ok w1 ∧ w1.m_awaitables i = some p) ∨
            (∃ w1, w.await_suspend p h = .error (Stop.assertion_failed, w1) ∧
              w.m_awaitables i ≠ none)) := by
  constructor
  · cases hm : main_descriptors fizz_pipe_fds buzz_pipe_fds timerfd with
    | error x =>
      rw [main_descriptors_stop _ _ _ x hm]
      exact Or.inl rfl
    | ok o =>
      cases o with
      | none => exact Or.inr (Or.inl rfl)
      | some d => exact Or.inr (Or.inr ⟨d, rfl⟩)
  · intro d hd fd hfd ptr len a ha
    obtain ⟨h0, h1⟩ := main_descriptors_in_bounds _ _ _ d hd fd hfd
    have hafd : a.m_fd = fd := by
      rcases ha with rfl | rfl <;> rfl
    have hi : ∃ i : Fin MAX_EXCLUSIVE_FD, index? fd = some i := by
      unfold index?
      rw [dif_pos ⟨h0, h1⟩]
      exact ⟨_, rfl⟩
    obtain ⟨i, hi⟩ := hi
    refine ⟨i, by rw [hafd]; exact hi, ((index?_eq_some _ _).1 hi).symm, ?_⟩
    intro w p h hp
    rw [World.await_suspend_eq, hp, hafd, hi]
    cases hq : w.m_awaitables i with
    | none =>
      simp only [hq]
      exact Or.inl ⟨_, rfl, by simp⟩
    | some q =>
      simp only [hq]
      exact Or.inr ⟨_, rfl, by simp⟩

/-- C17 at the descriptors 3, 4, 5, 6 and 7: they are kept, and a read of
descriptor 3 parks at position 3; with a descriptor 40 `main` fails its
assertion. -/
theorem C17_descriptors_in_bounds_witness :
    main_descriptors (some (3, 4)) (some (5, 6)) 7
      = .ok (some { fizz_pipe_read_end := 3, fizz_pipe_write_end := 4, buzz_pipe_read_end := 5,
                    buzz_pipe_write_end := 6, timerfd := 7 }) ∧
    main_descriptors (some (3, 40)) (some (5, 6)) 7 = .error Stop.assertion_failed ∧
    ∃ i : Fin MAX_EXCLUSIVE_FD, index? (async_read 3 0 64).m_fd = some i ∧ (i.val : Int) = 3 := by
  refine ⟨rfl, rfl, ?_⟩
  obtain ⟨i, h1, h2, -⟩ := (C17_descriptors_in_bounds (σ := Nat) (some (3, 4)) (some (5, 6)) 7).2
    { fizz_pipe_read_end := 3, fizz_pipe_write_end := 4, buzz_pipe_read_end := 5,
      buzz_pipe_write_end := 6, timerfd := 7 } rfl 3 (by decide) 0 64 (async_read 3 0 64)
    (Or.inl rfl)
  exact ⟨i, h1, h2⟩

namespace PrimeSieve

/-! ## Generators -/

theorem ints_cons (a b : Int) (h : a < b) : ints a b = a :: ints (a + 1) b := by
  unfold ints
  have hn : (b - a).toNat = (b - (a + 1)).toNat + 1 := by omega
  rw [hn, List.range_succ_eq_map, List.map_cons, List.map_map]
  simp only [Nat.cast_zero, add_zero, List.cons.injEq, true_and]
  apply List.map_congr_left
  intro k _
  simp only [Function.comp_apply, Nat.cast_succ]
  omega

theorem ints_nil (a b : Int) (h : ¬ a < b) : ints a b = [] := by
  unfold ints
  have hn : (b - a).toNat = 0 := by omega
  rw [hn]
  rfl

theorem mem_ints (a b x : Int) : x ∈ ints a b ↔ a ≤ x ∧ x < b := by
  unfold ints
  simp only [List.mem_map, List.mem_range]
  constructor
  · rintro ⟨k, hk, rfl⟩
    omega
  · rintro ⟨h1, h2⟩
    exact ⟨(x - a).toNat, by omega, by omega⟩

theorem ints_sorted (a b : Int) : (ints a b).Pairwise (fun x y => x < y) := by
  unfold ints
  rw [List.pairwise_map]
  refine List.Pairwise.imp ?_ (List.pairwise_lt_range _)
  intro i j hij
  omega

/-- A generator that is done yields nothing more. -/
theorem Generator.values_of_done (g : Generator) (h : g.done = true) : g.values = [] := by
  cases g with
  | null => rfl
  | source at_ v e x =>
    simp only [Generator.done, decide_eq_true_eq] at h
    subst h
    rfl
  | filter at_ v g0 p =>
    simp only [Generator.done, decide_eq_true_eq] at h
    subst h
    rfl

/-- The method `next` on a generator whose handle is null or whose coroutine
is done returns `nullopt` and does not resume. -/
theorem Generator.next_finished (g : Generator) (fuel : Nat)
    (h : g = Generator.null ∨ g.done = true) :
    g.next (fuel + 1) = some (none, g, false) := by
  rcases h with rfl | h
  · simp [Generator.next]
  · cases g with
    | null => simp [Generator.next]
    | source at_ v e x => simp [Generator.next, h]
    | filter at_ v g0 p => simp [Generator.next, h]

/-- What `next` returns, read from its definition: it resumes exactly when
the handle is not null and the coroutine not done; then it returns `nullopt`
when the coroutine has finished and its `m_value` otherwise. -/
theorem Generator.next_cases (g : Generator) (fuel : Nat) (v : Option Int) (g1 : Generator)
    (b : Bool) (h : g.next fuel = some (v, g1, b)) :
    (b = true ↔ (g ≠ Generator.null ∧ g.done = false)) ∧
    (b = false → g1 = g ∧ v = none) ∧
    (b = true → ∃ k, fuel = k + 1 ∧ Generator.resume k g = some g1) ∧
    (v = none ↔ (g1 = Generator.null ∨ g1.done = true)) ∧
    (∀ x, v = some x →
      (∃ e y, g1 = Generator.source Point.yield x e y) ∨
      (∃ g0 p, g1 = Generator.filter Point.yield x g0 p) ∨
      (∃ e y, g1 = Generator.source Point.initial x e y) ∨
      (∃ g0 p, g1 = Generator.filter Point.initial x g0 p)) := by
  cases fuel with
  | zero => simp [Generator.next] at h
  | succ k =>
    by_cases hfin : g = Generator.null ∨ g.done = true
    · rw [Generator.next_finished g k hfin, Option.some.injEq, Prod.mk.injEq, Prod.mk.injEq] at h
      obtain ⟨rfl, rfl, rfl⟩ := h
      refine ⟨?_, fun _ => ⟨rfl, rfl⟩, fun hb => (by cases hb), ?_, fun x hx => (by cases hx)⟩
      · constructor
        · intro hb
          cases hb
        · rintro ⟨h1, h2⟩
          rcases hfin with h3 | h3
          · exact absurd h3 h1
          · rw [h2] at h3
            cases h3
      · exact ⟨fun _ => hfin, fun _ => rfl⟩
    · have hnn : g ≠ Generator.null := fun hn => hfin (Or.inl hn)
      have hnd : g.done = false := by
        cases hd : g.done with
        | true => exact absurd (Or.inr hd) hfin
        | false => rfl
      have hstep : g.next (k + 1) =
          match Generator.resume k g with
          | none => none
          | some g1 =>
            if g1.done then some (none, g1, true)
            else
              match g1 with
              | .null => some (none, g1, true)
              | .source _ m_value _ _ => some (some m_value, g1, true)
              | .filter _ m_value _ _ => some (some m_value, g1, true) := by
        cases g with
        | null => exact absurd rfl hnn
        | source at_ v0 e x => simp [Generator.next, hnd]
        | filter at_ v0 g0 p => simp [Generator.next, hnd]
      rw [hstep] at h
      cases hr : Generator.resume k g with
      | none =>
        rw [hr] at h
        cases h
      | some g2 =>
        rw [hr] at h
        simp only at h
        by_cases hd2 : g2.done = true
        · rw [if_pos hd2, Option.some.injEq, Prod.mk.injEq, Prod.mk.injEq] at h
          obtain ⟨rfl, rfl, rfl⟩ := h
          exact ⟨⟨fun _ => ⟨hnn, hnd⟩, fun _ => rfl⟩, fun hb => (by cases hb),
            fun _ => ⟨k, rfl, hr⟩, ⟨fun _ => Or.inr hd2, fun _ => rfl⟩, fun x hx => (by cases hx)⟩
        · rw [if_neg hd2] at h
          cases g2 with
          | null =>
            simp only [Option.some.injEq, Prod.mk.injEq] at h
            obtain ⟨rfl, rfl, rfl⟩ := h
            exact ⟨⟨fun _ => ⟨hnn, hnd⟩, fun _ => rfl⟩, fun hb => (by cases hb),
              fun _ => ⟨k, rfl, hr⟩, ⟨fun _ => Or.inl rfl, fun _ => rfl⟩,
              fun x hx => (by cases hx)⟩
          | source at_ v0 e x =>
            simp only [Option.some.injEq, Prod.mk.injEq] at h
            obtain ⟨rfl, rfl, rfl⟩ := h
            refine ⟨⟨fun _ => ⟨hnn, hnd⟩, fun _ => rfl⟩, fun hb => (by cases hb),
              fun _ => ⟨k, rfl, hr⟩, ⟨fun hv => (by cases hv), ?_⟩, ?_⟩
            · rintro (h1 | h1)
              · cases h1
              · exact absurd h1 hd2
            · intro y hy
              simp only [Option.some.injEq] at hy
              subst hy
              cases at_ with
              | initial => exact Or.inr (Or.inr (Or.inl ⟨e, x, rfl⟩))
              | yield => exact Or.inl ⟨e, x, rfl⟩
              | final => exact absurd rfl hd2
          | filter at_ v0 g0 p =>
            simp only [Option.some.injEq, Prod.mk.injEq] at h
            obtain ⟨rfl, rfl, rfl⟩ := h
            refine ⟨⟨fun _ => ⟨hnn, hnd⟩, fun _ => rfl⟩, fun hb => (by cases hb),
              fun _ => ⟨k, rfl, hr⟩, ⟨fun hv => (by cases hv), ?_⟩, ?_⟩
            · rintro (h1 | h1)
              · cases h1
              · exact absurd h1 hd2
            · intro y hy
              simp only [Option.some.injEq] at hy
              subst hy
              cases at_ with
              | initial => exact Or.inr (Or.inr (Or.inr ⟨g0, p, rfl⟩))
              | yield => exact Or.inr (Or.inl ⟨g0, p, rfl⟩)
              | final => exact absurd rfl hd2

end PrimeSieve

namespace PrimeSieve

/-- A call of `next` on a `source` generator that is not done. -/
theorem source_next (at_ : Point) (v e x : Int) (hat : at_ ≠ Point.final) :
    ∃ g1, (∀ fuel, 2 ≤ fuel →
        (Generator.source at_ v e x).next fuel =
          some ((Generator.source at_ v e x).values.head?, g1, true)) ∧
      g1.values = (Generator.source at_ v e x).values.tail ∧ g1.depth = 0 := by
  have key : ∀ a : Int, (Generator.source at_ v e x).values = ints a e →
      (a = if at_ = Point.initial then 2 else x + 1) →
      ∃ g1, (∀ fuel, 2 ≤ fuel →
        (Generator.source at_ v e x).next fuel =
          some ((Generator.source at_ v e x).values.head?, g1, true)) ∧
      g1.values = (Generator.source at_ v e x).values.tail ∧ g1.depth = 0 := by
    intro a hv ha
    have hnd : (Generator.source at_ v e x).done = false := by
      simp [Generator.done, hat]
    by_cases hlt : a < e
    · refine ⟨Generator.source Point.yield a e a, ?_, ?_, rfl⟩
      · intro fuel hf
        obtain ⟨k, rfl⟩ : ∃ k, fuel = k + 2 := ⟨fuel - 2, by omega⟩
        rw [hv, ints_cons a e hlt]
        simp only [Generator.next, Generator.resume, hnd, ← ha, hlt, if_true, List.head?_cons]
        simp [Generator.done]
      · rw [hv, ints_cons a e hlt]
        rfl
    · refine ⟨Generator.source Point.final v e a, ?_, ?_, rfl⟩
      · intro fuel hf
        obtain ⟨k, rfl⟩ : ∃ k, fuel = k + 2 := ⟨fuel - 2, by omega⟩
        rw [hv, ints_nil a e hlt]
        simp only [Generator.next, Generator.resume, hnd, ← ha, hlt, if_false, List.head?_nil]
        simp [Generator.done]
      · rw [hv, ints_nil a e hlt]
        rfl
  cases at_ with
  | initial => exact key 2 rfl rfl
  | yield => exact key (x + 1) rfl rfl
  | final => exact absurd rfl hat

/-- The values of a `filter` generator that is not done. -/
theorem filter_values (at_ : Point) (v : Int) (g0 : Generator) (p : Int)
    (hat : at_ ≠ Point.final) :
    (Generator.filter at_ v g0 p).values = g0.values.filter fun x => decide (x.tmod p ≠ 0) := by
  cases at_ with
  | initial => rfl
  | yield => rfl
  | final => exact absurd rfl hat

/-- The loop of `filter`, given that `next` meets its specification on every
generator of the depth of the inner one: it stops at the first value of the
inner generator that `prime` does not divide, or at the end. -/
theorem filter_loop_spec (d : Nat)
    (ih : ∀ g : Generator, g.depth = d →
      ∃ N g1 b, (∀ fuel, N ≤ fuel → g.next fuel = some (g.values.head?, g1, b)) ∧
        g1.values = g.values.tail ∧ g1.depth = g.depth)
    (m : Int) (prime : Int) :
    ∀ (n : Nat) (g0 : Generator), g0.values.length = n → g0.depth = d →
      ∃ N g1, (∀ fuel, N ≤ fuel → Generator.filter_loop fuel m g0 prime = some g1) ∧
        g1.depth = d + 1 ∧
        ((g0.values.filter (fun x => decide (x.tmod prime ≠ 0)) = [] ∧
            ∃ g2, g1 = Generator.filter Point.final m g2 prime) ∨
          (∃ x rest g2, g0.values.filter (fun x => decide (x.tmod prime ≠ 0)) = x :: rest ∧
            g1 = Generator.filter Point.yield x g2 prime ∧
            g2.values.filter (fun x => decide (x.tmod prime ≠ 0)) = rest)) := by
  intro n
  induction n using Nat.strong_induction_on with
  | _ n ihn =>
    intro g0 hlen hdep
    obtain ⟨N0, g2, b, hnext, hvals, hd2⟩ := ih g0 hdep
    cases hv : g0.values with
    | nil =>
      refine ⟨N0 + 1, Generator.filter Point.final m g2 prime, ?_, ?_, Or.inl ⟨rfl, g2, rfl⟩⟩
      · intro fuel hf
        obtain ⟨k, rfl⟩ : ∃ k, fuel = k + 1 := ⟨fuel - 1, by omega⟩
        have h := hnext k (by omega)
        rw [hv] at h
        simp only [Generator.filter_loop, h, List.head?_nil]
      · simp only [Generator.depth, hd2, hdep]
    | cons x rest =>
      rw [hv] at hvals
      simp only [List.tail_cons] at hvals
      by_cases hx : x.tmod prime ≠ 0
      · refine ⟨N0 + 1, Generator.filter Point.yield x g2 prime, ?_, ?_,
          Or.inr ⟨x, rest.filter (fun x => decide (x.tmod prime ≠ 0)), g2, ?_, rfl, ?_⟩⟩
        · intro fuel hf
          obtain ⟨k, rfl⟩ : ∃ k, fuel = k + 1 := ⟨fuel - 1, by omega⟩
          have h := hnext k (by omega)
          rw [hv] at h
          simp only [Generator.filter_loop, h, List.head?_cons]
          exact if_pos hx
        · simp only [Generator.depth, hd2, hdep]
        · have hdx : decide (x.tmod prime ≠ 0) = true := decide_eq_true hx
          rw [List.filter_cons, hdx]
          rfl
        · rw [hvals]
      · have hlt : g2.values.length < n := by
          rw [← hlen, hv, hvals]
          simp
        obtain ⟨N1, g1, hloop, hd1, hres⟩ := ihn _ hlt g2 rfl (by rw [hd2, hdep])
        refine ⟨max N0 N1 + 1, g1, ?_, hd1, ?_⟩
        · intro fuel hf
          obtain ⟨k, rfl⟩ : ∃ k, fuel = k + 1 := ⟨fuel - 1, by omega⟩
          have h := hnext k (by omega)
          rw [hv] at h
          simp only [Generator.filter_loop, h, List.head?_cons]
          rw [if_neg hx]
          exact hloop k (by omega)
        · have hf : (x :: rest).filter (fun x => decide (x.tmod prime ≠ 0)) =
              g2.values.filter (fun x => decide (x.tmod prime ≠ 0)) := by
            have hdx : decide (x.tmod prime ≠ 0) = false := decide_eq_false hx
            rw [List.filter_cons, hdx, hvals]
            rfl
          rw [hf]
          exact hres

end PrimeSieve

namespace PrimeSieve

/-- One call of `next` with enough fuel returns the first of the values that
the generator has still to yield (`nullopt` when there is none), and leaves a
generator that will yield the rest. -/
theorem next_spec (g : Generator) :
    ∃ N g1 b, (∀ fuel, N ≤ fuel → g.next fuel = some (g.values.head?, g1, b)) ∧
      g1.values = g.values.tail ∧ g1.depth = g.depth := by
  have main : ∀ (d : Nat) (g : Generator), g.depth = d →
      ∃ N g1 b, (∀ fuel, N ≤ fuel → g.next fuel = some (g.values.head?, g1, b)) ∧
        g1.values = g.values.tail ∧ g1.depth = g.depth := by
    intro d
    induction d with
    | zero =>
      intro g hd
      by_cases hfin : g = Generator.null ∨ g.done = true
      · have hv : g.values = [] := by
          rcases hfin with rfl | h
          · rfl
          · exact g.values_of_done h
        refine ⟨1, g, false, ?_, by rw [hv]; rfl, rfl⟩
        intro fuel hf
        obtain ⟨k, rfl⟩ : ∃ k, fuel = k + 1 := ⟨fuel - 1, by omega⟩
        rw [g.next_finished k hfin, hv]
        rfl
      · cases g with
        | null => exact absurd (Or.inl rfl) hfin
        | source at_ v e x =>
          have hat : at_ ≠ Point.final := by
            intro h
            apply hfin
            right
            simp [Generator.done, h]
          obtain ⟨g1, h1, h2, h3⟩ := source_next at_ v e x hat
          exact ⟨2, g1, true, h1, h2, h3⟩
        | filter at_ v g0 p => simp [Generator.depth] at hd
    | succ d ih =>
      intro g hd
      by_cases hfin : g = Generator.null ∨ g.done = true
      · have hv : g.values = [] := by
          rcases hfin with rfl | h
          · rfl
          · exact g.values_of_done h
        refine ⟨1, g, false, ?_, by rw [hv]; rfl, rfl⟩
        intro fuel hf
        obtain ⟨k, rfl⟩ : ∃ k, fuel = k + 1 := ⟨fuel - 1, by omega⟩
        rw [g.next_finished k hfin, hv]
        rfl
      · cases g with
        | null => exact absurd (Or.inl rfl) hfin
        | source at_ v e x => simp [Generator.depth] at hd
        | filter at_ v g0 p =>
          have hat : at_ ≠ Point.final := by
            intro h
            apply hfin
            right
            simp [Generator.done, h]
          have hnd : (Generator.filter at_ v g0 p).done = false := by
            simp [Generator.done, hat]
          have hd0 : g0.depth = d := by
            simp only [Generator.depth] at hd
            omega
          obtain ⟨N, g1, hloop, hd1, hres⟩ :=
            filter_loop_spec d ih v p g0.values.length g0 rfl hd0
          have hstep : ∀ fuel, N + 2 ≤ fuel →
              (Generator.filter at_ v g0 p).next fuel =
                if g1.done then some (none, g1, true)
                else
                  match g1 with
                  | .null => some (none, g1, true)
                  | .source _ m_value _ _ => some (some m_value, g1, true)
                  | .filter _ m_value _ _ => some (some m_value, g1, true) := by
            intro fuel hf
            obtain ⟨k, rfl⟩ : ∃ k, fuel = k + 2 := ⟨fuel - 2, by omega⟩
            simp only [Generator.next, Generator.resume, hnd, hloop k (by omega)]
            simp
          rw [filter_values at_ v g0 p hat]
          rcases hres with ⟨hnil, g2, rfl⟩ | ⟨x, rest, g2, hcons, rfl, hrest⟩
          · refine ⟨N + 2, Generator.filter Point.final v g2 p, true, ?_, ?_, ?_⟩
            · intro fuel hf
              rw [hstep fuel hf, hnil]
              rfl
            · rw [hnil]
              rfl
            · rw [hd1, hd]
          · refine ⟨N + 2, Generator.filter Point.yield x g2 p, true, ?_, ?_, ?_⟩
            · intro fuel hf
              rw [hstep fuel hf, hcons]
              rfl
            · rw [hcons, filter_values _ _ _ _ (by decide), hrest]
              rfl
            · rw [hd1, hd]
  exact main g.depth g rfl

/-- A `filter` generator yields the values of its inner generator that
`prime` does not divide, in the same order. -/
theorem filter_yields (g : Generator) (prime : Int) :
    (filter g prime).values = g.values.filter fun x => decide (¬ prime ∣ x) := by
  unfold filter
  rw [filter_values _ _ _ _ (by decide)]
  apply List.filter_congr
  intro x _
  exact decide_eq_decide.mpr (not_congr Int.dvd_iff_tmod_eq_zero.symm)

end PrimeSieve

namespace PrimeSieve

/-- The loop of `filter` leaves the coroutine at a `co_yield` or at its end. -/
theorem filter_loop_point :
    ∀ (fuel : Nat) (m : Int) (g0 : Generator) (prime : Int) (g1 : Generator),
      Generator.filter_loop fuel m g0 prime = some g1 →
        g1.point = some Point.yield ∨ g1.point = some Point.final := by
  intro fuel
  induction fuel with
  | zero =>
    intro m g0 prime g1 h
    simp [Generator.filter_loop] at h
  | succ k ih =>
    intro m g0 prime g1 h
    simp only [Generator.filter_loop] at h
    cases hn : Generator.next k g0 with
    | none =>
      rw [hn] at h
      cases h
    | some r =>
      obtain ⟨v, g2, b⟩ := r
      rw [hn] at h
      cases v with
      | none =>
        simp only [Option.some.injEq] at h
        subst h
        exact Or.inr rfl
      | some x =>
        simp only at h
        by_cases hx : x.tmod prime ≠ 0
        · rw [if_pos hx, Option.some.injEq] at h
          subst h
          exact Or.inl rfl
        · rw [if_neg hx] at h
          exact ih m g2 prime g1 h

/-- A resumed coroutine runs to its next `co_yield` or to its end. -/
theorem resume_point (fuel : Nat) (g g1 : Generator) (h : Generator.resume fuel g = some g1)
    (hg : g ≠ Generator.null) :
    g1.point = some Point.yield ∨ g1.point = some Point.final := by
  cases fuel with
  | zero => simp [Generator.resume] at h
  | succ k =>
    cases g with
    | null => exact absurd rfl hg
    | source at_ v e x =>
      simp only [Generator.resume] at h
      generalize (if at_ = Point.initial then (2 : Int) else x + 1) = a at h
      by_cases ha : a < e
      · rw [if_pos ha, Option.some.injEq] at h
        subst h
        exact Or.inl rfl
      · rw [if_neg ha, Option.some.injEq] at h
        subst h
        exact Or.inr rfl
    | filter at_ v g0 p =>
      simp only [Generator.resume] at h
      exact filter_loop_point k v g0 p g1 h

end PrimeSieve

namespace PrimeSieve

/-- C20. A call of `next` that returns resumes the coroutine exactly when the
handle is not null and the coroutine not done, and then the coroutine runs to
a `co_yield` or to its end; at a `co_yield` the call returns the value of
`m_value`, at the end `nullopt`; without a resume it returns `nullopt` and
leaves the generator as it was. After a `nullopt` every later call returns
`nullopt`, does not resume and leaves the generator as it is. A generator
whose handle has been released, by the move constructor or the move
assignment, has a null handle and `next` returns `nullopt` on it. With enough
fuel the call returns. -/
theorem C20_next_safe_and_sticky (g : Generator) (fuel : Nat) (v : Option Int)
    (g1 : Generator) (b : Bool) (h : g.next fuel = some (v, g1, b)) :
    (b = true ↔ (g ≠ Generator.null ∧ g.done = false)) ∧
    (b = true → ∃ k, fuel = k + 1 ∧ Generator.resume k g = some g1) ∧
    (b = true → g1.point = some Point.yield ∨ g1.point = some Point.final) ∧
    (b = true → g1.point = some Point.yield → v = g1.m_value ∧ v ≠ none) ∧
    (b = true → g1.point = some Point.final → v = none) ∧
    (b = false → g1 = g ∧ v = none) ∧
    (v = none → ∀ fuel2, g1.next (fuel2 + 1) = some (none, g1, false)) ∧
    (∀ fuel2, g.release_handle.2.next (fuel2 + 1) = some (none, Generator.null, false)) ∧
    (∀ (t : Generator) fuel2, (t.move_assign g).2.next (fuel2 + 1) =
      some (none, Generator.null, false)) ∧
    (∃ N v0 g0 b0, ∀ fuel0, N ≤ fuel0 → g.next fuel0 = some (v0, g0, b0)) := by
  obtain ⟨h1, h2, h3, h4, h5⟩ := g.next_cases fuel v g1 b h
  have hpt : b = true → g1.point = some Point.yield ∨ g1.point = some Point.final := by
    intro hb
    obtain ⟨k, -, hr⟩ := h3 hb
    exact resume_point k g g1 hr (h1.mp hb).1
  refine ⟨h1, h3, hpt, ?_, ?_, h2, ?_, ?_, ?_, ?_⟩
  · intro hb hy
    cases v with
    | none =>
      rcases h4.mp rfl with hn | hd
      · rw [hn] at hy
        cases hy
      · cases g1 with
        | null => cases hy
        | source at_ m e x =>
          simp only [Generator.point, Option.some.injEq] at hy
          subst hy
          simp [Generator.done] at hd
        | filter at_ m g0 p =>
          simp only [Generator.point, Option.some.injEq] at hy
          subst hy
          simp [Generator.done] at hd
    | some x =>
      refine ⟨?_, fun hc => (by cases hc)⟩
      rcases h5 x rfl with ⟨e, y, rfl⟩ | ⟨g0, p, rfl⟩ | ⟨e, y, rfl⟩ | ⟨g0, p, rfl⟩ <;> rfl
  · intro hb hf
    apply h4.mpr
    right
    cases g1 with
    | null => cases hf
    | source at_ m e x =>
      simp only [Generator.point, Option.some.injEq] at hf
      subst hf
      rfl
    | filter at_ m g0 p =>
      simp only [Generator.point, Option.some.injEq] at hf
      subst hf
      rfl
  · intro hv fuel2
    exact g1.next_finished fuel2 (h4.mp hv)
  · intro fuel2
    exact Generator.null.next_finished fuel2 (Or.inl rfl)
  · intro t fuel2
    exact Generator.null.next_finished fuel2 (Or.inl rfl)
  · obtain ⟨N, g0, b0, hn, -, -⟩ := next_spec g
    exact ⟨N, g.values.head?, g0, b0, hn⟩

/-- C20 at the generator `source(2)`, which yields nothing: the first call of
`next` resumes the coroutine, which runs to its end, and returns `nullopt`;
every later call returns `nullopt` without a resume. -/
theorem C20_next_safe_and_sticky_witness :
    (source 2).next 2 = some (none, Generator.source Point.final 0 2 2, true) ∧
    (Generator.source Point.final 0 2 2).point = some Point.final ∧
    (∀ fuel2, (Generator.source Point.final 0 2 2).next (fuel2 + 1) =
      some (none, Generator.source Point.final 0 2 2, false)) ∧
    (∀ fuel2, (source 2).release_handle.2.next (fuel2 + 1) =
      some (none, Generator.null, false)) := by
  have h : (source 2).next 2 = some (none, Generator.source Point.final 0 2 2, true) := by
    decide
  obtain ⟨-, -, -, -, -, -, h7, h8, -, -⟩ :=
    C20_next_safe_and_sticky (source 2) 2 none (Generator.source Point.final 0 2 2) true h
  exact ⟨h, rfl, h7 rfl, h8⟩

end PrimeSieve

namespace PrimeSieve

/-! ## The sieve -/

theorem mem_candidates (e : Int) (k : Nat) (x : Int) :
    x ∈ candidates e k ↔ 2 ≤ x ∧ x < e ∧ k ≤ Nat.minFac x.toNat := by
  unfold candidates
  rw [List.mem_filter, mem_ints, decide_eq_true_eq, and_assoc]

theorem candidates_sorted (e : Int) (k : Nat) :
    (candidates e k).Pairwise (fun x y => x < y) :=
  (ints_sorted 2 e).sublist (List.filter_sublist _)

/-- The first candidate is the least one, and it is a prime number. -/
theorem candidates_head (e : Int) (k : Nat) (p : Int) (rest : List Int)
    (h : candidates e k = p :: rest) :
    2 ≤ p ∧ p < e ∧ k ≤ Nat.minFac p.toNat ∧ (∀ y ∈ rest, p < y) ∧
      (∀ y ∈ candidates e k, p ≤ y) ∧ Nat.Prime p.toNat := by
  have hmem : p ∈ candidates e k := by
    rw [h]
    exact List.mem_cons_self _ _
  obtain ⟨h2, he, hk⟩ := (mem_candidates e k p).mp hmem
  have hs := candidates_sorted e k
  rw [h, List.pairwise_cons] at hs
  have hmin : ∀ y ∈ candidates e k, p ≤ y := by
    intro y hy
    rw [h, List.mem_cons] at hy
    rcases hy with rfl | hy
    · exact le_refl _
    · exact le_of_lt (hs.1 y hy)
  refine ⟨h2, he, hk, hs.1, hmin, ?_⟩
  have hP1 : p.toNat ≠ 1 := by omega
  have hq : Nat.Prime (Nat.minFac p.toNat) := Nat.minFac_prime hP1
  have hqle : Nat.minFac p.toNat ≤ p.toNat := Nat.minFac_le (by omega)
  have hqmem : ((Nat.minFac p.toNat : Nat) : Int) ∈ candidates e k := by
    rw [mem_candidates, Int.toNat_natCast, hq.minFac_eq]
    have := hq.two_le
    exact ⟨by omega, by omega, hk⟩
  have hge := hmin _ hqmem
  have heq : Nat.minFac p.toNat = p.toNat := by omega
  rw [← heq]
  exact hq

theorem int_dvd_toNat (p x : Int) (hp : 0 ≤ p) (hx : 0 ≤ x) : p ∣ x ↔ p.toNat ∣ x.toNat := by
  conv_lhs => rw [← Int.toNat_of_nonneg hp, ← Int.toNat_of_nonneg hx]
  exact Int.natCast_dvd_natCast

/-- Removing the multiples of the first candidate from the others leaves the
candidates for the next round. -/
theorem candidates_step (e : Int) (k : Nat) (p : Int) (rest : List Int)
    (h : candidates e k = p :: rest) :
    rest.filter (fun x => decide (¬ p ∣ x)) = candidates e (p.toNat + 1) := by
  obtain ⟨h2, he, hk, -, hmin, hprime⟩ := candidates_head e k p rest h
  have h1 : rest.filter (fun x => decide (¬ p ∣ x)) =
      (candidates e k).filter (fun x => decide (¬ p ∣ x)) := by
    rw [h, List.filter_cons]
    simp
  rw [h1]
  unfold candidates
  rw [List.filter_filter]
  apply List.filter_congr
  intro x hx
  rw [mem_ints] at hx
  rw [← Bool.decide_and, decide_eq_decide, int_dvd_toNat p x (by omega) (by omega)]
  constructor
  · rintro ⟨hnd, hkx⟩
    have hX1 : x.toNat ≠ 1 := by omega
    have hq : Nat.Prime (Nat.minFac x.toNat) := Nat.minFac_prime hX1
    have hqle : Nat.minFac x.toNat ≤ x.toNat := Nat.minFac_le (by omega)
    have hqmem : ((Nat.minFac x.toNat : Nat) : Int) ∈ candidates e k := by
      rw [mem_candidates, Int.toNat_natCast, hq.minFac_eq]
      have := hq.two_le
      exact ⟨by omega, by omega, hkx⟩
    have hge := hmin _ hqmem
    have hne : Nat.minFac x.toNat ≠ p.toNat := by
      intro hc
      apply hnd
      rw [← hc]
      exact Nat.minFac_dvd _
    omega
  · intro hlt
    constructor
    · intro hd
      have := Nat.minFac_le_of_dvd (by omega : 2 ≤ p.toNat) hd
      omega
    · have : Nat.minFac p.toNat ≤ p.toNat := Nat.minFac_le (by omega)
      omega

/-- The primes among the candidates: the first candidate, then the primes
among the candidates for the next round. -/
theorem candidates_primes (e : Int) (k : Nat) (p : Int) (rest : List Int)
    (h : candidates e k = p :: rest) :
    (candidates e k).filter (fun x => decide (Nat.Prime x.toNat)) =
      p :: (candidates e (p.toNat + 1)).filter (fun x => decide (Nat.Prime x.toNat)) := by
  obtain ⟨h2, he, hk, hrest, hmin, hprime⟩ := candidates_head e k p rest h
  rw [← candidates_step e k p rest h, h, List.filter_cons, decide_eq_true hprime,
    List.filter_filter]
  simp only [if_true, List.cons.injEq, true_and]
  apply List.filter_congr
  intro x hx
  have hpx := hrest x hx
  rw [← Bool.decide_and, decide_eq_decide, int_dvd_toNat p x (by omega) (by omega)]
  constructor
  · intro hxp
    refine ⟨hxp, ?_⟩
    intro hd
    rcases (Nat.dvd_prime hxp).mp hd with h1 | h1
    · omega
    · omega
  · exact fun hh => hh.1

end PrimeSieve

namespace PrimeSieve

/-- Successive calls of `next` return the values of the generator. -/
theorem drain_values :
    ∀ (n : Nat) (g : Generator), g.values.length = n →
      ∃ N, ∀ fuel, N ≤ fuel → g.drain fuel = some g.values := by
  intro n
  induction n with
  | zero =>
    intro g hlen
    obtain ⟨N, g1, b, hnext, -, -⟩ := next_spec g
    have hv : g.values = [] := List.length_eq_zero.mp hlen
    refine ⟨N + 1, ?_⟩
    intro fuel hf
    obtain ⟨k, rfl⟩ : ∃ k, fuel = k + 1 := ⟨fuel - 1, by omega⟩
    have h := hnext k (by omega)
    rw [hv] at h
    simp only [Generator.drain, h, List.head?_nil, hv]
  | succ n ih =>
    intro g hlen
    obtain ⟨N, g1, b, hnext, hvals, -⟩ := next_spec g
    cases hv : g.values with
    | nil =>
      rw [hv] at hlen
      cases hlen
    | cons x rest =>
      rw [hv] at hvals hlen
      simp only [List.tail_cons] at hvals
      obtain ⟨N1, h1⟩ := ih g1 (by rw [hvals]; simpa using hlen)
      refine ⟨max N N1 + 1, ?_⟩
      intro fuel hf
      obtain ⟨k, rfl⟩ : ∃ k, fuel = k + 1 := ⟨fuel - 1, by omega⟩
      have h := hnext k (by omega)
      rw [hv] at h
      simp only [Generator.drain, h, List.head?_cons, h1 k (by omega), hvals, Option.map_some']

/-- The loop of `main`, started with a generator that yields the candidates of
a round: it terminates and prints the primes among them. -/
theorem main_loop_spec (e : Int) :
    ∀ (n : Nat) (g : Generator) (k : Nat) (out : List Int), g.values.length = n →
      g.values = candidates e k →
      ∃ N, ∀ fuel, N ≤ fuel → main_loop fuel g out =
        some (out ++ (candidates e k).filter (fun x => decide (Nat.Prime x.toNat))) := by
  intro n
  induction n using Nat.strong_induction_on with
  | _ n ih =>
    intro g k out hlen hc
    obtain ⟨N, g1, b, hnext, hvals, -⟩ := next_spec g
    cases hv : g.values with
    | nil =>
      refine ⟨N + 1, ?_⟩
      intro fuel hf
      obtain ⟨j, rfl⟩ : ∃ j, fuel = j + 1 := ⟨fuel - 1, by omega⟩
      have h := hnext j (by omega)
      rw [hv] at h
      rw [← hc, hv]
      simp only [main_loop, h, List.head?_nil, List.filter_nil, List.append_nil]
    | cons p rest =>
      rw [hv] at hvals
      simp only [List.tail_cons] at hvals
      have hck : candidates e k = p :: rest := by rw [← hc, hv]
      have hv2 : (filter g1 p).values = candidates e (p.toNat + 1) := by
        rw [filter_yields, hvals]
        exact candidates_step e k p rest hck
      have hlt : (filter g1 p).values.length < n := by
        rw [filter_yields, hvals, ← hlen, hv, List.length_cons]
        exact Nat.lt_succ_of_le (List.length_filter_le _ _)
      obtain ⟨N1, h1⟩ := ih _ hlt (filter g1 p) (p.toNat + 1) (out ++ [p]) rfl hv2
      refine ⟨max N N1 + 1, ?_⟩
      intro fuel hf
      obtain ⟨j, rfl⟩ : ∃ j, fuel = j + 1 := ⟨fuel - 1, by omega⟩
      have h := hnext j (by omega)
      rw [hv] at h
      rw [candidates_primes e k p rest hck]
      simp only [main_loop, h, List.head?_cons, Generator.release_handle, Generator.move_assign]
      rw [h1 j (by omega), List.append_assoc]
      rfl

/-- The function `main` terminates and prints the primes below `end_`. -/
theorem main_spec (e : Int) :
    ∃ N, ∀ fuel, N ≤ fuel →
      main fuel e = some ((ints 2 e).filter (fun x => decide (Nat.Prime x.toNat))) := by
  have hc : candidates e 0 = ints 2 e := by
    unfold candidates
    rw [List.filter_eq_self]
    intro x _
    simp
  obtain ⟨N, h⟩ := main_loop_spec e (source e).values.length (source e) 0 [] rfl
    (by rw [hc]; rfl)
  refine ⟨N, ?_⟩
  intro fuel hf
  rw [main, h fuel hf, hc]
  rfl

end PrimeSieve

namespace PrimeSieve

/-- C18. For every `end_` the function `main` terminates, and the numbers it
prints are the integers from 2 below `end_` that are prime, in ascending order
and so each once: a number is printed exactly when it is a prime `p` with
`2 ≤ p < end_`, and nothing is printed when `end_ ≤ 2`. For a divisor that is
not 0, the successive calls of `next` on `filter(g, prime)` return the values
that the calls on `g` return, without those that `prime` divides, in the same
order. -/
theorem C18_prime_sieve (end_ : Int) :
    (∃ N, ∀ fuel, N ≤ fuel →
      main fuel end_ = some ((ints 2 end_).filter fun x => decide (Nat.Prime x.toNat))) ∧
    ((ints 2 end_).filter fun x => decide (Nat.Prime x.toNat)).Pairwise (fun x y => x < y) ∧
    (∀ x, x ∈ ((ints 2 end_).filter fun x => decide (Nat.Prime x.toNat)) ↔
      (2 ≤ x ∧ x < end_ ∧ Nat.Prime x.toNat)) ∧
    (∀ p : Nat, Nat.Prime p → (p : Int) < end_ →
      (p : Int) ∈ ((ints 2 end_).filter fun x => decide (Nat.Prime x.toNat))) ∧
    (end_ ≤ 2 → ((ints 2 end_).filter fun x => decide (Nat.Prime x.toNat)) = []) ∧
    (∀ (g : Generator) (prime : Int), prime ≠ 0 →
      ∃ N, ∀ fuel, N ≤ fuel → g.drain fuel = some g.values ∧
        (filter g prime).drain fuel = some (g.values.filter fun x => decide (¬ prime ∣ x))) := by
  have hmem : ∀ x, x ∈ ((ints 2 end_).filter fun x => decide (Nat.Prime x.toNat)) ↔
      (2 ≤ x ∧ x < end_ ∧ Nat.Prime x.toNat) := by
    intro x
    rw [List.mem_filter, mem_ints, decide_eq_true_eq, and_assoc]
  refine ⟨main_spec end_, (ints_sorted 2 end_).sublist (List.filter_sublist _), hmem, ?_, ?_, ?_⟩
  · intro p hp hlt
    rw [hmem, Int.toNat_natCast]
    have := hp.two_le
    exact ⟨by omega, hlt, hp⟩
  · intro he
    rw [ints_nil 2 end_ (by omega)]
    rfl
  · intro g prime _
    obtain ⟨N1, h1⟩ := drain_values g.values.length g rfl
    obtain ⟨N2, h2⟩ := drain_values (filter g prime).values.length (filter g prime) rfl
    refine ⟨max N1 N2, ?_⟩
    intro fuel hf
    refine ⟨h1 fuel (by omega), ?_⟩
    rw [h2 fuel (by omega), filter_yields]

/-- C18 at `end_ = 40`: the run of `main` with fuel 300 prints the twelve
primes below 40, and so does every run with enough fuel. -/
theorem C18_prime_sieve_witness :
    main 300 40 = some [2, 3, 5, 7, 11, 13, 17, 19, 23, 29, 31, 37] ∧
    (∃ N, ∀ fuel, N ≤ fuel →
      main fuel 40 = some [2, 3, 5, 7, 11, 13, 17, 19, 23, 29, 31, 37]) ∧
    (∃ N, ∀ fuel, N ≤ fuel → (filter (source 10) 2).drain fuel = some [3, 5, 7, 9]) := by
  have hl : ((ints 2 40).filter fun x => decide (Nat.Prime x.toNat)) =
      [2, 3, 5, 7, 11, 13, 17, 19, 23, 29, 31, 37] := by
    decide
  obtain ⟨⟨N, h1⟩, -, -, -, -, h6⟩ := C18_prime_sieve 40
  obtain ⟨N2, h2⟩ := h6 (source 10) 2 (by decide)
  refine ⟨by decide, ⟨N, ?_⟩, ⟨N2, ?_⟩⟩
  · intro fuel hf
    rw [h1 fuel hf, hl]
  · intro fuel hf
    rw [(h2 fuel hf).2]
    decide

end PrimeSieve

namespace FizzBuzz

/-! ## The periodic demo -/

/-- Packet `i - 1` of `fizz` has four bytes exactly when 3 divides `i`, and
then it is the marker. -/
theorem fizz_packet (i : Nat) (h1 : 1 ≤ i) (h20 : i ≤ 20) :
    (if ((packet fizz_writes (i - 1)).length : Int) = 4 then
        (packet fizz_writes (i - 1)).take 4 else []) =
      (if i % 3 = 0 then ['F', 'i', 'z', 'z'] else []) ∧
    (((packet fizz_writes (i - 1)).length : Int) = 4 ↔ i % 3 = 0) := by
  interval_cases i <;> decide

/-- Packet `i - 1` of `buzz` has four bytes exactly when 5 divides `i`, and
then it is the marker. -/
theorem buzz_packet (i : Nat) (h1 : 1 ≤ i) (h20 : i ≤ 20) :
    (if ((packet buzz_writes (i - 1)).length : Int) = 4 then
        (packet buzz_writes (i - 1)).take 4 else []) =
      (if i % 5 = 0 then ['B', 'u', 'z', 'z'] else []) ∧
    (((packet buzz_writes (i - 1)).length : Int) = 4 ↔ i % 5 = 0) := by
  interval_cases i <;> decide

/-- The pieces that `consume` writes in round `i` make up line `i`. -/
theorem line_pieces (i : Nat) (h1 : 1 ≤ i) (h20 : i ≤ 20) :
    ((if i % 3 = 0 then ['F', 'i', 'z', 'z'] else []) ++
      (if i % 5 = 0 then ['B', 'u', 'z', 'z'] else []) ++
      (if i % 3 = 0 ∨ i % 5 = 0 then [] else decimal (i : Int))) = fizzbuzz_line i ∧
    (decimal (i : Int)).length < 64 := by
  interval_cases i <;> decide

end FizzBuzz

namespace FizzBuzz

/-- What `consume` does when its read of the `buzz` pipe has completed: it
writes the rest of the line; in round 20 it sets `done` and returns, in the
other rounds it goes on to the next read. -/
theorem consume_buzz (d : Descriptors) (l : Consume) (r : AsyncIOResult)
    (hat : l.at_ = Label.buzz) (h64 : (decimal l.iteration).length < 64) :
    (consume d l r).1.stdout =
      l.stdout ++ (if r.1 = 4 then l.buf.take 4 else []) ++
        (if l.fizzy_buzzy = true ∨ r.1 = 4 then [] else decimal l.iteration) ++ ['\n'] ∧
    (consume d l r).1.iteration = l.iteration + 1 ∧
    (l.iteration = 20 → (consume d l r).2 = Action.co_return ∧ (consume d l r).1.done = true) ∧
    (l.iteration ≠ 20 → (consume d l r).2 ≠ Action.co_return ∧
      (consume d l r).1.done = l.done ∧
      (l.num_timer_events ≠ 0 →
        (consume d l r).1.at_ = Label.fizz ∧ (consume d l r).1.fizzy_buzzy = false) ∧
      (l.num_timer_events = 0 → (consume d l r).1.at_ = Label.timer)) := by
  obtain ⟨at_, it, nte, buf, fb, out, dn⟩ := l
  simp only at hat h64
  subst hat
  by_cases hi : it = 20
  · subst hi
    by_cases hr : r.1 = 4 <;> by_cases hf : fb = true <;> by_cases hn : nte = 0 <;>
      simp [consume, consume_loop, hr, hf, hn, h64]
  · by_cases hr : r.1 = 4 <;> by_cases hf : fb = true <;> by_cases hn : nte = 0 <;>
      simp [consume, consume_loop, hr, hf, hn, hi, h64]

/-- One completed read takes a suspended consumer to its end, with the 20
lines written, or to a later suspension. -/
theorem deliver_step (d : Descriptors) (ticks : Nat → Nat) (hticks : ∀ k, 0 < ticks k)
    (s : Demo) (i : Nat) (h : Suspended s i) :
    Finished (deliver d ticks s) ∨
      ∃ j, Suspended (deliver d ticks s) j ∧
        remaining (deliver d ticks s) j < remaining s i := by
  obtain ⟨⟨at_, it, nte, buf, fb, out, dn⟩, comp, tr, fr, br⟩ := s
  obtain ⟨h1, h20, hc, hd, hit, hbr, hrest⟩ := h
  simp only at hc hd hit hbr hrest
  subst hc hd hit hbr
  cases at_ with
  | start => exact absurd hrest id
  | timer =>
    obtain ⟨hfr, hout⟩ := hrest
    subst hfr hout
    right
    refine ⟨i, ?_, ?_⟩
    · have hne : ticks tr ≠ 0 := Nat.pos_iff_ne_zero.mp (hticks tr)
      simp [Suspended, deliver, consume, consume_loop, Demo.next, hne, h1, h20]
    · have hne : ticks tr ≠ 0 := Nat.pos_iff_ne_zero.mp (hticks tr)
      simp [remaining, deliver, consume, consume_loop, Demo.next, hne]
      omega
  | fizz =>
    obtain ⟨hfr, hout, hfb⟩ := hrest
    subst hfr hout hfb
    obtain ⟨hp1, hp2⟩ := fizz_packet i h1 h20
    right
    refine ⟨i, ?_, ?_⟩
    · by_cases h3 : i % 3 = 0
      · have hlen := hp2.mpr h3
        rw [if_pos hlen, if_pos h3] at hp1
        simp [Suspended, deliver, consume, Demo.next, h1, h20, hlen, h3, hp1]
      · have hlen : ¬ ((packet fizz_writes (i - 1)).length : Int) = 4 := fun hc => h3 (hp2.mp hc)
        simp [Suspended, deliver, consume, Demo.next, h1, h20, hlen, h3]
    · simp [remaining, deliver, consume, Demo.next]
      omega
  | buzz =>
    obtain ⟨hfr, hout, hfb⟩ := hrest
    subst hout hfb
    subst hfr
    obtain ⟨hp1, hp2⟩ := buzz_packet fr h1 h20
    obtain ⟨hl1, hl2⟩ := line_pieces fr h1 h20
    have hlines : fizzbuzz_lines fr = fizzbuzz_lines (fr - 1) ++ fizzbuzz_line fr ++ ['\n'] := by
      obtain ⟨k, rfl⟩ : ∃ k, fr = k + 1 := ⟨fr - 1, by omega⟩
      rfl
    have h64 : (decimal (fr : Int)).length < 64 := hl2
    obtain ⟨c1, c2, c3, c4⟩ := consume_buzz d
      { at_ := Label.buzz, iteration := (fr : Int), num_timer_events := nte,
        buf := packet buzz_writes (fr - 1), fizzy_buzzy := decide (fr % 3 = 0),
        stdout := fizzbuzz_lines (fr - 1) ++ (if fr % 3 = 0 then ['F', 'i', 'z', 'z'] else []),
        done := false }
      (((packet buzz_writes (fr - 1)).length : Int), 0) rfl h64
    simp only at c1 c2 c3 c4
    have hout : fizzbuzz_lines (fr - 1) ++ (if fr % 3 = 0 then ['F', 'i', 'z', 'z'] else []) ++
        (if ((packet buzz_writes (fr - 1)).length : Int) = 4 then
          (packet buzz_writes (fr - 1)).take 4 else []) ++
        (if decide (fr % 3 = 0) = true ∨ ((packet buzz_writes (fr - 1)).length : Int) = 4 then []
          else decimal (fr : Int)) ++ ['\n'] = fizzbuzz_lines fr := by
      rw [hlines, ← hl1, hp1]
      simp only [decide_eq_true_eq, hp2, List.append_assoc]
    rw [hout] at c1
    have hdel : deliver d ticks
        { consumer :=
            { at_ := Label.buzz, iteration := (fr : Int), num_timer_events := nte, buf := buf,
              fizzy_buzzy := decide (fr % 3 = 0),
              stdout := fizzbuzz_lines (fr - 1) ++
                (if fr % 3 = 0 then ['F', 'i', 'z', 'z'] else []),
              done := false },
          completed := false, timer_reads := tr, fizz_reads := fr, buzz_reads := fr - 1 } =
        Demo.next
          { consumer :=
              { at_ := Label.buzz, iteration := (fr : Int), num_timer_events := nte, buf := buf,
                fizzy_buzzy := decide (fr % 3 = 0),
                stdout := fizzbuzz_lines (fr - 1) ++
                  (if fr % 3 = 0 then ['F', 'i', 'z', 'z'] else []),
                done := false },
            completed := false, timer_reads := tr, fizz_reads := fr, buzz_reads := fr - 1 + 1 }
          (consume d
            { at_ := Label.buzz, iteration := (fr : Int), num_timer_events := nte,
              buf := packet buzz_writes (fr - 1), fizzy_buzzy := decide (fr % 3 = 0),
              stdout := fizzbuzz_lines (fr - 1) ++
                (if fr % 3 = 0 then ['F', 'i', 'z', 'z'] else []),
              done := false }
            (((packet buzz_writes (fr - 1)).length : Int), 0)) := rfl
    rw [hdel]
    generalize consume d
      { at_ := Label.buzz, iteration := (fr : Int), num_timer_events := nte,
        buf := packet buzz_writes (fr - 1), fizzy_buzzy := decide (fr % 3 = 0),
        stdout := fizzbuzz_lines (fr - 1) ++ (if fr % 3 = 0 then ['F', 'i', 'z', 'z'] else []),
        done := false }
      (((packet buzz_writes (fr - 1)).length : Int), 0) = x at c1 c2 c3 c4
    by_cases hi : fr = 20
    · left
      obtain ⟨e1, e2⟩ := c3 (by omega)
      subst hi
      exact ⟨by simp [Demo.next, e1], e2, c1⟩
    · right
      obtain ⟨e1, e2, e3, e4⟩ := c4 (by omega)
      refine ⟨fr + 1, ?_, ?_⟩
      · by_cases hn : nte = 0
        · have e5 := e4 hn
          simp [Suspended, Demo.next, e1, e2, e5, c1, c2]
          omega
        · obtain ⟨e5, e6⟩ := e3 hn
          simp [Suspended, Demo.next, e1, e2, e5, e6, c1, c2]
          omega
      · by_cases hn : nte = 0
        · have e5 := e4 hn
          simp [remaining, Demo.next, e5]
          omega
        · obtain ⟨e5, e6⟩ := e3 hn
          simp [remaining, Demo.next, e5]
          omega

end FizzBuzz

namespace FizzBuzz

theorem after_eq_iterate (d : Descriptors) (ticks : Nat → Nat) (n : Nat) :
    after d ticks n = (deliver d ticks)^[n] (start d) := by
  induction n with
  | zero => rfl
  | succ n ih => rw [Function.iterate_succ_apply', ← ih, after]

/-- The consumer is suspended in the read of the timer when `main` has called
it, in round 1 with nothing written. -/
theorem start_suspended (d : Descriptors) : Suspended (start d) 1 ∧ remaining (start d) 1 = 60 := by
  constructor
  · simp [Suspended, start, consume, fizzbuzz_lines]
  · simp [remaining, start, consume]

/-- A suspended consumer reaches its end after at most `remaining` reads, and
it is suspended until then. -/
theorem reaches_end (d : Descriptors) (ticks : Nat → Nat) (hticks : ∀ k, 0 < ticks k) :
    ∀ (k : Nat) (s : Demo) (i : Nat), Suspended s i → remaining s i ≤ k →
      ∃ n, n ≤ k ∧ Finished ((deliver d ticks)^[n] s) ∧
        ∀ m, m < n → ∃ j, Suspended ((deliver d ticks)^[m] s) j := by
  intro k
  induction k with
  | zero =>
    intro s i hs hr
    exfalso
    have h20 := hs.2.1
    unfold remaining at hr
    split at hr <;> omega
  | succ k ih =>
    intro s i hs hr
    rcases deliver_step d ticks hticks s i hs with hfin | ⟨j, hj, hlt⟩
    · refine ⟨1, by omega, hfin, ?_⟩
      intro m hm
      obtain rfl : m = 0 := by omega
      exact ⟨i, hs⟩
    · obtain ⟨n, hn, hfin, hbefore⟩ := ih (deliver d ticks s) j hj (by omega)
      refine ⟨n + 1, by omega, ?_, ?_⟩
      · rw [Function.iterate_succ_apply]
        exact hfin
      · intro m hm
        cases m with
        | zero => exact ⟨i, hs⟩
        | succ m =>
          rw [Function.iterate_succ_apply]
          exact hbefore m (by omega)

/-- The first `k` lines have `k` new lines. -/
theorem fizzbuzz_lines_count (k : Nat) (hk : k ≤ 20) :
    (fizzbuzz_lines k).count '\n' = k := by
  interval_cases k <;> decide

/-- A suspended consumer has written fewer than 20 lines. -/
theorem suspended_count (s : Demo) (i : Nat) (h : Suspended s i) :
    s.completed = false ∧ s.consumer.done = false ∧ s.consumer.stdout.count '\n' < 20 := by
  obtain ⟨h1, h20, hc, hd, -, -, hrest⟩ := h
  refine ⟨hc, hd, ?_⟩
  have hcount := fizzbuzz_lines_count (i - 1) (by omega)
  cases hat : s.consumer.at_ with
  | start =>
    rw [hat] at hrest
    exact absurd hrest id
  | timer =>
    rw [hat] at hrest
    rw [hrest.2, hcount]
    omega
  | fizz =>
    rw [hat] at hrest
    rw [hrest.2.1, hcount]
    omega
  | buzz =>
    rw [hat] at hrest
    rw [hrest.2.1, List.count_append, hcount]
    have : (if i % 3 = 0 then ['F', 'i', 'z', 'z'] else []).count '\n' = 0 := by
      split <;> decide
    omega

/-- Nothing happens to a consumer that has returned. -/
theorem deliver_completed (d : Descriptors) (ticks : Nat → Nat) (s : Demo)
    (h : s.completed = true) (n : Nat) : (deliver d ticks)^[n] s = s := by
  induction n with
  | zero => rfl
  | succ n ih =>
    rw [Function.iterate_succ_apply', ih]
    simp [deliver, h]

end FizzBuzz

namespace FizzBuzz

/-- C15. Let read number `k` of the timer store the count `ticks k`, which is
positive, and let read number `k` of each pipe return packet number `k` of the
producer of the pipe. Then after some number `n` of its reads, at most 60, the
consumer has returned, `done` is set, and what it has written is the 20 lines
of `fizzbuzz_lines 20`, where line `i` is `FizzBuzz` when 15 divides `i`,
`Fizz` when 3 divides it, `Buzz` when 5 divides it, and `i` in decimal
otherwise. Before that the consumer has not returned, `done` is not set and
fewer than 20 lines are written; after that nothing changes. The loop of
`main`, when it tests `done` then, returns 0. -/
theorem C15_periodic_demo (d : Descriptors) (ticks : Nat → Nat)
    (hticks : ∀ k, 0 < ticks k ∧ ticks k < UINT64) :
    ∃ n, n ≤ 60 ∧
      (after d ticks n).completed = true ∧
      (after d ticks n).consumer.done = true ∧
      (after d ticks n).consumer.stdout = fizzbuzz_lines 20 ∧
      (after d ticks n).consumer.stdout.count '\n' = 20 ∧
      (∀ m, m < n → (after d ticks m).completed = false ∧
        (after d ticks m).consumer.done = false ∧
        (after d ticks m).consumer.stdout.count '\n' < 20) ∧
      (∀ m, n ≤ m → after d ticks m = after d ticks n) ∧
      (∀ (fuel : Nat) (w : World Consume) (pos : List PollOutcome),
        event_loop (consume d) fuel (fun _ => (after d ticks n).consumer.done) w pos =
          .ok (0, w, pos)) := by
  obtain ⟨hs, hr⟩ := start_suspended d
  obtain ⟨n, hn, ⟨hc, hd, hout⟩, hbefore⟩ :=
    reaches_end d ticks (fun k => (hticks k).1) 60 (start d) 1 hs (by omega)
  refine ⟨n, hn, ?_, ?_, ?_, ?_, ?_, ?_, ?_⟩
  · rw [after_eq_iterate]
    exact hc
  · rw [after_eq_iterate]
    exact hd
  · rw [after_eq_iterate]
    exact hout
  · rw [after_eq_iterate, hout]
    exact fizzbuzz_lines_count 20 (by omega)
  · intro m hm
    obtain ⟨j, hj⟩ := hbefore m hm
    rw [after_eq_iterate]
    exact suspended_count _ j hj
  · intro m hm
    obtain ⟨k, rfl⟩ : ∃ k, m = k + n := ⟨m - n, by omega⟩
    rw [after_eq_iterate, after_eq_iterate, Function.iterate_add_apply]
    exact deliver_completed d ticks _ hc k
  · intro fuel w pos
    have hflag : (after d ticks n).consumer.done = true := by
      rw [after_eq_iterate]
      exact hd
    cases pos with
    | nil => simp [event_loop, hflag]
    | cons po pos => simp [event_loop, hflag]

/-- C15 with the descriptors 3 to 7 and a timer that reports one tick at each
read: the consumer returns after 60 reads with `done` set and the 20 lines
written, and not before. -/
theorem C15_periodic_demo_witness :
    ∃ n, n ≤ 60 ∧
      (after ⟨3, 4, 5, 6, 7⟩ (fun _ => 1) n).completed = true ∧
      (after ⟨3, 4, 5, 6, 7⟩ (fun _ => 1) n).consumer.done = true ∧
      (after ⟨3, 4, 5, 6, 7⟩ (fun _ => 1) n).consumer.stdout =
        "1\n2\nFizz\n4\nBuzz\nFizz\n7\n8\nFizz\nBuzz\n11\nFizz\n13\n14\nFizzBuzz\n16\n17\nFizz\n19\nBuzz\n".toList ∧
      (after ⟨3, 4, 5, 6, 7⟩ (fun _ => 1) 59).completed = false ∧
      (after ⟨3, 4, 5, 6, 7⟩ (fun _ => 1) 60).completed = true := by
  obtain ⟨n, h1, h2, h3, h4, -, -, -, -⟩ :=
    C15_periodic_demo ⟨3, 4, 5, 6, 7⟩ (fun _ => 1) (fun _ => ⟨Nat.one_pos, (by decide : 1 < UINT64)⟩)
  have hl : fizzbuzz_lines 20 =
      "1\n2\nFizz\n4\nBuzz\nFizz\n7\n8\nFizz\nBuzz\n11\nFizz\n13\n14\nFizzBuzz\n16\n17\nFizz\n19\nBuzz\n".toList := by
    decide
  have h59 : (after ⟨3, 4, 5, 6, 7⟩ (fun _ => 1) 59).completed = false := by
    set_option maxRecDepth 100000 in decide
  have h60 : (after ⟨3, 4, 5, 6, 7⟩ (fun _ => 1) 60).completed = true := by
    set_option maxRecDepth 100000 in decide
  exact ⟨n, h1, h2, h3, by rw [h4, hl], h59, h60⟩

end FizzBuzz
end CoroSched
